import Mathlib

/-!
# stupidcache: a sharded, file-backed page cache

Shallow embedding of `src/shard.hpp`, `src/shard.cpp`, `src/buffer_pool.hpp`
and `src/buffer_pool.cpp`, followed by theorems about it.

Modelling conventions.

* The backing file behind `fd_` is a list of bytes, passed to and returned by
  every operation that touches it.
* `pread` / `pwrite` belong to the operating system.  Each call of an
  operation receives, from its environment, one `IOOutcome` per system call
  it may issue; the outcome says whether the call fails or how many bytes it
  may transfer at most.
* `std::unordered_map<int, std::unique_ptr<Entry>>` is an association list
  kept in iteration order: `m_.begin()` is the head.  The position a new
  element takes in the iteration order is unspecified by the standard, so it
  is chosen by the environment (`slot`).  An insertion that makes the table
  grow may rehash it, which changes the order of all its elements: the order
  after a rehash is chosen by the environment too (`order`).
* An `Entry*` obtained from the table is modelled by the key under which the
  entry is stored.
* Locks are not modelled: every operation runs to completion on its own.
* Every operation returns, besides its result, the list of system calls it
  issued, in order.
-/

namespace cache

/-! ## Pages and the backing file -/

/-- One byte, `uint8_t`. -/
abbrev Byte := Fin 256

/-- Page size in bytes, `constexpr size_t pageSize = 4096`. -/
def pageSize : Nat := 4096

/-- Default number of shards, `constexpr int defaultNShards = 16`. -/
def defaultNShards : Int := 16

/-- Default capacity of a shard, `2048 / defaultNShards`. -/
def defaultMaxEntriesPerShard : Int := 2048 / defaultNShards

/-- Fixed-size page buffer, `std::array<uint8_t, pageSize>`. -/
abbrev PageBuf := { l : List Byte // l.length = pageSize }

/-- The value-initialised page `PageBuf val{}`: all bytes zero. -/
def PageBuf.zero : PageBuf := ⟨List.replicate pageSize 0, List.length_replicate _ _⟩

/-- Contents of the backing file; its length is the file size. -/
abbrev File := List Byte

/-- What the operating system decides about one `pread` / `pwrite` call:
the call fails, or it transfers at most `limit` bytes. -/
inductive IOOutcome where
  | error
  | transfer (limit : Nat)
deriving DecidableEq, Repr

/-- The outcome of a call that is not cut short. -/
def IOOutcome.full : IOOutcome := .transfer pageSize

/-- A system call issued on the backing file, with its return value. -/
inductive IOEvent where
  | pread (off : Int) (ret : Int)
  | pwrite (off : Int) (data : List Byte) (ret : Int)
deriving DecidableEq

/-- Return value of a recorded system call. -/
def IOEvent.ret : IOEvent → Int
  | .pread _ r => r
  | .pwrite _ _ r => r

/-- Whether the recorded call is a `pwrite`. -/
def IOEvent.isWrite : IOEvent → Bool
  | .pread _ _ => false
  | .pwrite _ _ _ => true

/-- The byte of the file at position `i`, zero past the end of the file. -/
def File.byteAt (f : File) (i : Nat) : Byte := f.getD i 0

/-- The `pageSize` bytes of the file starting at `off`, positions past the
end of the file read as zero. -/
def File.pageAt (f : File) (off : Nat) : List Byte :=
  (List.range pageSize).map (fun i => f.byteAt (off + i))

/-- The file after `data` has been stored at position `off`: a gap between the
old end of file and `off` is filled with zeros. -/
def File.writeAt (f : File) (off : Nat) (data : List Byte) : File :=
  if data = [] then f
  else (f ++ List.replicate (off - f.length) 0).take off ++ data ++ f.drop (off + data.length)

/-- POSIX `pread(fd, buf, pageSize, off)` into a page buffer: a failure (`-1`)
when the system reports an error or the offset is negative; otherwise the
bytes available at `off`, at most `pageSize` and at most what the outcome
allows, are copied to the front of `buf` and their number is returned.  The
rest of `buf` is left as it was. -/
def pread (f : File) (buf : PageBuf) (off : Int) (o : IOOutcome) : Int × PageBuf :=
  match o with
  | .error => (-1, buf)
  | .transfer limit =>
    if off < 0 then (-1, buf)
    else
      let data := ((f.drop off.toNat).take pageSize).take limit
      ((data.length : Int),
        ⟨data ++ buf.1.drop data.length, by
          have h := buf.2
          simp only [List.length_append, List.length_drop, List.length_take, data]
          omega⟩)

/-- POSIX `pwrite(fd, buf, pageSize, off)` from a page buffer: a failure (`-1`,
file unchanged) when the system reports an error or the offset is negative;
otherwise the first `n` bytes of `buf` are stored at `off`, where `n` is
`pageSize` cut down to what the outcome allows, and `n` is returned. -/
def pwrite (f : File) (buf : PageBuf) (off : Int) (o : IOOutcome) : Int × File :=
  match o with
  | .error => (-1, f)
  | .transfer limit =>
    if off < 0 then (-1, f)
    else
      let data := (buf.1.take pageSize).take limit
      ((data.length : Int), f.writeAt off.toNat data)

/-! ## Machine integers -/

/-- Conversion to `unsigned` (32 bits): `static_cast<unsigned>(x)`. -/
def toUnsigned (x : Int) : Nat := (x % 4294967296).toNat

/-- Conversion of a `size_t` to `int` (32 bits, two's complement):
`static_cast<int>(n)`. -/
def sizeToInt (n : Nat) : Int :=
  if n % 4294967296 < 2147483648 then ((n % 4294967296 : Nat) : Int)
  else ((n % 4294967296 : Nat) : Int) - 4294967296

/-- Largest value of `int`. -/
def intMax : Int := 2147483647

/-! ## Entry and Shard (`shard.hpp`, `shard.cpp`) -/

/-- Cached page: file offset (key), page data and dirty flag. -/
structure Entry where
  key : Int
  val : PageBuf
  isDirty : Bool
deriving DecidableEq

/-- The value built by `std::make_unique<Entry>()`. -/
def Entry.init : Entry := { key := 0, val := PageBuf.zero, isDirty := false }

/-- The page table `m_`, in iteration order. -/
abbrev Table := List (Int × Entry)

/-- `m_.find(key)`: the entry stored under `key`, if any. -/
def Table.find (m : Table) (key : Int) : Option Entry :=
  (List.find? (fun p => p.1 == key) m).map Prod.snd

/-- Assignment through an `Entry*`: the entry stored under `key` is replaced by
its image under `g`. -/
def Table.update (m : Table) (key : Int) (g : Entry → Entry) : Table :=
  m.map (fun p => if p.1 = key then (p.1, g p.2) else p)

/-- `m_[key] = e` when the table has room in its buckets: replaces the entry
stored under `key` when there is one, otherwise adds a new element, at
position `slot` of the iteration order (at the end when `slot` is past it);
the other elements keep their order. -/
def Table.assign (m : Table) (key : Int) (e : Entry) (slot : Nat) : Table :=
  match m.find key with
  | some _ => m.update key (fun _ => e)
  | none => m.take slot ++ (key, e) :: m.drop slot

/-- The keys of the table, in iteration order. -/
def Table.keys (m : Table) : List Int := m.map Prod.fst

/-- The table after a rehash: the same elements, in the order in which `order`
lists their keys.  A table of `std::unordered_map` holds every key once; when
`order` is not a listing of the keys of the table, each once, the table is
left as it is. -/
def Table.rehash (m : Table) (order : List Int) : Table :=
  if order.Nodup ∧ order.Perm (Table.keys m) then
    order.filterMap (fun k => (m.find k).map (fun e => (k, e)))
  else m

/-- Single shard: capacity and page table (the file behind `fd_` is passed
separately). -/
structure Shard where
  maxEntriesPerShard : Int
  m : Table
deriving DecidableEq

/-- Constructor `Shard(fd, maxEntriesPerShard)`: an empty table. -/
def Shard.new (maxEntriesPerShard : Int) : Shard :=
  { maxEntriesPerShard := maxEntriesPerShard, m := [] }

/-- The test `static_cast<int>(m_.size()) >= maxEntriesPerShard_` of `Shard::Get`. -/
def Shard.atCapacity (s : Shard) : Bool :=
  decide (sizeToInt s.m.length ≥ s.maxEntriesPerShard)

/-- What the environment decides during one call of `Shard::Get`: the outcome
of the write-back of the victim, the outcome of the page read, the place of
the new element in the iteration order, and the iteration order of the table
if the insertion rehashes it (the keys in their new order; by default no
order is given and the elements stay where they are). -/
structure GetEnv where
  evict : IOOutcome
  load : IOOutcome
  slot : Nat
  order : List Int := []
deriving DecidableEq

/-- The environment in which no call fails or is cut short and the new element
goes to the front of the iteration order. -/
def GetEnv.ok : GetEnv := { evict := .full, load := .full, slot := 0 }

/-- Result of `Shard::evictOneLocked`. -/
structure EvictResult where
  ret : Bool
  m : Table
  file : File
  trace : List IOEvent

/-- `Shard::evictOneLocked`: the first entry in iteration order is written back
when dirty and erased; `false`, with the table untouched, when the write does
not return `pageSize`; `true` on an empty table. -/
def evictOneLocked (m : Table) (f : File) (o : IOOutcome) : EvictResult :=
  match m with
  | [] => { ret := true, m := [], file := f, trace := [] }
  | (k, e) :: rest =>
    if e.isDirty then
      let w := pwrite f e.val k o
      if w.1 ≠ (pageSize : Int) then
        { ret := false, m := (k, e) :: rest, file := w.2,
          trace := [.pwrite k e.val.1 w.1] }
      else
        { ret := true, m := rest, file := w.2, trace := [.pwrite k e.val.1 w.1] }
    else
      { ret := true, m := rest, file := f, trace := [] }

/-- `std::memset(val.data() + n, 0, pageSize - n)`. -/
def memsetTail (buf : PageBuf) (n : Nat) : PageBuf :=
  ⟨buf.1.take n ++ List.replicate (pageSize - n) 0, by
    have h := buf.2
    simp only [List.length_append, List.length_take, List.length_replicate]
    omega⟩

/-- Lines 27-29 of `Shard::Get`: one entry is evicted when the table is at
capacity. -/
def Shard.makeRoom (s : Shard) (f : File) (o : IOOutcome) : EvictResult :=
  if s.atCapacity then evictOneLocked s.m f o
  else { ret := true, m := s.m, file := f, trace := [] }

/-- Lines 31-40 of `Shard::Get`: the new entry, with the page read from the
file at `key` into its zeroed buffer and, after a short read of at least one
byte, the rest of the buffer cleared.  The first component is the return value
of `pread`. -/
def loadEntry (f : File) (key : Int) (o : IOOutcome) : Int × Entry :=
  let r := pread f Entry.init.val key o
  let val : PageBuf :=
    if r.1 > 0 ∧ r.1 < (pageSize : Int) then memsetTail r.2 r.1.toNat else r.2
  (r.1, { Entry.init with key := key, isDirty := false, val := val })

/-- Line 43 of `Shard::Get`, `m_[key] = std::move(e)`, on the table `m` that
lines 27-29 left.  An insertion that makes the table larger than it was at the
start of the call may rehash it, and the iteration order after the rehash is
the one the environment gives.  An insertion that follows the erasure of the
victim brings the table back to the size it had, for which it has buckets
(`erase` keeps them): it does not rehash and the other elements keep their
order. -/
def Shard.insertEntry (s : Shard) (m : Table) (key : Int) (e : Entry) (env : GetEnv) : Table :=
  if s.m.length < (Table.assign m key e env.slot).length then
    (Table.assign m key e env.slot).rehash env.order
  else Table.assign m key e env.slot

/-- Result of `Shard::Get`: `ret` is the entry the returned pointer designates
(`none` for `nullptr`). -/
structure GetResult where
  ret : Option Entry
  shard : Shard
  file : File
  trace : List IOEvent

/-- `Shard::Get`. -/
def Shard.Get (s : Shard) (f : File) (key : Int) (env : GetEnv) : GetResult :=
  match s.m.find key with
  | some e => { ret := some e, shard := s, file := f, trace := [] }
  | none =>
    let ev := s.makeRoom f env.evict
    if ev.ret = false then
      { ret := none, shard := { s with m := ev.m }, file := ev.file, trace := ev.trace }
    else
      let l := loadEntry ev.file key env.load
      if l.1 < 0 then
        { ret := none, shard := { s with m := ev.m }, file := ev.file,
          trace := ev.trace ++ [.pread key l.1] }
      else
        { ret := some l.2, shard := { s with m := s.insertEntry ev.m key l.2 env },
          file := ev.file, trace := ev.trace ++ [.pread key l.1] }

/-- Result of `Shard::Put`. -/
structure PutResult where
  ret : Bool
  shard : Shard
  file : File
  trace : List IOEvent

/-- `Shard::Put`. -/
def Shard.Put (s : Shard) (f : File) (key : Int) (buf : PageBuf) (env : GetEnv) : PutResult :=
  let r := s.Get f key env
  match r.ret with
  | none => { ret := false, shard := r.shard, file := r.file, trace := r.trace }
  | some _ =>
    { ret := true,
      shard := { r.shard with
        m := r.shard.m.update key (fun e => { e with val := buf, isDirty := true }) },
      file := r.file, trace := r.trace }

/-- State of the second loop of `Shard::Flush`. -/
structure FlushState where
  m : Table
  file : File
  trace : List IOEvent

/-- One iteration of the second loop of `Shard::Flush`, on the snapshot element
`p = (offset, pointer)`.  The outcome of the write is the one the environment
holds for the number of writes issued so far in this call. -/
def flushOne (ws : Nat → IOOutcome) (st : FlushState) (p : Int × Int) : FlushState :=
  match st.m.find p.2 with
  | none => st
  | some e =>
    if !e.isDirty then st
    else
      let w := pwrite st.file e.val p.1 (ws st.trace.length)
      if w.1 ≠ (pageSize : Int) then
        { st with file := w.2, trace := st.trace ++ [.pwrite p.1 e.val.1 w.1] }
      else
        { m := st.m.update p.2 (fun e => { e with isDirty := false }),
          file := w.2, trace := st.trace ++ [.pwrite p.1 e.val.1 w.1] }

/-- The snapshot taken by the first loop of `Shard::Flush`: for every dirty
entry, in iteration order, its key and a pointer to it. -/
def dirtySnapshot (m : Table) : List (Int × Int) :=
  (m.filter (fun p => p.2.isDirty)).map (fun p => (p.1, p.1))

/-- Result of `Shard::Flush`. -/
structure FlushResult where
  ret : Bool
  shard : Shard
  file : File
  trace : List IOEvent

/-- `Shard::Flush`: `ws i` is the outcome of the `i`-th write issued. -/
def Shard.Flush (s : Shard) (f : File) (ws : Nat → IOOutcome) : FlushResult :=
  let dirty := dirtySnapshot s.m
  let st := dirty.foldl (flushOne ws) { m := s.m, file := f, trace := [] }
  { ret := true, shard := { s with m := st.m }, file := st.file, trace := st.trace }

/-- A call on a shard, with what the environment decides during it. -/
inductive Op where
  | put (key : Int) (buf : PageBuf) (env : GetEnv)
  | get (key : Int) (env : GetEnv)
  | flush (ws : Nat → IOOutcome)

/-- The shard and the file after one call. -/
def Shard.step (st : Shard × File) : Op → Shard × File
  | .put key buf env => ((st.1.Put st.2 key buf env).shard, (st.1.Put st.2 key buf env).file)
  | .get key env => ((st.1.Get st.2 key env).shard, (st.1.Get st.2 key env).file)
  | .flush ws => ((st.1.Flush st.2 ws).shard, (st.1.Flush st.2 ws).file)

/-- The shard and the file after a sequence of calls. -/
def Shard.run (st : Shard × File) (ops : List Op) : Shard × File :=
  ops.foldl Shard.step st

/-! ## BufferPool (`buffer_pool.hpp`, `buffer_pool.cpp`) -/

/-- Configuration for `BufferPool`. -/
structure BufferPoolConfig where
  nShards : Int := defaultNShards
  maxEntriesPerShard : Int := defaultMaxEntriesPerShard

/-- The pool: shard count, shards, and the contents of the file behind `fd_`. -/
structure BufferPool where
  nShards : Int
  shards : List Shard
  file : File

/-- `BufferPool::New`: `opened` is the contents of the file when `open`
succeeded and `none` when it failed.  With a negative shard count the call
`shards_.resize` throws; that case is `none` here as well. -/
def BufferPool.New (opened : Option File) (config : BufferPoolConfig) : Option BufferPool :=
  match opened with
  | none => none
  | some f =>
    if config.nShards < 0 then none
    else some
      { nShards := config.nShards,
        shards := List.replicate config.nShards.toNat (Shard.new config.maxEntriesPerShard),
        file := f }

/-- `BufferPool::hash`. -/
def BufferPool.hash (key : Int) : Nat :=
  (toUnsigned key * 2654435761) % 4294967296

/-- The expression `hash(offset) % nShards_`: `nShards_` is converted to
`unsigned`; a zero divisor is undefined behaviour (`none`). -/
def BufferPool.shardId (bp : BufferPool) (offset : Int) : Option Nat :=
  if toUnsigned bp.nShards = 0 then none
  else some (BufferPool.hash offset % toUnsigned bp.nShards)

/-- Result of `BufferPool::Put`. -/
structure PoolPutResult where
  ret : Bool
  pool : BufferPool
  trace : List IOEvent

/-- `BufferPool::Put`; `none` when the behaviour is undefined (division by zero
or `shards_[shardId]` out of range). -/
def BufferPool.Put (bp : BufferPool) (buf : PageBuf) (offset : Int) (env : GetEnv) :
    Option PoolPutResult :=
  match bp.shardId offset with
  | none => none
  | some shardId =>
    match bp.shards[shardId]? with
    | none => none
    | some sh =>
      let r := sh.Put bp.file offset buf env
      some { ret := r.ret,
             pool := { bp with shards := bp.shards.set shardId r.shard, file := r.file },
             trace := r.trace }

/-- Result of `BufferPool::Get`: `buf` is the caller's buffer after the call. -/
structure PoolGetResult where
  ret : Bool
  buf : PageBuf
  pool : BufferPool
  trace : List IOEvent

/-- `BufferPool::Get`; `none` when the behaviour is undefined. -/
def BufferPool.Get (bp : BufferPool) (buf : PageBuf) (offset : Int) (env : GetEnv) :
    Option PoolGetResult :=
  match bp.shardId offset with
  | none => none
  | some shardId =>
    match bp.shards[shardId]? with
    | none => none
    | some sh =>
      let r := sh.Get bp.file offset env
      match r.ret with
      | none =>
        some { ret := false, buf := buf,
               pool := { bp with shards := bp.shards.set shardId r.shard, file := r.file },
               trace := r.trace }
      | some e =>
        some { ret := true, buf := e.val,
               pool := { bp with shards := bp.shards.set shardId r.shard, file := r.file },
               trace := r.trace }

/-- A pool as `BufferPool::New` builds it and the calls keep it: a shard count
that is a positive `int`, and one shard per index. -/
def BufferPool.WF (bp : BufferPool) : Prop :=
  1 ≤ bp.nShards ∧ bp.nShards ≤ intMax ∧ bp.shards.length = bp.nShards.toNat

/-- A page filled with the byte `b`. -/
def PageBuf.fill (b : Byte) : PageBuf := ⟨List.replicate pageSize b, List.length_replicate _ _⟩

/-- A shard of capacity 1 holding one dirty page, filled with the byte 7, at
key 0. -/
def Shard.oneDirty : Shard :=
  { maxEntriesPerShard := 1,
    m := [(0, { key := 0, val := PageBuf.fill 7, isDirty := true })] }

/-- An environment in which the write-back of the victim fails. -/
def GetEnv.evictFails : GetEnv := { evict := .error, load := .full, slot := 0 }

/-- An environment in which the page read fails. -/
def GetEnv.loadFails : GetEnv := { evict := .full, load := .error, slot := 0 }

/-! ## Predicates used to state the properties -/

/-- The byte ranges `[k, k + pageSize)` of two keys do not overlap. -/
def Disjoint (k k' : Int) : Prop := k + pageSize ≤ k' ∨ k' + pageSize ≤ k

/-- No two elements of the table have overlapping byte ranges. -/
def Table.NoOverlap (m : Table) : Prop := m.Pairwise (fun p q => Disjoint p.1 q.1)

/-- The entries of the table that are not dirty, whose key is not negative
and satisfies `G`, hold the page of the file at their key. -/
def Table.Mirrors (G : Int → Prop) (m : Table) (f : File) : Prop :=
  ∀ k e, (k, e) ∈ m → G k → e.isDirty = false → 0 ≤ k → f.pageAt k.toNat = e.val.1

/-- The key of the call is a multiple of the page size (no condition on
`Flush`). -/
def Op.Aligned : Op → Prop
  | .put key _ _ => key % (pageSize : Int) = 0
  | .get key _ => key % (pageSize : Int) = 0
  | .flush _ => True

/-- The system does not cut the outcome short: a transfer carries a whole
page. -/
def IOOutcome.Whole : IOOutcome → Prop
  | .error => True
  | .transfer limit => pageSize ≤ limit

/-- The page read of the call, if it is issued, is not cut short (no condition
on `Flush`). -/
def Op.ReadsWhole : Op → Prop
  | .put _ _ env => env.load.Whole
  | .get _ env => env.load.Whole
  | .flush _ => True

/-- The keys, key fields and page bytes of the table, in iteration order: the
table without its dirty flags. -/
def Table.pages (m : Table) : List (Int × Int × PageBuf) :=
  m.map (fun p => (p.1, p.2.key, p.2.val))

/-- The environment of a `Shard::Flush` in which no write fails or is cut
short. -/
def flushOk : Nat → IOOutcome := fun _ => .full

/-- A shard of capacity 2 and its file, started empty, after a load at key 0, a
put at the overlapping key 1 and a load at key 8192, in the environment where
no call fails or is cut short. -/
def Shard.afterOverlap : Shard × File :=
  Shard.run (Shard.new 2, [])
    [.get 0 GetEnv.ok, .put 1 (PageBuf.fill 7) GetEnv.ok, .get 8192 GetEnv.ok]

/-- The shard and the file agree: every key is a non-negative multiple of the
page size, no two byte ranges overlap, and every entry that is not dirty holds
the page of the file at its key. -/
def Shard.Coherent (s : Shard) (f : File) : Prop :=
  (∀ k e, (k, e) ∈ s.m → 0 ≤ k ∧ k % (pageSize : Int) = 0) ∧
  s.m.NoOverlap ∧
  Table.Mirrors (fun _ => True) s.m f

/-- A shard of capacity 1 and its file, started empty on an empty file, after a
put of the zero page at key 0. -/
def Shard.afterPutSame : Shard × File :=
  Shard.run (Shard.new 1, []) [.put 0 PageBuf.zero GetEnv.ok]

/-- An environment in which the page read is cut short after one byte. -/
def GetEnv.shortRead : GetEnv := { evict := .full, load := .transfer 1, slot := 0 }

/-- A shard of capacity 1 and its file, started empty on a file of one page of
bytes 7, after a load at key 0 whose read is cut short after one byte. -/
def Shard.afterShortRead : Shard × File :=
  Shard.run (Shard.new 1, (PageBuf.fill 7).1) [.get 0 GetEnv.shortRead]

/-- A shard of capacity 2 and its file, started empty on a three-byte file,
after a load at key 0, a put at key 4096 and a flush, in the environment where
no call fails or is cut short. -/
def Shard.afterAligned : Shard × File :=
  Shard.run (Shard.new 2, [1, 2, 3])
    [.get 0 GetEnv.ok, .put 4096 (PageBuf.fill 7) GetEnv.ok, .flush flushOk]

/-- Offset of a recorded system call. -/
def IOEvent.off : IOEvent → Int
  | .pread o _ => o
  | .pwrite o _ _ => o

/-- The recorded calls that are writes at offset `k` with return value
`pageSize`. -/
def fullWritesAt (tr : List IOEvent) (k : Int) : List IOEvent :=
  tr.filter (fun ev => ev.isWrite && decide (ev.off = k) && decide (ev.ret = (pageSize : Int)))

/-- The environment of a `Shard::Flush` in which every write fails. -/
def flushFails : Nat → IOOutcome := fun _ => .error

/-! ## Entry locks

The modes in which the calls take the lock `mu` of an entry, and what they
touch of the entry while they hold it.  An entry is designated by the key
under which it is stored. -/

/-- The two modes of `std::shared_mutex`: `std::shared_lock` and
`std::unique_lock`. -/
inductive LockMode where
  | shared
  | exclusive
deriving DecidableEq

/-- A step of a call that concerns one entry: taking or releasing its lock, or
reading or writing its dirty flag or its page bytes. -/
inductive EntryStep where
  | lock (ptr : Int) (mode : LockMode)
  | unlock (ptr : Int)
  | readDirty (ptr : Int)
  | writeDirty (ptr : Int)
  | readVal (ptr : Int)
  | writeVal (ptr : Int)
deriving DecidableEq

/-- Lines 16-19 of `Shard::Put`, once `Get` has returned the entry: exclusive
lock, `memcpy` into the page, `isDirty = true`, release at the end of scope. -/
def Shard.putSteps (key : Int) : List EntryStep :=
  [.lock key .exclusive, .writeVal key, .writeDirty key, .unlock key]

/-- Lines 39-41 of `BufferPool::Get`, once `Shard::Get` has returned the entry:
shared lock, `memcpy` out of the page, release at the end of scope. -/
def BufferPool.getSteps (offset : Int) : List EntryStep :=
  [.lock offset .shared, .readVal offset, .unlock offset]

/-- Lines 51-55 of `Shard::Flush`: every entry is locked exclusively while its
dirty flag is read. -/
def Shard.flushSnapshotSteps (m : Table) : List EntryStep :=
  m.flatMap (fun p => [.lock p.1 .exclusive, .readDirty p.1, .unlock p.1])

/-- Lines 58-68 of `Shard::Flush` for one snapshot element whose entry is `e`
and whose write, if issued, returns `n`: exclusive lock, the flag is read
again, the page is read by `pwrite`, and the flag is cleared after a full
write. -/
def Shard.flushWriteSteps (k : Int) (e : Entry) (n : Int) : List EntryStep :=
  [.lock k .exclusive, .readDirty k] ++
    (if !e.isDirty then []
     else [.readVal k] ++ (if n ≠ (pageSize : Int) then [] else [.writeDirty k])) ++
    [.unlock k]

/-- Lines 74-81 of `Shard::evictOneLocked` on the first entry in iteration
order: the flag is read, and the page is read by `pwrite` when the entry is
dirty; no lock of the entry is taken. -/
def evictSteps (m : Table) : List EntryStep :=
  match m with
  | [] => []
  | (k, e) :: _ => [.readDirty k] ++ (if e.isDirty then [.readVal k] else [])

/-- Whether every read and write of an entry in `steps` happens while the lock
of that entry is held in a mode at least `need` (`exclusive` covers
`shared`); `held` lists the locks held at the start. -/
def underLock (need : LockMode) : List EntryStep → List (Int × LockMode) → Bool
  | [], _ => true
  | .lock k mode :: rest, held => underLock need rest ((k, mode) :: held)
  | .unlock k :: rest, held => underLock need rest (held.filter (fun h => h.1 ≠ k))
  | .readDirty k :: rest, held =>
    held.any (fun h => h.1 = k ∧ (h.2 = need ∨ h.2 = .exclusive)) && underLock need rest held
  | .writeDirty k :: rest, held =>
    held.any (fun h => h.1 = k ∧ (h.2 = need ∨ h.2 = .exclusive)) && underLock need rest held
  | .readVal k :: rest, held =>
    held.any (fun h => h.1 = k ∧ (h.2 = need ∨ h.2 = .exclusive)) && underLock need rest held
  | .writeVal k :: rest, held =>
    held.any (fun h => h.1 = k ∧ (h.2 = need ∨ h.2 = .exclusive)) && underLock need rest held

/-- A pool of one shard of capacity 2, with an empty table, on the file `f`. -/
def BufferPool.single (f : File) : BufferPool :=
  { nShards := 1, shards := [Shard.new 2], file := f }

/-- The page a shard and the file hold for the offset `o`: the page of the
entry stored under `o` when there is one, the page of the file at `o`
otherwise. -/
def Shard.view (s : Shard) (f : File) (o : Int) : List Byte :=
  match s.m.find o with
  | some e => e.val.1
  | none => f.pageAt o.toNat

/-- The system call neither fails nor is cut short. -/
def IOOutcome.Full : IOOutcome → Prop
  | .error => False
  | .transfer limit => pageSize ≤ limit

/-! ## Runs of the pool -/

/-- The call `shards_[i]->Flush()` of `BufferPool::flusher`; `none` when `i` is
out of range, which the loop of the flusher excludes. -/
def BufferPool.flushShard (bp : BufferPool) (i : Nat) (ws : Nat → IOOutcome) :
    Option BufferPool :=
  match bp.shards[i]? with
  | none => none
  | some sh =>
    some { bp with shards := bp.shards.set i (sh.Flush bp.file ws).shard,
                   file := (sh.Flush bp.file ws).file }

/-- A call on the pool, with what the environment decides during it: a `Put`,
a `Get` with the caller's buffer, or the flush of shard `i` by the flusher. -/
inductive PoolOp where
  | put (buf : PageBuf) (offset : Int) (env : GetEnv)
  | get (buf : PageBuf) (offset : Int) (env : GetEnv)
  | flush (i : Nat) (ws : Nat → IOOutcome)

/-- What the caller sees of a call: the return value, and for a `Get` the
buffer after the call. -/
abbrev PoolOut := Bool × Option PageBuf

/-- The pool after one call and what the caller sees of it (nothing for a
flush); `none` when the behaviour is undefined. -/
def BufferPool.step (bp : BufferPool) : PoolOp → Option (BufferPool × List PoolOut)
  | .put buf offset env => (bp.Put buf offset env).map (fun r => (r.pool, [(r.ret, none)]))
  | .get buf offset env =>
    (bp.Get buf offset env).map (fun r => (r.pool, [(r.ret, some r.buf)]))
  | .flush i ws => (bp.flushShard i ws).map (fun p => (p, []))

/-- The pool after a sequence of calls and what the callers saw, in order. -/
def BufferPool.run (bp : BufferPool) : List PoolOp → Option (BufferPool × List PoolOut)
  | [] => some (bp, [])
  | op :: ops =>
    match bp.step op with
    | none => none
    | some (bp₁, out) =>
      match BufferPool.run bp₁ ops with
      | none => none
      | some (bp₂, outs) => some (bp₂, out ++ outs)

/-- The page the pool holds for the offset `o`: the one held by the shard the
offset is routed to. -/
def BufferPool.view (bp : BufferPool) (o : Int) : List Byte :=
  match bp.shards[BufferPool.hash o % bp.nShards.toNat]? with
  | some s => s.view bp.file o
  | none => bp.file.pageAt o.toNat

/-- The pool is well formed, every shard agrees with the file, and every key
is resident in the shard it is routed to. -/
def BufferPool.Coherent (bp : BufferPool) : Prop :=
  bp.WF ∧
  ∀ i s, bp.shards[i]? = some s →
    s.Coherent bp.file ∧
    ∀ k e, (k, e) ∈ s.m → BufferPool.hash k % bp.nShards.toNat = i

/-- The pool is well formed and no shard holds an entry: a pool as
`BufferPool::New` builds it. -/
def BufferPool.Empty (bp : BufferPool) : Prop :=
  bp.WF ∧ ∀ s ∈ bp.shards, s.m = []

/-- The offset of the call is a multiple of the page size (no condition on a
flush). -/
def PoolOp.Aligned : PoolOp → Prop
  | .put _ offset _ => offset % (pageSize : Int) = 0
  | .get _ offset _ => offset % (pageSize : Int) = 0
  | .flush _ _ => True

/-- The page read of the call, if it is issued, is not cut short (no condition
on a flush). -/
def PoolOp.ReadsWhole : PoolOp → Prop
  | .put _ _ env => env.load.Whole
  | .get _ _ env => env.load.Whole
  | .flush _ _ => True

/-- No system call of the call fails or is cut short: the offset is not
negative and the environment lets every read and write through in full; the
flusher flushes a shard that exists. -/
def PoolOp.Succeeds (n : Nat) : PoolOp → Prop
  | .put _ offset env => 0 ≤ offset ∧ env.evict.Full ∧ env.load.Full
  | .get _ offset env => 0 ≤ offset ∧ env.evict.Full ∧ env.load.Full
  | .flush i ws => i < n ∧ ∀ j, (ws j).Full

/-- The specification side of the refinement, written from the words of the
specification and not from the code: what the callers see when the same calls
are made on a plain map from offset to page. Every call returns `true`, a
`Put` stores its page, a `Get` returns the page stored, a flush does nothing. -/
def plainRun (M : Int → List Byte) : List PoolOp → List (Bool × Option (List Byte))
  | [] => []
  | .put buf offset _ :: ops =>
    (true, none) :: plainRun (fun o => if o = offset then buf.1 else M o) ops
  | .get _ offset _ :: ops => (true, some (M offset)) :: plainRun M ops
  | .flush _ _ :: ops => plainRun M ops

/-- The specification side of the refinement: the plain map a file stands for,
at every offset the page of the file there, zero-padded. -/
def plainInit (f₀ : File) : Int → List Byte := fun o => f₀.pageAt o.toNat

/-- A put at offset 0, a load at offset 4096, a flush of shard 0 and a get at
offset 0, in the environment where no call fails or is cut short. -/
def PoolOp.sample : List PoolOp :=
  [.put (PageBuf.fill 7) 0 GetEnv.ok, .get PageBuf.zero 4096 GetEnv.ok, .flush 0 flushOk,
   .get PageBuf.zero 0 GetEnv.ok]

/-- A shard of capacity 3 holding two pages that are not dirty, at keys 0 and
4096. -/
def Shard.twoClean : Shard :=
  { maxEntriesPerShard := 3,
    m := [(0, { key := 0, val := PageBuf.fill 1, isDirty := false }),
          (4096, { key := 4096, val := PageBuf.fill 2, isDirty := false })] }

/-- An environment in which no call fails or is cut short and the insertion, if
it rehashes the table, leaves the keys in the order 4096, 8192, 0. -/
def GetEnv.rehashes : GetEnv :=
  { evict := .full, load := .full, slot := 0, order := [4096, 8192, 0] }

/-! ## Lemmas on the page table -/

theorem Table.find_nil (key : Int) : Table.find [] key = none := rfl

theorem Table.find_cons (p : Int × Entry) (m : Table) (key : Int) :
    Table.find (p :: m) key = if p.1 = key then some p.2 else Table.find m key := by
  unfold Table.find
  by_cases h : p.1 = key
  · simp [List.find?_cons, h]
  · simp [List.find?_cons, h]

theorem Table.find_append (m₁ m₂ : Table) (key : Int) :
    Table.find (m₁ ++ m₂) key = (Table.find m₁ key).orElse (fun _ => Table.find m₂ key) := by
  induction m₁ with
  | nil => simp [Table.find_nil]
  | cons p m ih =>
    simp only [List.cons_append, Table.find_cons]
    by_cases h : p.1 = key
    · simp [h]
    · simp [h, ih]

theorem Table.find_eq_none_iff (m : Table) (key : Int) :
    Table.find m key = none ↔ key ∉ Table.keys m := by
  induction m with
  | nil => simp [Table.find_nil, Table.keys]
  | cons p m ih =>
    simp only [Table.find_cons, Table.keys, List.map_cons, List.mem_cons, not_or] at *
    by_cases h : p.1 = key
    · simp [h]
    · simp [h, ih, Ne.symm h]

theorem Table.find_update (m : Table) (key k : Int) (g : Entry → Entry) :
    Table.find (Table.update m key g) k =
      if k = key then (Table.find m k).map g else Table.find m k := by
  induction m with
  | nil => simp [Table.update, Table.find_nil]
  | cons p m ih =>
    simp only [Table.update, List.map_cons] at *
    by_cases hp : p.1 = key
    · simp only [hp, if_true, Table.find_cons, ih]
      by_cases hk : k = key
      · simp [hk]
      · simp [hk, Ne.symm hk]
    · simp only [hp, if_false, Table.find_cons, ih]
      by_cases hk : k = key
      · subst hk; simp [hp]
      · simp [hk]

theorem Table.take_append_drop_find_none (m : Table) (key : Int) (n : Nat)
    (h : Table.find m key = none) :
    Table.find (m.take n) key = none ∧ Table.find (m.drop n) key = none := by
  have h' := (Table.find_eq_none_iff m key).1 h
  refine ⟨(Table.find_eq_none_iff _ _).2 ?_, (Table.find_eq_none_iff _ _).2 ?_⟩
  · intro hk; apply h'
    simp only [Table.keys, List.mem_map] at *
    obtain ⟨p, hp, rfl⟩ := hk
    exact ⟨p, List.mem_of_mem_take hp, rfl⟩
  · intro hk; apply h'
    simp only [Table.keys, List.mem_map] at *
    obtain ⟨p, hp, rfl⟩ := hk
    exact ⟨p, List.mem_of_mem_drop hp, rfl⟩

theorem Table.find_assign (m : Table) (key k : Int) (e : Entry) (slot : Nat) :
    Table.find (Table.assign m key e slot) k =
      if k = key then some e else Table.find m k := by
  unfold Table.assign
  cases hf : Table.find m key with
  | some e₀ =>
    simp only [Table.find_update]
    by_cases hk : k = key
    · simp [hk, hf]
    · simp [hk]
  | none =>
    simp only
    rw [Table.find_append, Table.find_cons]
    by_cases hk : k = key
    · subst hk
      simp [(Table.take_append_drop_find_none m k slot hf).1]
    · simp only [hk, if_false, Ne.symm hk]
      have := Table.find_append (m.take slot) (m.drop slot) k
      rw [List.take_append_drop] at this
      rw [this]

theorem Table.filterMap_keys_of_nodup (m : Table) (h : (Table.keys m).Nodup) :
    (Table.keys m).filterMap (fun k => (m.find k).map (fun e => (k, e))) = m := by
  induction m with
  | nil => rfl
  | cons p m ih =>
    simp only [Table.keys, List.map_cons, List.nodup_cons] at h
    obtain ⟨hp, hnd⟩ := h
    simp only [Table.keys, List.map_cons, List.filterMap_cons, Table.find_cons, if_true,
      Option.map_some']
    congr 1
    refine Eq.trans (List.filterMap_congr ?_) (ih hnd)
    intro k hk
    have hne : p.1 ≠ k := fun h => hp (h ▸ hk)
    simp [hne]

theorem Table.find_filterMap_keys (m : Table) (order : List Int) (k : Int) :
    Table.find (order.filterMap (fun k => (m.find k).map (fun e => (k, e)))) k =
      if k ∈ order then Table.find m k else none := by
  induction order with
  | nil => rfl
  | cons a rest ih =>
    rw [List.filterMap_cons]
    cases ha : Table.find m a with
    | none =>
      simp only [Option.map_none', ih, List.mem_cons]
      by_cases hk : k = a
      · subst hk; simp [ha]
      · simp [hk]
    | some e =>
      simp only [Option.map_some', Table.find_cons, ih, List.mem_cons]
      by_cases hk : a = k
      · subst hk; simp [ha]
      · simp [hk, Ne.symm hk]

theorem Table.rehash_perm (m : Table) (order : List Int) : (m.rehash order).Perm m := by
  unfold Table.rehash
  split
  · rename_i h
    have h₁ := List.Perm.filterMap (fun k => (m.find k).map (fun e => (k, e))) h.2
    rw [Table.filterMap_keys_of_nodup m (h.2.nodup_iff.1 h.1)] at h₁
    exact h₁
  · exact List.Perm.refl _

theorem Table.find_rehash (m : Table) (order : List Int) (k : Int) :
    Table.find (m.rehash order) k = Table.find m k := by
  unfold Table.rehash
  split
  · rename_i h
    rw [Table.find_filterMap_keys]
    by_cases hk : k ∈ order
    · simp [hk]
    · simp only [hk, if_false]
      exact ((Table.find_eq_none_iff m k).2 (fun hk' => hk (h.2.mem_iff.2 hk'))).symm
  · rfl

theorem Table.keys_rehash (m : Table) (order : List Int) (hnd : order.Nodup)
    (hp : order.Perm (Table.keys m)) : Table.keys (m.rehash order) = order := by
  unfold Table.rehash
  rw [if_pos ⟨hnd, hp⟩]
  have hsub : ∀ k ∈ order, k ∈ Table.keys m := fun k hk => hp.mem_iff.1 hk
  clear hnd hp
  induction order with
  | nil => rfl
  | cons a rest ih =>
    have ha : (Table.find m a).isSome := by
      cases h : Table.find m a with
      | none => exact absurd (hsub a (List.mem_cons_self _ _)) ((Table.find_eq_none_iff m a).1 h)
      | some e => rfl
    obtain ⟨e, he⟩ := Option.isSome_iff_exists.1 ha
    rw [List.filterMap_cons, he]
    simp only [Option.map_some', Table.keys, List.map_cons]
    congr 1
    exact ih (fun k hk => hsub k (List.mem_cons_of_mem _ hk))

theorem Table.length_rehash (m : Table) (order : List Int) :
    (m.rehash order).length = m.length :=
  (Table.rehash_perm m order).length_eq

theorem Shard.insertEntry_of_not_grown (s : Shard) (m : Table) (key : Int) (e : Entry)
    (env : GetEnv) (h : ¬ s.m.length < (Table.assign m key e env.slot).length) :
    s.insertEntry m key e env = Table.assign m key e env.slot := by
  simp [Shard.insertEntry, h]

theorem Shard.insertEntry_perm_assign (s : Shard) (m : Table) (key : Int) (e : Entry)
    (env : GetEnv) : (s.insertEntry m key e env).Perm (Table.assign m key e env.slot) := by
  unfold Shard.insertEntry
  split
  · exact Table.rehash_perm _ _
  · exact List.Perm.refl _

theorem Shard.find_insertEntry (s : Shard) (m : Table) (key k : Int) (e : Entry)
    (env : GetEnv) :
    Table.find (s.insertEntry m key e env) k = if k = key then some e else Table.find m k := by
  unfold Shard.insertEntry
  split
  · rw [Table.find_rehash, Table.find_assign]
  · rw [Table.find_assign]

/-! ## Lemmas on `Shard::Get` and `Shard::Put` -/

theorem Shard.Get_hit (s : Shard) (f : File) (key : Int) (env : GetEnv) (e : Entry)
    (h : s.m.find key = some e) :
    s.Get f key env = { ret := some e, shard := s, file := f, trace := [] } := by
  simp [Shard.Get, h]

theorem Shard.Get_evict_fail (s : Shard) (f : File) (key : Int) (env : GetEnv)
    (h : s.m.find key = none) (hev : (s.makeRoom f env.evict).ret = false) :
    s.Get f key env =
      { ret := none, shard := { s with m := (s.makeRoom f env.evict).m },
        file := (s.makeRoom f env.evict).file, trace := (s.makeRoom f env.evict).trace } := by
  simp [Shard.Get, h, hev]

theorem Shard.Get_load_fail (s : Shard) (f : File) (key : Int) (env : GetEnv)
    (h : s.m.find key = none) (hev : (s.makeRoom f env.evict).ret = true)
    (hl : (loadEntry (s.makeRoom f env.evict).file key env.load).1 < 0) :
    s.Get f key env =
      { ret := none, shard := { s with m := (s.makeRoom f env.evict).m },
        file := (s.makeRoom f env.evict).file,
        trace := (s.makeRoom f env.evict).trace ++
          [.pread key (loadEntry (s.makeRoom f env.evict).file key env.load).1] } := by
  simp [Shard.Get, h, hev, hl]

theorem Shard.Get_load_ok (s : Shard) (f : File) (key : Int) (env : GetEnv)
    (h : s.m.find key = none) (hev : (s.makeRoom f env.evict).ret = true)
    (hl : ¬ (loadEntry (s.makeRoom f env.evict).file key env.load).1 < 0) :
    s.Get f key env =
      { ret := some (loadEntry (s.makeRoom f env.evict).file key env.load).2,
        shard :=
          { s with
            m := s.insertEntry (s.makeRoom f env.evict).m key
              (loadEntry (s.makeRoom f env.evict).file key env.load).2 env },
        file := (s.makeRoom f env.evict).file,
        trace := (s.makeRoom f env.evict).trace ++
          [.pread key (loadEntry (s.makeRoom f env.evict).file key env.load).1] } := by
  simp [Shard.Get, h, hev, hl]

/-- The four ways a call of `Shard::Get` can go. -/
theorem Shard.Get_cases (s : Shard) (f : File) (key : Int) (env : GetEnv) :
    (∃ e, s.m.find key = some e ∧
      s.Get f key env = { ret := some e, shard := s, file := f, trace := [] }) ∨
    (s.m.find key = none ∧ (s.makeRoom f env.evict).ret = false ∧
      s.Get f key env =
        { ret := none, shard := { s with m := (s.makeRoom f env.evict).m },
          file := (s.makeRoom f env.evict).file, trace := (s.makeRoom f env.evict).trace }) ∨
    (s.m.find key = none ∧ (s.makeRoom f env.evict).ret = true ∧
      (loadEntry (s.makeRoom f env.evict).file key env.load).1 < 0 ∧
      s.Get f key env =
        { ret := none, shard := { s with m := (s.makeRoom f env.evict).m },
          file := (s.makeRoom f env.evict).file,
          trace := (s.makeRoom f env.evict).trace ++
            [.pread key (loadEntry (s.makeRoom f env.evict).file key env.load).1] }) ∨
    (s.m.find key = none ∧ (s.makeRoom f env.evict).ret = true ∧
      ¬ (loadEntry (s.makeRoom f env.evict).file key env.load).1 < 0 ∧
      s.Get f key env =
        { ret := some (loadEntry (s.makeRoom f env.evict).file key env.load).2,
          shard :=
            { s with
              m := s.insertEntry (s.makeRoom f env.evict).m key
                (loadEntry (s.makeRoom f env.evict).file key env.load).2 env },
          file := (s.makeRoom f env.evict).file,
          trace := (s.makeRoom f env.evict).trace ++
            [.pread key (loadEntry (s.makeRoom f env.evict).file key env.load).1] }) := by
  cases hf : s.m.find key with
  | some e => exact Or.inl ⟨e, rfl, Shard.Get_hit s f key env e hf⟩
  | none =>
    right
    cases hev : (s.makeRoom f env.evict).ret with
    | false => exact Or.inl ⟨rfl, rfl, Shard.Get_evict_fail s f key env hf hev⟩
    | true =>
      right
      by_cases hl : (loadEntry (s.makeRoom f env.evict).file key env.load).1 < 0
      · exact Or.inl ⟨rfl, rfl, hl, Shard.Get_load_fail s f key env hf hev hl⟩
      · exact Or.inr ⟨rfl, rfl, hl, Shard.Get_load_ok s f key env hf hev hl⟩

/-- After a call of `Shard::Get` that returned an entry, that entry is the one
stored under the key. -/
theorem Shard.Get_find_of_ret (s : Shard) (f : File) (key : Int) (env : GetEnv) (e : Entry)
    (h : (s.Get f key env).ret = some e) :
    (s.Get f key env).shard.m.find key = some e := by
  rcases Shard.Get_cases s f key env with ⟨e₀, hf, hg⟩ | ⟨_, _, hg⟩ | ⟨_, _, _, hg⟩ | ⟨_, _, _, hg⟩
  · rw [hg] at h ⊢; simp only [Option.some.injEq] at h; rw [← h]; exact hf
  · rw [hg] at h; simp at h
  · rw [hg] at h; simp at h
  · rw [hg] at h ⊢; simp only [Option.some.injEq] at h
    simp [Shard.find_insertEntry, h]

theorem Shard.Put_find_of_ret (s : Shard) (f : File) (key : Int) (buf : PageBuf) (env : GetEnv)
    (h : (s.Put f key buf env).ret = true) :
    ∃ e, (s.Put f key buf env).shard.m.find key = some e ∧ e.val = buf ∧ e.isDirty = true := by
  unfold Shard.Put at h ⊢
  cases hg : (s.Get f key env).ret with
  | none => simp [hg] at h
  | some e =>
    simp only [hg]
    refine ⟨{ e with val := buf, isDirty := true }, ?_, rfl, rfl⟩
    simp [Table.find_update, Shard.Get_find_of_ret s f key env e hg]

/-! ## Lemmas on the pool -/

theorem toUnsigned_of_int_pos (n : Int) (h1 : 1 ≤ n) (h2 : n ≤ intMax) :
    toUnsigned n = n.toNat := by
  unfold toUnsigned
  unfold intMax at h2
  rw [Int.emod_eq_of_lt (by omega) (by omega)]

theorem BufferPool.shardId_of_WF (bp : BufferPool) (hwf : bp.WF) (offset : Int) :
    bp.shardId offset = some (BufferPool.hash offset % bp.nShards.toNat) ∧
      BufferPool.hash offset % bp.nShards.toNat < bp.shards.length := by
  obtain ⟨h1, h2, h3⟩ := hwf
  have hu := toUnsigned_of_int_pos bp.nShards h1 h2
  have hpos : 0 < bp.nShards.toNat := by omega
  constructor
  · unfold BufferPool.shardId
    rw [hu]
    simp [Nat.pos_iff_ne_zero.1 hpos]
  · rw [h3]; exact Nat.mod_lt _ hpos

/-- The shard `BufferPool::Put` and `BufferPool::Get` work on, for a
well-formed pool. -/
theorem BufferPool.Put_of_WF (bp : BufferPool) (hwf : bp.WF) (buf : PageBuf) (offset : Int)
    (env : GetEnv) :
    ∃ sh, bp.shards[BufferPool.hash offset % bp.nShards.toNat]? = some sh ∧
      bp.Put buf offset env =
        some { ret := (sh.Put bp.file offset buf env).ret,
               pool := { bp with
                 shards := bp.shards.set (BufferPool.hash offset % bp.nShards.toNat)
                   (sh.Put bp.file offset buf env).shard,
                 file := (sh.Put bp.file offset buf env).file },
               trace := (sh.Put bp.file offset buf env).trace } := by
  obtain ⟨hid, hlt⟩ := BufferPool.shardId_of_WF bp hwf offset
  refine ⟨bp.shards[BufferPool.hash offset % bp.nShards.toNat], List.getElem?_eq_getElem hlt, ?_⟩
  simp [BufferPool.Put, hid, List.getElem?_eq_getElem hlt]

theorem BufferPool.Get_of_WF (bp : BufferPool) (hwf : bp.WF) (buf : PageBuf) (offset : Int)
    (env : GetEnv) :
    ∃ sh, bp.shards[BufferPool.hash offset % bp.nShards.toNat]? = some sh ∧
      bp.Get buf offset env =
        some { ret := (sh.Get bp.file offset env).ret.isSome,
               buf := match (sh.Get bp.file offset env).ret with
                 | none => buf
                 | some e => e.val,
               pool := { bp with
                 shards := bp.shards.set (BufferPool.hash offset % bp.nShards.toNat)
                   (sh.Get bp.file offset env).shard,
                 file := (sh.Get bp.file offset env).file },
               trace := (sh.Get bp.file offset env).trace } := by
  obtain ⟨hid, hlt⟩ := BufferPool.shardId_of_WF bp hwf offset
  refine ⟨bp.shards[BufferPool.hash offset % bp.nShards.toNat], List.getElem?_eq_getElem hlt, ?_⟩
  simp only [BufferPool.Get, hid, List.getElem?_eq_getElem hlt]
  cases (bp.shards[BufferPool.hash offset % bp.nShards.toNat].Get bp.file offset env).ret <;> rfl

/-! ## Lemmas on eviction -/

theorem evictOneLocked_nil (f : File) (o : IOOutcome) :
    evictOneLocked [] f o = { ret := true, m := [], file := f, trace := [] } := rfl

theorem evictOneLocked_clean (k : Int) (e : Entry) (rest : Table) (f : File) (o : IOOutcome)
    (h : e.isDirty = false) :
    evictOneLocked ((k, e) :: rest) f o = { ret := true, m := rest, file := f, trace := [] } := by
  simp [evictOneLocked, h]

theorem evictOneLocked_dirty_fail (k : Int) (e : Entry) (rest : Table) (f : File)
    (o : IOOutcome) (h : e.isDirty = true) (hw : (pwrite f e.val k o).1 ≠ (pageSize : Int)) :
    evictOneLocked ((k, e) :: rest) f o =
      { ret := false, m := (k, e) :: rest, file := (pwrite f e.val k o).2,
        trace := [.pwrite k e.val.1 (pwrite f e.val k o).1] } := by
  simp [evictOneLocked, h, hw]

theorem evictOneLocked_dirty_ok (k : Int) (e : Entry) (rest : Table) (f : File)
    (o : IOOutcome) (h : e.isDirty = true) (hw : (pwrite f e.val k o).1 = (pageSize : Int)) :
    evictOneLocked ((k, e) :: rest) f o =
      { ret := true, m := rest, file := (pwrite f e.val k o).2,
        trace := [.pwrite k e.val.1 (pwrite f e.val k o).1] } := by
  simp [evictOneLocked, h, hw]

/-- The table after `evictOneLocked` is the old one, or the old one without its
first element when the call succeeded on a table that is not empty. -/
theorem evictOneLocked_table (m : Table) (f : File) (o : IOOutcome) :
    ((evictOneLocked m f o).ret = true ∧ (evictOneLocked m f o).m = m.tail) ∨
    ((evictOneLocked m f o).ret = false ∧ (evictOneLocked m f o).m = m ∧ m ≠ []) := by
  cases m with
  | nil => left; simp [evictOneLocked_nil]
  | cons p rest =>
    obtain ⟨k, e⟩ := p
    cases hd : e.isDirty with
    | false => left; simp [evictOneLocked_clean k e rest f o hd]
    | true =>
      by_cases hw : (pwrite f e.val k o).1 = (pageSize : Int)
      · left; simp [evictOneLocked_dirty_ok k e rest f o hd hw]
      · right; simp [evictOneLocked_dirty_fail k e rest f o hd hw]

theorem Shard.makeRoom_table (s : Shard) (f : File) (o : IOOutcome) :
    ((s.makeRoom f o).ret = true ∧
      (s.makeRoom f o).m = if s.atCapacity then s.m.tail else s.m) ∨
    ((s.makeRoom f o).ret = false ∧ (s.makeRoom f o).m = s.m ∧ s.m ≠ [] ∧
      s.atCapacity = true) := by
  unfold Shard.makeRoom
  cases hc : s.atCapacity with
  | false => left; simp
  | true =>
    simp only [if_true]
    rcases evictOneLocked_table s.m f o with ⟨h1, h2⟩ | ⟨h1, h2, h3⟩
    · exact Or.inl ⟨h1, h2⟩
    · exact Or.inr ⟨h1, h2, h3, trivial⟩

theorem Table.find_tail_none (m : Table) (key : Int) (h : Table.find m key = none) :
    Table.find m.tail key = none := by
  cases m with
  | nil => rfl
  | cons p rest =>
    rw [Table.find_cons] at h
    by_cases hp : p.1 = key
    · simp [hp] at h
    · simpa [hp] using h

theorem Shard.makeRoom_find_none (s : Shard) (f : File) (o : IOOutcome) (key : Int)
    (h : s.m.find key = none) : Table.find (s.makeRoom f o).m key = none := by
  rcases Shard.makeRoom_table s f o with ⟨-, h2⟩ | ⟨-, h2, -⟩
  · rw [h2]; split
    · exact Table.find_tail_none _ _ h
    · exact h
  · rw [h2]; exact h

theorem Table.length_update (m : Table) (key : Int) (g : Entry → Entry) :
    (Table.update m key g).length = m.length := by
  simp [Table.update]

theorem Table.keys_update (m : Table) (key : Int) (g : Entry → Entry) :
    Table.keys (Table.update m key g) = Table.keys m := by
  induction m with
  | nil => rfl
  | cons p rest ih =>
    simp only [Table.update, Table.keys, List.map_cons] at *
    rw [ih]
    by_cases hp : p.1 = key <;> simp [hp]

theorem Table.assign_of_find_none (m : Table) (key : Int) (e : Entry) (slot : Nat)
    (h : Table.find m key = none) :
    Table.assign m key e slot = m.take slot ++ (key, e) :: m.drop slot := by
  simp [Table.assign, h]

theorem Table.length_assign_of_find_none (m : Table) (key : Int) (e : Entry) (slot : Nat)
    (h : Table.find m key = none) :
    (Table.assign m key e slot).length = m.length + 1 := by
  rw [Table.assign_of_find_none m key e slot h]
  have := List.take_append_drop slot m
  have hl : (m.take slot).length + (m.drop slot).length = m.length := by
    rw [← List.length_append, this]
  simp only [List.length_append, List.length_cons]
  omega

theorem Shard.length_insertEntry (s : Shard) (m : Table) (key : Int) (e : Entry)
    (env : GetEnv) (h : Table.find m key = none) :
    (s.insertEntry m key e env).length = m.length + 1 := by
  rw [(Shard.insertEntry_perm_assign s m key e env).length_eq,
    Table.length_assign_of_find_none m key e env.slot h]

/-- The table after the insertion holds the new element and the old ones, in
some order. -/
theorem Shard.insertEntry_perm (s : Shard) (m : Table) (key : Int) (e : Entry)
    (env : GetEnv) (h : Table.find m key = none) :
    (s.insertEntry m key e env).Perm ((key, e) :: m) := by
  refine (Shard.insertEntry_perm_assign s m key e env).trans ?_
  rw [Table.assign_of_find_none m key e env.slot h]
  refine List.perm_middle.trans ?_
  rw [List.take_append_drop]

theorem Shard.mem_insertEntry (s : Shard) (m : Table) (key : Int) (e : Entry)
    (env : GetEnv) (h : Table.find m key = none) (q : Int × Entry) :
    q ∈ s.insertEntry m key e env ↔ q = (key, e) ∨ q ∈ m := by
  rw [(Shard.insertEntry_perm s m key e env h).mem_iff, List.mem_cons]

/-- An insertion that makes the table grow can leave the keys in any order:
the one the environment gives, when it lists the keys of the table after the
insertion, each once. -/
theorem Shard.keys_insertEntry_of_grown (s : Shard) (m : Table) (key : Int) (e : Entry)
    (env : GetEnv) (hg : s.m.length < (Table.assign m key e env.slot).length)
    (hnd : env.order.Nodup)
    (hp : env.order.Perm (Table.keys (Table.assign m key e env.slot))) :
    Table.keys (s.insertEntry m key e env) = env.order := by
  unfold Shard.insertEntry
  rw [if_pos hg]
  exact Table.keys_rehash _ _ hnd hp

/-- An insertion that follows the erasure of the first element does not
rehash. -/
theorem Shard.insertEntry_after_erase (s : Shard) (p : Int × Entry) (rest : Table)
    (key : Int) (e : Entry) (env : GetEnv) (hm : s.m = p :: rest)
    (h : Table.find s.m key = none) :
    s.insertEntry rest key e env = Table.assign rest key e env.slot := by
  apply Shard.insertEntry_of_not_grown
  have ht := Table.find_tail_none s.m key h
  rw [hm, List.tail_cons] at ht
  rw [Table.length_assign_of_find_none rest key e env.slot ht, hm, List.length_cons]
  omega

theorem sizeToInt_of_lt (n : Nat) (h : n < 2147483648) : sizeToInt n = n := by
  unfold sizeToInt
  have : n % 4294967296 = n := Nat.mod_eq_of_lt (by omega)
  rw [this]; simp [h]

/-- Apart from the table, `Shard::Get` leaves the shard as it is. -/
theorem Shard.Get_capacity (s : Shard) (f : File) (key : Int) (env : GetEnv) :
    (s.Get f key env).shard.maxEntriesPerShard = s.maxEntriesPerShard := by
  rcases Shard.Get_cases s f key env with ⟨e₀, _, hg⟩ | ⟨_, _, hg⟩ | ⟨_, _, _, hg⟩ | ⟨_, _, _, hg⟩ <;>
    rw [hg]

theorem Shard.Put_of_none (s : Shard) (f : File) (key : Int) (buf : PageBuf) (env : GetEnv)
    (h : (s.Get f key env).ret = none) :
    s.Put f key buf env =
      { ret := false, shard := (s.Get f key env).shard, file := (s.Get f key env).file,
        trace := (s.Get f key env).trace } := by
  simp [Shard.Put, h]

theorem Shard.Put_of_some (s : Shard) (f : File) (key : Int) (buf : PageBuf) (env : GetEnv)
    (e : Entry) (h : (s.Get f key env).ret = some e) :
    s.Put f key buf env =
      { ret := true,
        shard :=
          { (s.Get f key env).shard with
            m := (s.Get f key env).shard.m.update key
              (fun e => { e with val := buf, isDirty := true }) },
        file := (s.Get f key env).file, trace := (s.Get f key env).trace } := by
  simp [Shard.Put, h]

theorem Shard.Put_capacity (s : Shard) (f : File) (key : Int) (buf : PageBuf) (env : GetEnv) :
    (s.Put f key buf env).shard.maxEntriesPerShard = s.maxEntriesPerShard := by
  cases hg : (s.Get f key env).ret with
  | none => rw [Shard.Put_of_none s f key buf env hg]; exact Shard.Get_capacity s f key env
  | some e => rw [Shard.Put_of_some s f key buf env e hg]; exact Shard.Get_capacity s f key env

theorem Shard.Put_length (s : Shard) (f : File) (key : Int) (buf : PageBuf) (env : GetEnv) :
    (s.Put f key buf env).shard.m.length = (s.Get f key env).shard.m.length := by
  cases hg : (s.Get f key env).ret with
  | none => rw [Shard.Put_of_none s f key buf env hg]
  | some e => rw [Shard.Put_of_some s f key buf env e hg]; simp [Table.length_update]

theorem Shard.Put_file (s : Shard) (f : File) (key : Int) (buf : PageBuf) (env : GetEnv) :
    (s.Put f key buf env).file = (s.Get f key env).file := by
  cases hg : (s.Get f key env).ret with
  | none => rw [Shard.Put_of_none s f key buf env hg]
  | some e => rw [Shard.Put_of_some s f key buf env e hg]

theorem Shard.Put_trace (s : Shard) (f : File) (key : Int) (buf : PageBuf) (env : GetEnv) :
    (s.Put f key buf env).trace = (s.Get f key env).trace := by
  cases hg : (s.Get f key env).ret with
  | none => rw [Shard.Put_of_none s f key buf env hg]
  | some e => rw [Shard.Put_of_some s f key buf env e hg]

theorem Shard.Put_ret (s : Shard) (f : File) (key : Int) (buf : PageBuf) (env : GetEnv) :
    (s.Put f key buf env).ret = (s.Get f key env).ret.isSome := by
  cases hg : (s.Get f key env).ret with
  | none => rw [Shard.Put_of_none s f key buf env hg]; rfl
  | some e => rw [Shard.Put_of_some s f key buf env e hg]; rfl

/-- The size of the table after `Shard::Get`, by case. -/
theorem Shard.Get_length (s : Shard) (f : File) (key : Int) (env : GetEnv) :
    (s.Get f key env).shard.m.length = s.m.length ∨
    ((s.Get f key env).shard.m.length = s.m.length + 1 ∧ s.atCapacity = false) ∨
    ((s.Get f key env).shard.m.length = s.m.length - 1 ∧ s.atCapacity = true) ∨
    ((s.Get f key env).shard.m.length = 1 ∧ s.m = [] ∧ s.atCapacity = true) := by
  rcases Shard.Get_cases s f key env with ⟨e₀, _, hg⟩ | ⟨_, hev, hg⟩ | ⟨_, hev, _, hg⟩ |
    ⟨hf, hev, _, hg⟩
  · left; rw [hg]
  · left; rw [hg]
    rcases Shard.makeRoom_table s f env.evict with ⟨h1, -⟩ | ⟨-, h2, -⟩
    · rw [h1] at hev; cases hev
    · simp [h2]
  · rw [hg]
    rcases Shard.makeRoom_table s f env.evict with ⟨-, h2⟩ | ⟨h1, -⟩
    · simp only [h2]
      cases hc : s.atCapacity with
      | false => left; simp
      | true => right; right; left; simp
    · rw [h1] at hev; cases hev
  · rw [hg]
    simp only [Shard.length_insertEntry _ _ _ _ _
      (Shard.makeRoom_find_none s f env.evict key hf)]
    rcases Shard.makeRoom_table s f env.evict with ⟨-, h2⟩ | ⟨h1, -⟩
    · rw [h2]
      cases hc : s.atCapacity with
      | false => right; left; simp
      | true =>
        cases hm : s.m with
        | nil => right; right; right; simp
        | cons p rest => left; simp
    · rw [h1] at hev; cases hev

/-! ## Lemmas on `Shard::Flush` -/

theorem flushOne_absent (ws : Nat → IOOutcome) (st : FlushState) (p : Int × Int)
    (h : st.m.find p.2 = none) : flushOne ws st p = st := by
  simp [flushOne, h]

theorem flushOne_clean (ws : Nat → IOOutcome) (st : FlushState) (p : Int × Int) (e : Entry)
    (h : st.m.find p.2 = some e) (hd : e.isDirty = false) : flushOne ws st p = st := by
  simp [flushOne, h, hd]

theorem flushOne_fail (ws : Nat → IOOutcome) (st : FlushState) (p : Int × Int) (e : Entry)
    (h : st.m.find p.2 = some e) (hd : e.isDirty = true)
    (hw : (pwrite st.file e.val p.1 (ws st.trace.length)).1 ≠ (pageSize : Int)) :
    flushOne ws st p =
      { st with
        file := (pwrite st.file e.val p.1 (ws st.trace.length)).2,
        trace := st.trace ++
          [.pwrite p.1 e.val.1 (pwrite st.file e.val p.1 (ws st.trace.length)).1] } := by
  simp [flushOne, h, hd, hw]

theorem flushOne_ok (ws : Nat → IOOutcome) (st : FlushState) (p : Int × Int) (e : Entry)
    (h : st.m.find p.2 = some e) (hd : e.isDirty = true)
    (hw : (pwrite st.file e.val p.1 (ws st.trace.length)).1 = (pageSize : Int)) :
    flushOne ws st p =
      { m := st.m.update p.2 (fun e => { e with isDirty := false }),
        file := (pwrite st.file e.val p.1 (ws st.trace.length)).2,
        trace := st.trace ++
          [.pwrite p.1 e.val.1 (pwrite st.file e.val p.1 (ws st.trace.length)).1] } := by
  simp [flushOne, h, hd, hw]

/-- The four ways one iteration of the second loop of `Shard::Flush` can go. -/
theorem flushOne_cases (ws : Nat → IOOutcome) (st : FlushState) (p : Int × Int) :
    (st.m.find p.2 = none ∧ flushOne ws st p = st) ∨
    (∃ e, st.m.find p.2 = some e ∧ e.isDirty = false ∧ flushOne ws st p = st) ∨
    (∃ e, st.m.find p.2 = some e ∧ e.isDirty = true ∧
      (pwrite st.file e.val p.1 (ws st.trace.length)).1 ≠ (pageSize : Int) ∧
      flushOne ws st p =
        { st with
          file := (pwrite st.file e.val p.1 (ws st.trace.length)).2,
          trace := st.trace ++
            [.pwrite p.1 e.val.1 (pwrite st.file e.val p.1 (ws st.trace.length)).1] }) ∨
    (∃ e, st.m.find p.2 = some e ∧ e.isDirty = true ∧
      (pwrite st.file e.val p.1 (ws st.trace.length)).1 = (pageSize : Int) ∧
      flushOne ws st p =
        { m := st.m.update p.2 (fun e => { e with isDirty := false }),
          file := (pwrite st.file e.val p.1 (ws st.trace.length)).2,
          trace := st.trace ++
            [.pwrite p.1 e.val.1 (pwrite st.file e.val p.1 (ws st.trace.length)).1] }) := by
  cases hf : st.m.find p.2 with
  | none => exact Or.inl ⟨rfl, flushOne_absent ws st p hf⟩
  | some e =>
    right
    cases hd : e.isDirty with
    | false => exact Or.inl ⟨e, rfl, hd, flushOne_clean ws st p e hf hd⟩
    | true =>
      right
      by_cases hw : (pwrite st.file e.val p.1 (ws st.trace.length)).1 = (pageSize : Int)
      · exact Or.inr ⟨e, rfl, hd, hw, flushOne_ok ws st p e hf hd hw⟩
      · exact Or.inl ⟨e, rfl, hd, hw, flushOne_fail ws st p e hf hd hw⟩

theorem flushOne_keys (ws : Nat → IOOutcome) (st : FlushState) (p : Int × Int) :
    Table.keys (flushOne ws st p).m = Table.keys st.m := by
  rcases flushOne_cases ws st p with ⟨-, h⟩ | ⟨e, -, -, h⟩ | ⟨e, -, -, -, h⟩ | ⟨e, -, -, -, h⟩
  · rw [h]
  · rw [h]
  · rw [h]
  · rw [h]; simp only [Table.keys_update]

theorem flushLoop_keys (ws : Nat → IOOutcome) (l : List (Int × Int)) (st : FlushState) :
    Table.keys (l.foldl (flushOne ws) st).m = Table.keys st.m := by
  induction l generalizing st with
  | nil => rfl
  | cons p l ih => rw [List.foldl_cons, ih, flushOne_keys]

theorem Shard.Flush_keys (s : Shard) (f : File) (ws : Nat → IOOutcome) :
    Table.keys (s.Flush f ws).shard.m = Table.keys s.m := by
  simp [Shard.Flush, flushLoop_keys]

theorem Table.length_keys (m : Table) : (Table.keys m).length = m.length := by
  simp [Table.keys]

theorem Shard.Flush_length (s : Shard) (f : File) (ws : Nat → IOOutcome) :
    (s.Flush f ws).shard.m.length = s.m.length := by
  rw [← Table.length_keys, Shard.Flush_keys, Table.length_keys]

theorem Shard.Flush_capacity (s : Shard) (f : File) (ws : Nat → IOOutcome) :
    (s.Flush f ws).shard.maxEntriesPerShard = s.maxEntriesPerShard := rfl

/-! ## The size of the table along a run -/

/-- One call keeps the capacity and keeps the size of the table within
`max capacity 1`. -/
theorem Shard.step_size (cap : Int) (h2 : cap ≤ intMax) (st : Shard × File) (op : Op)
    (hc : st.1.maxEntriesPerShard = cap) (hl : (st.1.m.length : Int) ≤ max cap 1) :
    (Shard.step st op).1.maxEntriesPerShard = cap ∧
      ((Shard.step st op).1.m.length : Int) ≤ max cap 1 := by
  have hget : ∀ key env, (((st.1.Get st.2 key env).shard.m.length : Nat) : Int) ≤ max cap 1 := by
    intro key env
    unfold intMax at h2
    rcases Shard.Get_length st.1 st.2 key env with h | ⟨h, hcap⟩ | ⟨h, -⟩ | ⟨h, -, -⟩
    · rw [h]; exact hl
    · rw [h]
      have hlt : st.1.m.length < 2147483648 := by
        rcases le_max_iff.1 hl with h' | h' <;> omega
      simp only [Shard.atCapacity, sizeToInt_of_lt _ hlt, hc, decide_eq_false_iff_not,
        not_le] at hcap
      exact le_max_of_le_left (by omega)
    · rw [h]
      have : ((st.1.m.length - 1 : Nat) : Int) ≤ (st.1.m.length : Int) := by omega
      exact le_trans this hl
    · rw [h]; exact le_max_of_le_right (by norm_num)
  cases op with
  | put key buf env =>
    exact ⟨by simp [Shard.step, Shard.Put_capacity, hc],
      by simp only [Shard.step, Shard.Put_length]; exact hget key env⟩
  | get key env =>
    exact ⟨by simp [Shard.step, Shard.Get_capacity, hc], by simpa [Shard.step] using hget key env⟩
  | flush ws =>
    exact ⟨by simp [Shard.step, Shard.Flush_capacity, hc],
      by simp only [Shard.step, Shard.Flush_length]; exact hl⟩

theorem Shard.run_size (cap : Int) (h2 : cap ≤ intMax) (ops : List Op) (st : Shard × File)
    (hc : st.1.maxEntriesPerShard = cap) (hl : (st.1.m.length : Int) ≤ max cap 1) :
    (Shard.run st ops).1.maxEntriesPerShard = cap ∧
      ((Shard.run st ops).1.m.length : Int) ≤ max cap 1 := by
  induction ops generalizing st with
  | nil => exact ⟨hc, hl⟩
  | cons op ops ih =>
    obtain ⟨h1, h2'⟩ := Shard.step_size cap h2 st op hc hl
    exact ih (Shard.step st op) h1 h2'

/-! ## Lemmas on the system calls and on the page load -/

theorem pread_error (f : File) (buf : PageBuf) (off : Int) :
    pread f buf off .error = (-1, buf) := rfl

theorem pread_neg (f : File) (buf : PageBuf) (off : Int) (o : IOOutcome) (h : off < 0) :
    (pread f buf off o).1 = -1 := by
  cases o <;> simp [pread, h]

/-- The return value of `pread` is negative exactly when the system reports an
error or the offset is negative; it does not depend on the file. -/
theorem pread_fst_neg_iff (f : File) (buf : PageBuf) (off : Int) (o : IOOutcome) :
    (pread f buf off o).1 < 0 ↔ (o = .error ∨ off < 0) := by
  cases o with
  | error => simp [pread]
  | transfer limit =>
    by_cases h : off < 0
    · simp [pread, h]
    · simp only [pread, h, if_false, reduceCtorEq, or_false, iff_false, not_lt]
      exact Int.natCast_nonneg _

/-- The bytes a successful `pread` transfers: the first `n` bytes of the file
from `off` on, where `n` is the return value. -/
theorem pread_ok (f : File) (buf : PageBuf) (off : Int) (limit : Nat) (h : ¬ off < 0) :
    ∃ n : Nat, (pread f buf off (.transfer limit)).1 = (n : Int) ∧ n ≤ pageSize ∧ n ≤ limit ∧
      n = min (min pageSize limit) (f.length - off.toNat) ∧
      ((f.drop off.toNat).take n).length = n ∧
      (pread f buf off (.transfer limit)).2.1 = (f.drop off.toNat).take n ++ buf.1.drop n := by
  refine ⟨(((f.drop off.toNat).take pageSize).take limit).length, ?_, ?_, ?_, ?_, ?_, ?_⟩
  · simp [pread, h]
  · simp only [List.length_take, List.length_drop]; omega
  · simp only [List.length_take, List.length_drop]; omega
  · simp only [List.length_take, List.length_drop]; omega
  · simp only [List.length_take, List.length_drop]; omega
  · simp only [pread, h, if_false]
    congr 1
    rw [List.take_take]
    simp only [List.length_take, List.length_drop]
    apply List.ext_getElem
    · simp only [List.length_take, List.length_drop]; omega
    · intro i h1 h2
      simp [List.getElem_take]

/-- The entry built by lines 31-40 of `Shard::Get` when the read does not fail:
the `n` bytes read, then zeros. -/
theorem loadEntry_ok (f : File) (key : Int) (o : IOOutcome) (h : ¬ (loadEntry f key o).1 < 0) :
    ∃ n : Nat, (loadEntry f key o).1 = (n : Int) ∧ n ≤ pageSize ∧ 0 ≤ key ∧
      (∃ limit, o = .transfer limit ∧ n = min (min pageSize limit) (f.length - key.toNat)) ∧
      ((f.drop key.toNat).take n).length = n ∧
      (loadEntry f key o).2.val.1 =
        (f.drop key.toNat).take n ++ List.replicate (pageSize - n) 0 ∧
      (loadEntry f key o).2.key = key ∧ (loadEntry f key o).2.isDirty = false := by
  have hfst : (loadEntry f key o).1 = (pread f Entry.init.val key o).1 := rfl
  rw [hfst, pread_fst_neg_iff] at h
  cases o with
  | error => simp at h
  | transfer limit =>
    simp only [reduceCtorEq, false_or, not_lt] at h
    obtain ⟨n, hn, hle, -, hmin, hlen, hbuf⟩ :=
      pread_ok f Entry.init.val key limit (not_lt.2 h)
    refine ⟨n, by rw [hfst, hn], hle, h, ⟨limit, rfl, hmin⟩, hlen, ?_, rfl, rfl⟩
    simp only [loadEntry, hn]
    have hz : Entry.init.val.1 = List.replicate pageSize 0 := rfl
    split
    · rename_i hcond
      simp only [memsetTail, hbuf, Int.toNat_ofNat]
      rw [List.take_append_of_le_length (by omega), List.take_of_length_le (by omega)]
    · rename_i hcond
      rw [hbuf, hz, List.drop_replicate]

/-! ## Lemmas on the file -/

theorem File.byteAt_eq (f : File) (i : Nat) : f.byteAt i = (f[i]?).getD 0 := by
  simp [File.byteAt]

/-- A byte of the file after a store: the stored byte inside the stored range,
the old byte outside. -/
theorem File.byteAt_writeAt (f : File) (off : Nat) (data : List Byte) (i : Nat) :
    (f.writeAt off data).byteAt i =
      if off ≤ i ∧ i < off + data.length then data.getD (i - off) 0 else f.byteAt i := by
  unfold File.writeAt
  by_cases hd : data = []
  · subst hd
    have hc : ¬ (off ≤ i ∧ i < off + ([] : List Byte).length) := by
      simp only [List.length_nil]; omega
    simp only [if_true, hc, if_false]
  · simp only [hd, if_false, File.byteAt_eq, List.getD_eq_getElem?_getD]
    have hlen : ((f ++ List.replicate (off - f.length) 0).take off).length = off := by
      simp only [List.length_take, List.length_append, List.length_replicate]; omega
    rw [List.append_assoc, List.getElem?_append, hlen]
    by_cases h1 : i < off
    · have hc : ¬ (off ≤ i ∧ i < off + data.length) := by omega
      simp only [h1, if_true, hc, if_false]
      rw [List.getElem?_take_of_lt h1, List.getElem?_append]
      by_cases h2 : i < f.length
      · simp [h2]
      · simp only [h2, if_false]
        rw [List.getElem?_replicate]
        have : f[i]? = none := List.getElem?_eq_none (by omega)
        rw [this]
        split <;> rfl
    · simp only [h1, if_false]
      rw [List.getElem?_append]
      by_cases h2 : i - off < data.length
      · have hc : off ≤ i ∧ i < off + data.length := by omega
        simp [h2, hc]
      · have hc : ¬ (off ≤ i ∧ i < off + data.length) := by omega
        simp only [h2, if_false, hc, List.getElem?_drop]
        congr 2
        omega

theorem File.length_pageAt (f : File) (off : Nat) : (f.pageAt off).length = pageSize := by
  simp [File.pageAt]

theorem File.getD_pageAt (f : File) (off i : Nat) (h : i < pageSize) :
    (f.pageAt off).getD i 0 = f.byteAt (off + i) := by
  simp [File.pageAt, List.getElem?_map, List.getElem?_range h]

/-- A page equals the page of the file at `off` when it agrees with the
file byte by byte. -/
theorem File.eq_pageAt (f : File) (off : Nat) (l : List Byte) (hl : l.length = pageSize)
    (h : ∀ i, i < pageSize → l.getD i 0 = f.byteAt (off + i)) : l = f.pageAt off := by
  apply List.ext_getElem
  · rw [hl, File.length_pageAt]
  · intro i h1 h2
    have hi : i < pageSize := by omega
    have := h i hi
    rw [← File.getD_pageAt f off i hi] at this
    rw [List.getD_eq_getElem _ _ h1, List.getD_eq_getElem _ _ h2] at this
    exact this

/-- Two files have the same page at `off` when they agree on its bytes. -/
theorem File.pageAt_congr (f g : File) (off : Nat)
    (h : ∀ i, i < pageSize → f.byteAt (off + i) = g.byteAt (off + i)) :
    f.pageAt off = g.pageAt off := by
  apply File.eq_pageAt g off _ (File.length_pageAt f off)
  intro i hi
  rw [File.getD_pageAt f off i hi, h i hi]

/-- The page of the file at `off` is what a full, zero-padded read returns. -/
theorem File.pageAt_eq_take_drop (f : File) (off : Nat) :
    f.pageAt off = (f.drop off).take pageSize ++
      List.replicate (pageSize - ((f.drop off).take pageSize).length) 0 := by
  symm
  apply File.eq_pageAt
  · simp only [List.length_append, List.length_take, List.length_drop, List.length_replicate]
    omega
  · intro i hi
    simp only [File.byteAt_eq, List.getD_eq_getElem?_getD, List.getElem?_append,
      List.length_take, List.length_drop]
    by_cases h1 : i < min pageSize (f.length - off)
    · simp only [h1, if_true]
      rw [List.getElem?_take_of_lt hi, List.getElem?_drop]
    · simp only [h1, if_false]
      have : f[off + i]? = none := List.getElem?_eq_none (by omega)
      rw [this, List.getElem?_replicate]
      split <;> rfl
theorem File.writeAt_nil (f : File) (off : Nat) : f.writeAt off [] = f := by
  simp [File.writeAt]

/-- Whatever its outcome, `pwrite` stores a prefix of the page at the offset,
the empty one when it fails. -/
theorem pwrite_file (f : File) (buf : PageBuf) (k : Int) (o : IOOutcome) :
    ∃ n : Nat, n ≤ pageSize ∧ (pwrite f buf k o).2 = f.writeAt k.toNat (buf.1.take n) ∧
      ((pwrite f buf k o).1 = (pageSize : Int) → n = pageSize ∧ 0 ≤ k) := by
  cases o with
  | error =>
    refine ⟨0, Nat.zero_le _, ?_, ?_⟩
    · simp [pwrite, File.writeAt_nil]
    · intro h; simp [pwrite, pageSize] at h
  | transfer limit =>
    by_cases hk : k < 0
    · refine ⟨0, Nat.zero_le _, ?_, ?_⟩
      · simp [pwrite, hk, File.writeAt_nil]
      · intro h; simp [pwrite, hk, pageSize] at h
    · refine ⟨min pageSize limit, Nat.min_le_left _ _, ?_, ?_⟩
      · simp [pwrite, hk, List.take_take, Nat.min_comm]
      · intro h
        have hb := buf.2
        simp only [pwrite, hk, if_false, List.length_take, Nat.cast_inj] at h
        exact ⟨by omega, by omega⟩

/-- After a `pwrite` that returned `pageSize`, the page of the file at the
offset is the page written. -/
theorem pwrite_full (f : File) (buf : PageBuf) (k : Int) (o : IOOutcome)
    (h : (pwrite f buf k o).1 = (pageSize : Int)) :
    0 ≤ k ∧ (pwrite f buf k o).2 = f.writeAt k.toNat buf.1 ∧
      (pwrite f buf k o).2.pageAt k.toNat = buf.1 ∧
      ((pwrite f buf k o).2.drop k.toNat).take pageSize = buf.1 := by
  obtain ⟨n, -, hfile, hn⟩ := pwrite_file f buf k o
  obtain ⟨hn, hk⟩ := hn h
  have hb := buf.2
  have htake : buf.1.take n = buf.1 := List.take_of_length_le (by omega)
  rw [htake] at hfile
  have hpage : (pwrite f buf k o).2.pageAt k.toNat = buf.1 := by
    symm
    apply File.eq_pageAt _ _ _ hb
    intro i hi
    rw [hfile, File.byteAt_writeAt]
    have : k.toNat ≤ k.toNat + i ∧ k.toNat + i < k.toNat + buf.1.length := by omega
    rw [if_pos this, Nat.add_sub_cancel_left]
  refine ⟨hk, hfile, hpage, ?_⟩
  have hlen : k.toNat + pageSize ≤ (pwrite f buf k o).2.length := by
    rw [hfile]
    unfold File.writeAt
    have hne : buf.1 ≠ [] := by
      intro h0; rw [h0] at hb; simp [pageSize] at hb
    simp only [hne, if_false, List.length_append, List.length_take, List.length_replicate,
      List.length_drop]
    omega
  have := File.pageAt_eq_take_drop (pwrite f buf k o).2 k.toNat
  rw [hpage] at this
  have hl : (((pwrite f buf k o).2.drop k.toNat).take pageSize).length = pageSize := by
    simp only [List.length_take, List.length_drop]; omega
  rw [hl] at this
  simpa using this.symm

/-- A `pwrite` at `k` changes no byte outside `[k, k + pageSize)`. -/
theorem pwrite_byteAt_outside (f : File) (buf : PageBuf) (k : Int) (o : IOOutcome) (i : Nat)
    (h : i < k.toNat ∨ k.toNat + pageSize ≤ i) :
    (pwrite f buf k o).2.byteAt i = f.byteAt i := by
  obtain ⟨n, hn, hfile, -⟩ := pwrite_file f buf k o
  rw [hfile, File.byteAt_writeAt]
  have : ¬ (k.toNat ≤ i ∧ i < k.toNat + (buf.1.take n).length) := by
    simp only [List.length_take]; omega
  rw [if_neg this]

/-- A `pwrite` at `k` leaves the page at `k'` as it is when the two ranges do
not overlap. -/
theorem pwrite_pageAt_disjoint (f : File) (buf : PageBuf) (k : Int) (o : IOOutcome) (k' : Nat)
    (h : k' + pageSize ≤ k.toNat ∨ k.toNat + pageSize ≤ k') :
    (pwrite f buf k o).2.pageAt k' = f.pageAt k' := by
  apply File.pageAt_congr
  intro i hi
  exact pwrite_byteAt_outside f buf k o (k' + i) (by omega)

/-- A `pwrite` that fails leaves the file as it is. -/
theorem pwrite_neg (f : File) (buf : PageBuf) (k : Int) (o : IOOutcome)
    (h : (pwrite f buf k o).1 < 0) : (pwrite f buf k o).2 = f := by
  cases o with
  | error => rfl
  | transfer limit =>
    by_cases hk : k < 0
    · simp [pwrite, hk]
    · simp only [pwrite, hk, if_false] at h
      have := Int.natCast_nonneg ((buf.1.take pageSize).take limit).length
      omega

/-- The return value of `pwrite` with the outcome that is not cut short. -/
theorem pwrite_fst_full (f : File) (buf : PageBuf) (k : Int) (hk : 0 ≤ k) :
    (pwrite f buf k .full).1 = (pageSize : Int) := by
  have hb := buf.2
  simp [pwrite, IOOutcome.full, not_lt.2 hk, hb]

/-! ## Lemmas on a miss at capacity -/

theorem Shard.makeRoom_atCapacity (s : Shard) (f : File) (o : IOOutcome)
    (h : s.atCapacity = true) : s.makeRoom f o = evictOneLocked s.m f o := by
  simp [Shard.makeRoom, h]

theorem Shard.makeRoom_below (s : Shard) (f : File) (o : IOOutcome)
    (h : s.atCapacity = false) :
    s.makeRoom f o = { ret := true, m := s.m, file := f, trace := [] } := by
  simp [Shard.makeRoom, h]

/-- Eviction fails exactly when the table is at capacity, its first entry is
dirty and the write-back of that entry does not return `pageSize`. -/
theorem Shard.makeRoom_ret_false_iff (s : Shard) (f : File) (o : IOOutcome) :
    (s.makeRoom f o).ret = false ↔
      (s.atCapacity = true ∧ ∃ k v rest, s.m = (k, v) :: rest ∧ v.isDirty = true ∧
        (pwrite f v.val k o).1 ≠ (pageSize : Int)) := by
  cases hc : s.atCapacity with
  | false => simp [Shard.makeRoom_below s f o hc]
  | true =>
    rw [Shard.makeRoom_atCapacity s f o hc]
    cases hm : s.m with
    | nil => simp [evictOneLocked_nil]
    | cons p rest =>
      obtain ⟨k, v⟩ := p
      cases hd : v.isDirty with
      | false =>
        rw [evictOneLocked_clean k v rest f o hd]
        simp only [Bool.true_eq_false, true_and, false_iff, not_exists, not_and]
        intro k' v' rest' heq hd'
        simp only [List.cons.injEq, Prod.mk.injEq] at heq
        rw [← heq.1.2, hd] at hd'; cases hd'
      | true =>
        by_cases hw : (pwrite f v.val k o).1 = (pageSize : Int)
        · rw [evictOneLocked_dirty_ok k v rest f o hd hw]
          simp only [Bool.true_eq_false, true_and, false_iff, not_exists, not_and]
          intro k' v' rest' heq _
          simp only [List.cons.injEq, Prod.mk.injEq] at heq
          rw [← heq.1.1, ← heq.1.2]; simpa using hw
        · rw [evictOneLocked_dirty_fail k v rest f o hd hw]
          simp only [true_and, true_iff]
          exact ⟨k, v, rest, rfl, hd, hw⟩

/-- `Shard::Get` returns `nullptr` exactly on a miss whose eviction or whose
read fails. -/
theorem Shard.Get_ret_none_iff (s : Shard) (f : File) (key : Int) (env : GetEnv) :
    (s.Get f key env).ret = none ↔
      (s.m.find key = none ∧
        ((s.makeRoom f env.evict).ret = false ∨
          (loadEntry (s.makeRoom f env.evict).file key env.load).1 < 0)) := by
  rcases Shard.Get_cases s f key env with ⟨e₀, hf, hg⟩ | ⟨hf, hev, hg⟩ | ⟨hf, hev, hl, hg⟩ |
    ⟨hf, hev, hl, hg⟩
  · rw [hg]; simp [hf]
  · rw [hg]; simp [hf, hev]
  · rw [hg]; simp [hf, hl]
  · rw [hg]; simp [hf, hev, hl]

/-- The file after `Shard::Get` is the file after its eviction step. -/
theorem Shard.Get_file_of_miss (s : Shard) (f : File) (key : Int) (env : GetEnv)
    (h : s.m.find key = none) : (s.Get f key env).file = (s.makeRoom f env.evict).file := by
  rcases Shard.Get_cases s f key env with ⟨e₀, hf, hg⟩ | ⟨hf, hev, hg⟩ | ⟨hf, hev, hl, hg⟩ |
    ⟨hf, hev, hl, hg⟩
  · rw [h] at hf; cases hf
  · rw [hg]
  · rw [hg]
  · rw [hg]

/-- The read of `Shard::Get` fails exactly when the system reports an error or
the key is negative. -/
theorem loadEntry_fst_neg_iff (f : File) (key : Int) (o : IOOutcome) :
    (loadEntry f key o).1 < 0 ↔ (o = .error ∨ key < 0) :=
  pread_fst_neg_iff f Entry.init.val key o

/-- Eviction succeeds when the write-back is not cut short and no key is
negative. -/
theorem Shard.makeRoom_full (s : Shard) (f : File)
    (h : ∀ k v rest, s.m = (k, v) :: rest → 0 ≤ k) : (s.makeRoom f .full).ret = true := by
  cases hr : (s.makeRoom f .full).ret with
  | true => rfl
  | false =>
    obtain ⟨-, k, v, rest, hm, -, hw⟩ := (Shard.makeRoom_ret_false_iff s f .full).1 hr
    exact absurd (pwrite_fst_full f v.val k (h k v rest hm)) hw

/-! ## Lemmas on overlap and on clean pages -/

theorem Disjoint.symm {k k' : Int} (h : Disjoint k k') : Disjoint k' k := Or.symm h

theorem Disjoint.ne {k k' : Int} (h : Disjoint k k') : k ≠ k' := by
  intro heq; subst heq
  unfold Disjoint pageSize at h; omega

theorem Disjoint.of_aligned {k k' : Int} (hk : k % (pageSize : Int) = 0)
    (hk' : k' % (pageSize : Int) = 0) (hne : k ≠ k') : Disjoint k k' := by
  unfold Disjoint; unfold pageSize at *
  omega

theorem Table.mem_keys (m : Table) (k : Int) : k ∈ Table.keys m ↔ ∃ e, (k, e) ∈ m := by
  simp [Table.keys]

theorem Table.NoOverlap.disjoint {m : Table} (h : m.NoOverlap) {k k' : Int} {e e' : Entry}
    (hk : (k, e) ∈ m) (hk' : (k', e') ∈ m) (hne : k ≠ k') : Disjoint k k' := by
  have hsym : Symmetric (fun p q : Int × Entry => Disjoint p.1 q.1) := fun _ _ h => h.symm
  exact List.Pairwise.forall hsym h hk hk' (fun heq => hne (congrArg Prod.fst heq))

theorem Table.NoOverlap.nodup_keys {m : Table} (h : m.NoOverlap) : (Table.keys m).Nodup := by
  unfold Table.keys
  rw [List.Nodup, List.pairwise_map]
  exact List.Pairwise.imp (fun hd => hd.ne) h

theorem Table.find_of_mem {m : Table} (hnd : (Table.keys m).Nodup) {k : Int} {e : Entry}
    (h : (k, e) ∈ m) : Table.find m k = some e := by
  induction m with
  | nil => cases h
  | cons p rest ih =>
    simp only [Table.keys, List.map_cons, List.nodup_cons] at hnd
    rw [Table.find_cons]
    rcases List.mem_cons.1 h with heq | hmem
    · subst heq; simp
    · have hne : p.1 ≠ k := by
        intro heq
        apply hnd.1
        rw [heq]
        exact List.mem_map.2 ⟨(k, e), hmem, rfl⟩
      simp only [hne, if_false]
      exact ih hnd.2 hmem

theorem Table.mem_of_find {m : Table} {k : Int} {e : Entry} (h : Table.find m k = some e) :
    (k, e) ∈ m := by
  induction m with
  | nil => cases h
  | cons p rest ih =>
    rw [Table.find_cons] at h
    by_cases hp : p.1 = k
    · simp only [hp, if_true, Option.some.injEq] at h
      have : p = (k, e) := Prod.ext hp h
      rw [this]; exact List.mem_cons_self _ _
    · simp only [hp, if_false] at h
      exact List.mem_cons_of_mem _ (ih h)

theorem Table.mem_update (m : Table) (key : Int) (g : Entry → Entry) (k : Int) (e' : Entry) :
    (k, e') ∈ Table.update m key g ↔
      ∃ e, (k, e) ∈ m ∧ e' = if k = key then g e else e := by
  unfold Table.update
  rw [List.mem_map]
  constructor
  · rintro ⟨⟨k₀, e₀⟩, hmem, heq⟩
    by_cases hk : k₀ = key
    · simp only [hk, if_true, Prod.mk.injEq] at heq
      obtain ⟨h1, h2⟩ := heq
      subst h1
      exact ⟨e₀, hk ▸ hmem, by simp [h2]⟩
    · simp only [hk, if_false, Prod.mk.injEq] at heq
      obtain ⟨h1, h2⟩ := heq
      subst h1 h2
      exact ⟨e₀, hmem, by simp [hk]⟩
  · rintro ⟨e, hmem, heq⟩
    refine ⟨(k, e), hmem, ?_⟩
    by_cases hk : k = key
    · simp [hk, heq]
    · simp [hk, heq]

theorem Table.NoOverlap.update {m : Table} (h : m.NoOverlap) (key : Int) (g : Entry → Entry) :
    (Table.update m key g).NoOverlap := by
  unfold Table.NoOverlap Table.update
  rw [List.pairwise_map]
  refine List.Pairwise.imp ?_ h
  intro p q hpq
  by_cases hp : p.1 = key <;> by_cases hq : q.1 = key <;> simp [hp, hq] <;> simpa [hp, hq] using hpq

theorem Table.NoOverlap.tail {m : Table} (h : m.NoOverlap) : Table.NoOverlap m.tail :=
  List.Pairwise.sublist (List.tail_sublist m) h

/-- Freedom from overlap does not depend on the iteration order. -/
theorem Table.NoOverlap.perm {m m' : Table} (hp : m'.Perm m) (h : m.NoOverlap) :
    m'.NoOverlap :=
  (List.Perm.pairwise_iff (fun h => Disjoint.symm h) hp).2 h

/-- Adding an element whose range overlaps none keeps the table free of
overlap, wherever the element goes. -/
theorem Table.NoOverlap.insert {m : Table} (h : m.NoOverlap) (key : Int) (e : Entry)
    (slot : Nat) (hd : ∀ k e', (k, e') ∈ m → Disjoint key k) :
    Table.NoOverlap (m.take slot ++ (key, e) :: m.drop slot) := by
  unfold Table.NoOverlap
  rw [List.pairwise_middle (fun h => Disjoint.symm h), List.take_append_drop,
    List.pairwise_cons]
  exact ⟨fun p hp => hd p.1 p.2 hp, h⟩

/-- A `pwrite` at `k` leaves the page at a key whose range does not overlap
as it is. -/
theorem pwrite_pageAt_of_disjoint (f : File) (buf : PageBuf) (k k' : Int) (o : IOOutcome)
    (hk' : 0 ≤ k') (h : Disjoint k k') :
    (pwrite f buf k o).2.pageAt k'.toNat = f.pageAt k'.toNat := by
  by_cases hk : k < 0
  · have : (pwrite f buf k o).2 = f := by
      cases o <;> simp [pwrite, hk]
    rw [this]
  · apply pwrite_pageAt_disjoint
    unfold Disjoint at h
    omega
/-! ## More lemmas on `Shard::Flush` -/

theorem Table.pages_update_dirty (m : Table) (key : Int) (b : Bool) :
    Table.pages (Table.update m key (fun e => { e with isDirty := b })) = Table.pages m := by
  unfold Table.pages Table.update
  rw [List.map_map]
  apply List.map_congr_left
  intro p _
  by_cases hp : p.1 = key <;> simp [hp]

theorem flushOne_pages (ws : Nat → IOOutcome) (st : FlushState) (p : Int × Int) :
    Table.pages (flushOne ws st p).m = Table.pages st.m := by
  rcases flushOne_cases ws st p with ⟨-, h⟩ | ⟨e, -, -, h⟩ | ⟨e, -, -, -, h⟩ | ⟨e, -, -, -, h⟩
  · rw [h]
  · rw [h]
  · rw [h]
  · rw [h]; simp only [Table.pages_update_dirty]

theorem flushLoop_pages (ws : Nat → IOOutcome) (l : List (Int × Int)) (st : FlushState) :
    Table.pages (l.foldl (flushOne ws) st).m = Table.pages st.m := by
  induction l generalizing st with
  | nil => rfl
  | cons p l ih => rw [List.foldl_cons, ih, flushOne_pages]

theorem flushOne_noOverlap (ws : Nat → IOOutcome) (st : FlushState) (p : Int × Int)
    (h : st.m.NoOverlap) : (flushOne ws st p).m.NoOverlap := by
  rcases flushOne_cases ws st p with ⟨-, hs⟩ | ⟨e, -, -, hs⟩ | ⟨e, -, -, -, hs⟩ |
    ⟨e, -, -, -, hs⟩
  · rw [hs]; exact h
  · rw [hs]; exact h
  · rw [hs]; exact h
  · rw [hs]
    show Table.NoOverlap (Table.update st.m p.2 (fun e => { e with isDirty := false }))
    exact Table.NoOverlap.update h p.2 _

theorem flushOne_trace_grows (ws : Nat → IOOutcome) (st : FlushState) (p : Int × Int) :
    st.trace <+: (flushOne ws st p).trace := by
  rcases flushOne_cases ws st p with ⟨-, hs⟩ | ⟨e, -, -, hs⟩ | ⟨e, -, -, -, hs⟩ |
    ⟨e, -, -, -, hs⟩
  · rw [hs]
  · rw [hs]
  · rw [hs]; exact List.prefix_append _ _
  · rw [hs]; exact List.prefix_append _ _

theorem flushLoop_trace_grows (ws : Nat → IOOutcome) (l : List (Int × Int))
    (st : FlushState) : st.trace <+: (l.foldl (flushOne ws) st).trace := by
  induction l generalizing st with
  | nil => exact List.prefix_refl _
  | cons p l ih =>
    rw [List.foldl_cons]
    exact List.IsPrefix.trans (flushOne_trace_grows ws st p) (ih _)

/-- One iteration keeps the clean pages equal to the file. -/
theorem flushOne_mirrors (G : Int → Prop) (ws : Nat → IOOutcome) (st : FlushState)
    (p : Int × Int) (hp : p.1 = p.2) (hno : st.m.NoOverlap)
    (hm : Table.Mirrors G st.m st.file) :
    Table.Mirrors G (flushOne ws st p).m (flushOne ws st p).file := by
  have hnd := hno.nodup_keys
  rcases flushOne_cases ws st p with ⟨-, hs⟩ | ⟨e, -, -, hs⟩ | ⟨e, hf, hd, hw, hs⟩ |
    ⟨e, hf, hd, hw, hs⟩
  · rw [hs]; exact hm
  · rw [hs]; exact hm
  · rw [hs]
    intro k e' hmem hG hclean hk
    have hne : p.1 ≠ k := by
      intro heq
      have := Table.find_of_mem hnd hmem
      rw [← heq, hp, hf] at this
      simp only [Option.some.injEq] at this
      rw [this] at hd; rw [hd] at hclean; cases hclean
    have hdis : Disjoint p.1 k :=
      hno.disjoint (hp ▸ Table.mem_of_find hf) hmem hne
    show File.pageAt (pwrite st.file e.val p.1 (ws st.trace.length)).2 k.toNat = e'.val.1
    rw [pwrite_pageAt_of_disjoint _ _ _ _ _ hk hdis]
    exact hm k e' hmem hG hclean hk
  · rw [hs]
    intro k e' hmem hG hclean hk
    show File.pageAt (pwrite st.file e.val p.1 (ws st.trace.length)).2 k.toNat = e'.val.1
    obtain ⟨e₀, hmem₀, he'⟩ :=
      (Table.mem_update st.m p.2 (fun e => { e with isDirty := false }) k e').1 hmem
    by_cases hkp : k = p.2
    · have h₀ : e₀ = e := by
        have := Table.find_of_mem hnd hmem₀
        rw [hkp, hf] at this
        exact (Option.some.inj this).symm
      simp only [hkp, if_true] at he'
      rw [he', h₀, hkp, ← hp]
      exact (pwrite_full _ _ _ _ hw).2.2.1
    · simp only [hkp, if_false] at he'
      subst he'
      have hdis : Disjoint p.1 k :=
        hno.disjoint (hp ▸ Table.mem_of_find hf) hmem₀ (by rw [hp]; exact Ne.symm hkp)
      rw [pwrite_pageAt_of_disjoint _ _ _ _ _ hk hdis]
      exact hm k e' hmem₀ hG hclean hk

theorem flushLoop_noOverlap (ws : Nat → IOOutcome) (l : List (Int × Int)) (st : FlushState)
    (h : st.m.NoOverlap) : (l.foldl (flushOne ws) st).m.NoOverlap := by
  induction l generalizing st with
  | nil => exact h
  | cons p l ih => rw [List.foldl_cons]; exact ih _ (flushOne_noOverlap ws st p h)

theorem flushLoop_mirrors (G : Int → Prop) (ws : Nat → IOOutcome) (l : List (Int × Int))
    (st : FlushState) (hl : ∀ p ∈ l, p.1 = p.2) (hno : st.m.NoOverlap)
    (hm : Table.Mirrors G st.m st.file) :
    Table.Mirrors G (l.foldl (flushOne ws) st).m (l.foldl (flushOne ws) st).file := by
  induction l generalizing st with
  | nil => exact hm
  | cons p l ih =>
    rw [List.foldl_cons]
    exact ih _ (fun q hq => hl q (List.mem_cons_of_mem _ hq)) (flushOne_noOverlap ws st p hno)
      (flushOne_mirrors G ws st p (hl p (List.mem_cons_self _ _)) hno hm)

theorem mem_dirtySnapshot (m : Table) (p : Int × Int) :
    p ∈ dirtySnapshot m ↔ p.1 = p.2 ∧ ∃ e, (p.1, e) ∈ m ∧ e.isDirty = true := by
  unfold dirtySnapshot
  simp only [List.mem_map, List.mem_filter]
  constructor
  · rintro ⟨⟨k, e⟩, ⟨hmem, hd⟩, rfl⟩
    exact ⟨rfl, e, hmem, hd⟩
  · rintro ⟨h1, e, hmem, hd⟩
    exact ⟨(p.1, e), ⟨hmem, hd⟩, Prod.ext rfl h1⟩

theorem Shard.Flush_pages (s : Shard) (f : File) (ws : Nat → IOOutcome) :
    Table.pages (s.Flush f ws).shard.m = Table.pages s.m := by
  simp [Shard.Flush, flushLoop_pages]

theorem Shard.Flush_noOverlap (s : Shard) (f : File) (ws : Nat → IOOutcome)
    (h : s.m.NoOverlap) : (s.Flush f ws).shard.m.NoOverlap := by
  simp only [Shard.Flush]
  exact flushLoop_noOverlap ws _ _ h

/-- `Shard::Flush` keeps the clean pages equal to the file. -/
theorem Shard.Flush_mirrors (G : Int → Prop) (s : Shard) (f : File) (ws : Nat → IOOutcome)
    (hno : s.m.NoOverlap) (hm : Table.Mirrors G s.m f) :
    Table.Mirrors G (s.Flush f ws).shard.m (s.Flush f ws).file := by
  simp only [Shard.Flush]
  exact flushLoop_mirrors G ws _ _ (fun p hp => ((mem_dirtySnapshot _ _).1 hp).1) hno hm
theorem flushOne_file_pageAt (ws : Nat → IOOutcome) (st : FlushState) (p : Int × Int)
    (k' : Int) (hk' : 0 ≤ k') (hd : Disjoint p.1 k') :
    (flushOne ws st p).file.pageAt k'.toNat = st.file.pageAt k'.toNat := by
  rcases flushOne_cases ws st p with ⟨-, hs⟩ | ⟨e, -, -, hs⟩ | ⟨e, -, -, -, hs⟩ |
    ⟨e, -, -, -, hs⟩
  · rw [hs]
  · rw [hs]
  · rw [hs]; exact pwrite_pageAt_of_disjoint _ _ _ _ _ hk' hd
  · rw [hs]; exact pwrite_pageAt_of_disjoint _ _ _ _ _ hk' hd

/-- The second loop of `Shard::Flush` leaves the page of the file at `k'` as it
is when no snapshot element overlaps it. -/
theorem flushLoop_file_pageAt (ws : Nat → IOOutcome) (l : List (Int × Int)) (st : FlushState)
    (k' : Int) (hk' : 0 ≤ k') (hl : ∀ p ∈ l, Disjoint p.1 k') :
    (l.foldl (flushOne ws) st).file.pageAt k'.toNat = st.file.pageAt k'.toNat := by
  induction l generalizing st with
  | nil => rfl
  | cons p l ih =>
    rw [List.foldl_cons, ih _ (fun q hq => hl q (List.mem_cons_of_mem _ hq)),
      flushOne_file_pageAt ws st p k' hk' (hl p (List.mem_cons_self _ _))]

/-- When every write of the loop returns `pageSize` and the snapshot covers the
dirty entries, no entry is dirty after the loop. -/
theorem flushLoop_all_clean (ws : Nat → IOOutcome) (l : List (Int × Int)) (st : FlushState)
    (hnd : (Table.keys st.m).Nodup)
    (hcov : ∀ k e, (k, e) ∈ st.m → e.isDirty = true → (k, k) ∈ l)
    (hw : ∀ ev ∈ (l.foldl (flushOne ws) st).trace, ev.ret = (pageSize : Int)) :
    ∀ k e, (k, e) ∈ (l.foldl (flushOne ws) st).m → e.isDirty = false := by
  induction l generalizing st with
  | nil =>
    intro k e hmem
    cases hd : e.isDirty with
    | false => rfl
    | true => exact absurd (hcov k e hmem hd) (List.not_mem_nil _)
  | cons p l ih =>
    rw [List.foldl_cons] at hw ⊢
    have hnd' : (Table.keys (flushOne ws st p).m).Nodup := by rw [flushOne_keys]; exact hnd
    apply ih _ hnd' _ hw
    intro k e hmem hd
    rcases flushOne_cases ws st p with ⟨hf, hs⟩ | ⟨e₀, hf, hc, hs⟩ | ⟨e₀, hf, -, hne, hs⟩ |
      ⟨e₀, hf, -, -, hs⟩
    · rw [hs] at hmem
      rcases List.mem_cons.1 (hcov k e hmem hd) with heq | hin
      · rw [← heq] at hf
        rw [Table.find_of_mem hnd hmem] at hf; cases hf
      · exact hin
    · rw [hs] at hmem
      rcases List.mem_cons.1 (hcov k e hmem hd) with heq | hin
      · rw [← heq] at hf
        rw [Table.find_of_mem hnd hmem] at hf
        simp only [Option.some.injEq] at hf
        rw [hf, hc] at hd; cases hd
      · exact hin
    · exfalso
      apply hne
      have hin : IOEvent.pwrite p.1 e₀.val.1 (pwrite st.file e₀.val p.1 (ws st.trace.length)).1 ∈
          (flushOne ws st p).trace := by
        rw [hs]; simp
      exact hw _ ((flushLoop_trace_grows ws l _).subset hin)
    · rw [hs] at hmem
      obtain ⟨e₁, hmem₁, he⟩ :=
        (Table.mem_update st.m p.2 (fun e => { e with isDirty := false }) k e).1 hmem
      by_cases hk : k = p.2
      · simp only [hk, if_true] at he
        rw [he] at hd; cases hd
      · simp only [hk, if_false] at he
        subst he
        rcases List.mem_cons.1 (hcov k e hmem₁ hd) with heq | hin
        · exact absurd (congrArg Prod.snd heq) hk
        · exact hin

/-- An entry that is dirty before the loop and clean after it was written in
full during the loop. -/
theorem flushLoop_cleaned (ws : Nat → IOOutcome) (l : List (Int × Int)) (st : FlushState)
    (k : Int) (e e' : Entry) (hl : ∀ p ∈ l, p.1 = p.2)
    (hf : st.m.find k = some e) (hd : e.isDirty = true)
    (hf' : (l.foldl (flushOne ws) st).m.find k = some e') (hc : e'.isDirty = false) :
    0 ≤ k ∧ IOEvent.pwrite k e.val.1 (pageSize : Int) ∈ (l.foldl (flushOne ws) st).trace := by
  induction l generalizing st with
  | nil =>
    simp only [List.foldl_nil] at hf'
    rw [hf] at hf'
    simp only [Option.some.injEq] at hf'
    rw [← hf', hd] at hc; cases hc
  | cons p l ih =>
    rw [List.foldl_cons] at hf' ⊢
    have hl' : ∀ q ∈ l, q.1 = q.2 := fun q hq => hl q (List.mem_cons_of_mem _ hq)
    rcases flushOne_cases ws st p with ⟨-, hs⟩ | ⟨e₀, -, -, hs⟩ | ⟨e₀, -, -, -, hs⟩ |
      ⟨e₀, hf₀, -, hw, hs⟩
    · exact ih _ hl' (by rw [hs]; exact hf) hf'
    · exact ih _ hl' (by rw [hs]; exact hf) hf'
    · exact ih _ hl' (by rw [hs]; exact hf) hf'
    · by_cases hk : k = p.2
      · have he : e₀ = e := by
          rw [← hk, hf] at hf₀; exact (Option.some.inj hf₀).symm
        have hp : p.1 = k := by rw [hk]; exact hl p (List.mem_cons_self _ _)
        have hin : IOEvent.pwrite k e.val.1 (pageSize : Int) ∈ (flushOne ws st p).trace := by
          rw [hs, ← hw, he, hp]; simp
        refine ⟨?_, (flushLoop_trace_grows ws l _).subset hin⟩
        rw [← hp]
        exact (pwrite_full _ _ _ _ hw).1
      · apply ih _ hl' _ hf'
        rw [hs]
        show Table.find (Table.update st.m p.2 (fun e => { e with isDirty := false })) k = some e
        rw [Table.find_update, if_neg hk, hf]

theorem Table.mem_pages (m : Table) (k key : Int) (v : PageBuf) :
    (k, key, v) ∈ Table.pages m ↔ ∃ e, (k, e) ∈ m ∧ e.key = key ∧ e.val = v := by
  unfold Table.pages
  rw [List.mem_map]
  constructor
  · rintro ⟨⟨k₀, e⟩, hmem, heq⟩
    simp only [Prod.mk.injEq] at heq
    obtain ⟨h1, h2, h3⟩ := heq
    subst h1
    exact ⟨e, hmem, h2, h3⟩
  · rintro ⟨e, hmem, h2, h3⟩
    exact ⟨(k, e), hmem, by simp [h2, h3]⟩

theorem Table.keys_eq_of_pages {m m' : Table} (h : Table.pages m' = Table.pages m) :
    Table.keys m' = Table.keys m := by
  have : (Table.pages m').map Prod.fst = (Table.pages m).map Prod.fst := by rw [h]
  simpa [Table.pages, Table.keys, List.map_map, Function.comp_def] using this

/-! ## What `Shard::Get` and `Shard::Put` do to the other entries -/

theorem Table.find_tail_of_nodup {m : Table} (hnd : (Table.keys m).Nodup) {k : Int}
    {e : Entry} (h : Table.find m.tail k = some e) : Table.find m k = some e := by
  cases m with
  | nil => cases h
  | cons p rest =>
    simp only [List.tail_cons] at h
    simp only [Table.keys, List.map_cons, List.nodup_cons] at hnd
    rw [Table.find_cons]
    by_cases hp : p.1 = k
    · exfalso
      apply hnd.1
      rw [hp]
      exact List.mem_map.2 ⟨(k, e), Table.mem_of_find h, rfl⟩
    · simp only [hp, if_false]; exact h

theorem Shard.makeRoom_find_some (s : Shard) (f : File) (o : IOOutcome)
    (hnd : (Table.keys s.m).Nodup) {k : Int} {e : Entry}
    (h : Table.find (s.makeRoom f o).m k = some e) : s.m.find k = some e := by
  rcases Shard.makeRoom_table s f o with ⟨-, h2⟩ | ⟨-, h2, -⟩
  · rw [h2] at h
    split at h
    · exact Table.find_tail_of_nodup hnd h
    · exact h
  · rw [h2] at h; exact h

/-- An entry found after `Shard::Get` was there before, unchanged, or it is the
entry just loaded for the key of the call. -/
theorem Shard.Get_find_some (s : Shard) (f : File) (key : Int) (env : GetEnv)
    (hnd : (Table.keys s.m).Nodup) {k : Int} {e : Entry}
    (h : (s.Get f key env).shard.m.find k = some e) :
    s.m.find k = some e ∨
      (k = key ∧ s.m.find key = none ∧ (s.Get f key env).ret = some e) := by
  rcases Shard.Get_cases s f key env with ⟨e₀, _, hg⟩ | ⟨_, _, hg⟩ | ⟨_, _, _, hg⟩ |
    ⟨hf, _, _, hg⟩
  · rw [hg] at h; exact Or.inl h
  · rw [hg] at h; exact Or.inl (Shard.makeRoom_find_some s f env.evict hnd h)
  · rw [hg] at h; exact Or.inl (Shard.makeRoom_find_some s f env.evict hnd h)
  · rw [hg] at h ⊢
    simp only [Shard.find_insertEntry] at h
    by_cases hk : k = key
    · simp only [hk, if_true] at h
      exact Or.inr ⟨hk, hf, h⟩
    · simp only [hk, if_false] at h
      exact Or.inl (Shard.makeRoom_find_some s f env.evict hnd h)

/-- An entry that `Shard::Get` removes is the first in iteration order of a
table at capacity, the call is a miss, and a dirty one was written back in
full. -/
theorem Shard.Get_find_none (s : Shard) (f : File) (key : Int) (env : GetEnv)
    {k : Int} {e : Entry} (hb : s.m.find k = some e)
    (ha : (s.Get f key env).shard.m.find k = none) :
    s.m.find key = none ∧ s.atCapacity = true ∧ (∃ rest, s.m = (k, e) :: rest) ∧
      (e.isDirty = true →
        (pwrite f e.val k env.evict).1 = (pageSize : Int) ∧
        IOEvent.pwrite k e.val.1 (pageSize : Int) ∈ (s.Get f key env).trace) := by
  have key_step : ∀ M : Table, M = (s.makeRoom f env.evict).m → Table.find M k = none →
      (s.makeRoom f env.evict).ret = true →
      s.atCapacity = true ∧ (∃ rest, s.m = (k, e) :: rest) ∧
      (e.isDirty = true →
        (pwrite f e.val k env.evict).1 = (pageSize : Int) ∧
        IOEvent.pwrite k e.val.1 (pageSize : Int) ∈ (s.makeRoom f env.evict).trace) := by
    intro M hM hnone hret
    rcases Shard.makeRoom_table s f env.evict with ⟨-, h2⟩ | ⟨h1, -⟩
    · cases hc : s.atCapacity with
      | false =>
        rw [hM, h2, hc] at hnone
        simp only [Bool.false_eq_true, if_false] at hnone
        rw [hnone] at hb; cases hb
      | true =>
        rw [hM, h2, hc] at hnone
        simp only [if_true] at hnone
        cases hm : s.m with
        | nil => rw [hm] at hb; cases hb
        | cons p rest =>
          rw [hm] at hb hnone
          simp only [List.tail_cons] at hnone
          rw [Table.find_cons] at hb
          by_cases hp : p.1 = k
          · simp only [hp, if_true, Option.some.injEq] at hb
            have hpe : p = (k, e) := Prod.ext hp hb
            refine ⟨rfl, ⟨rest, by rw [hpe]⟩, ?_⟩
            intro hd
            have hw : (pwrite f e.val k env.evict).1 = (pageSize : Int) := by
              by_contra hne
              have := (Shard.makeRoom_ret_false_iff s f env.evict).2
                ⟨hc, k, e, rest, by rw [hm, hpe], hd, hne⟩
              rw [this] at hret; cases hret
            refine ⟨hw, ?_⟩
            rw [Shard.makeRoom_atCapacity s f env.evict hc, hm, hpe,
              evictOneLocked_dirty_ok k e rest f env.evict hd hw, hw]
            simp
          · simp only [hp, if_false] at hb
            rw [hnone] at hb; cases hb
    · rw [h1] at hret; cases hret
  rcases Shard.Get_cases s f key env with ⟨e₀, _, hg⟩ | ⟨_, hev, hg⟩ | ⟨hf, hev, _, hg⟩ |
    ⟨hf, hev, _, hg⟩
  · rw [hg] at ha; rw [ha] at hb; cases hb
  · rw [hg] at ha
    rcases Shard.makeRoom_table s f env.evict with ⟨h1, -⟩ | ⟨-, h2, -⟩
    · rw [h1] at hev; cases hev
    · simp only [h2] at ha; rw [ha] at hb; cases hb
  · rw [hg] at ha ⊢
    obtain ⟨h1, h2, h3⟩ := key_step _ rfl ha hev
    refine ⟨hf, h1, h2, fun hd => ⟨(h3 hd).1, ?_⟩⟩
    exact List.mem_append_left _ (h3 hd).2
  · rw [hg] at ha ⊢
    simp only [Shard.find_insertEntry] at ha
    by_cases hk : k = key
    · simp [hk] at ha
    · simp only [hk, if_false] at ha
      obtain ⟨h1, h2, h3⟩ := key_step _ rfl ha hev
      refine ⟨hf, h1, h2, fun hd => ⟨(h3 hd).1, ?_⟩⟩
      exact List.mem_append_left _ (h3 hd).2

/-- The table after `Shard::Put`, entry by entry. -/
theorem Shard.Put_find (s : Shard) (f : File) (key : Int) (buf : PageBuf) (env : GetEnv)
    (k : Int) :
    (s.Put f key buf env).shard.m.find k =
      if k = key ∧ (s.Get f key env).ret ≠ none then
        ((s.Get f key env).shard.m.find k).map (fun e => { e with val := buf, isDirty := true })
      else (s.Get f key env).shard.m.find k := by
  cases hg : (s.Get f key env).ret with
  | none => rw [Shard.Put_of_none s f key buf env hg]; simp
  | some e =>
    rw [Shard.Put_of_some s f key buf env e hg]
    simp only [Table.find_update]
    by_cases hk : k = key <;> simp [hk]

/-- An entry just loaded by `Shard::Get` is not dirty. -/
theorem Shard.Get_loaded_clean (s : Shard) (f : File) (key : Int) (env : GetEnv) (e : Entry)
    (hmiss : s.m.find key = none) (hret : (s.Get f key env).ret = some e) :
    e.isDirty = false := by
  rcases Shard.Get_cases s f key env with ⟨e₀, hf, -⟩ | ⟨_, _, hg⟩ | ⟨_, _, _, hg⟩ |
    ⟨_, _, hl, hg⟩
  · rw [hmiss] at hf; cases hf
  · rw [hg] at hret; cases hret
  · rw [hg] at hret; cases hret
  · rw [hg] at hret
    simp only [Option.some.injEq] at hret
    rw [← hret]; rfl

/-! ## Clean pages equal the file along a run -/

/-- A read that is not cut short loads the page of the file at the key. -/
theorem loadEntry_whole (f : File) (key : Int) (o : IOOutcome) (ho : o.Whole)
    (h : ¬ (loadEntry f key o).1 < 0) :
    0 ≤ key ∧ (loadEntry f key o).2.val.1 = f.pageAt key.toNat := by
  obtain ⟨n, -, -, hk, ⟨limit, hlim, hn⟩, -, hval, -, -⟩ := loadEntry_ok f key o h
  refine ⟨hk, ?_⟩
  rw [hval, File.pageAt_eq_take_drop]
  subst hlim
  simp only [IOOutcome.Whole] at ho
  have hn' : n = min pageSize (f.length - key.toNat) := by omega
  have hlen : ((f.drop key.toNat).take pageSize).length = n := by
    simp only [List.length_take, List.length_drop]; omega
  have htake : (f.drop key.toNat).take n = (f.drop key.toNat).take pageSize := by
    rw [List.take_eq_take]
    simp only [List.length_drop]; omega
  rw [htake, hlen]

theorem evictOneLocked_sublist (m : Table) (f : File) (o : IOOutcome) :
    List.Sublist (evictOneLocked m f o).m m := by
  rcases evictOneLocked_table m f o with ⟨-, h⟩ | ⟨-, h, -⟩
  · rw [h]; exact List.tail_sublist m
  · rw [h]

theorem Shard.makeRoom_sublist (s : Shard) (f : File) (o : IOOutcome) :
    List.Sublist (s.makeRoom f o).m s.m := by
  unfold Shard.makeRoom
  split
  · exact evictOneLocked_sublist s.m f o
  · exact List.Sublist.refl _

/-- Eviction keeps the clean pages of the entries that stay equal to the file. -/
theorem evictOneLocked_mirrors (G : Int → Prop) (m : Table) (f : File) (o : IOOutcome)
    (hno : m.NoOverlap) (hm : Table.Mirrors G m f) :
    Table.Mirrors G (evictOneLocked m f o).m (evictOneLocked m f o).file := by
  cases m with
  | nil => rw [evictOneLocked_nil]; exact hm
  | cons p rest =>
    obtain ⟨k, v⟩ := p
    have hrest : ∀ k' e', (k', e') ∈ rest → Disjoint k k' := by
      intro k' e' hmem
      exact (List.pairwise_cons.1 hno).1 (k', e') hmem
    cases hd : v.isDirty with
    | false =>
      rw [evictOneLocked_clean k v rest f o hd]
      intro k' e' hmem hG hc hk'
      exact hm k' e' (List.mem_cons_of_mem _ hmem) hG hc hk'
    | true =>
      by_cases hw : (pwrite f v.val k o).1 = (pageSize : Int)
      · rw [evictOneLocked_dirty_ok k v rest f o hd hw]
        intro k' e' hmem hG hc hk'
        show File.pageAt (pwrite f v.val k o).2 k'.toNat = e'.val.1
        rw [pwrite_pageAt_of_disjoint _ _ _ _ _ hk' (hrest k' e' hmem)]
        exact hm k' e' (List.mem_cons_of_mem _ hmem) hG hc hk'
      · rw [evictOneLocked_dirty_fail k v rest f o hd hw]
        intro k' e' hmem hG hc hk'
        show File.pageAt (pwrite f v.val k o).2 k'.toNat = e'.val.1
        rcases List.mem_cons.1 hmem with heq | hmem'
        · simp only [Prod.mk.injEq] at heq
          rw [heq.2, hd] at hc; cases hc
        · rw [pwrite_pageAt_of_disjoint _ _ _ _ _ hk' (hrest k' e' hmem')]
          exact hm k' e' hmem hG hc hk'

theorem Shard.makeRoom_mirrors (G : Int → Prop) (s : Shard) (f : File) (o : IOOutcome)
    (hno : s.m.NoOverlap) (hm : Table.Mirrors G s.m f) :
    Table.Mirrors G (s.makeRoom f o).m (s.makeRoom f o).file := by
  unfold Shard.makeRoom
  split
  · exact evictOneLocked_mirrors G s.m f o hno hm
  · exact hm

/-- `Shard::Get` on an aligned key, with a read that is not cut short, keeps
the shard and the file in agreement. -/
theorem Shard.Get_coherent (s : Shard) (f : File) (key : Int) (env : GetEnv)
    (hal : key % (pageSize : Int) = 0) (hrd : env.load.Whole) (h : s.Coherent f) :
    (s.Get f key env).shard.Coherent (s.Get f key env).file := by
  obtain ⟨hkeys, hno, hm⟩ := h
  have hsub := Shard.makeRoom_sublist s f env.evict
  have hkeys' : ∀ k e, (k, e) ∈ (s.makeRoom f env.evict).m → 0 ≤ k ∧ k % (pageSize : Int) = 0 :=
    fun k e hmem => hkeys k e (hsub.subset hmem)
  have hno' : Table.NoOverlap (s.makeRoom f env.evict).m := List.Pairwise.sublist hsub hno
  have hm' := Shard.makeRoom_mirrors (fun _ => True) s f env.evict hno hm
  rcases Shard.Get_cases s f key env with ⟨e₀, _, hg⟩ | ⟨_, _, hg⟩ | ⟨_, _, _, hg⟩ |
    ⟨hf, _, hl, hg⟩
  · rw [hg]; exact ⟨hkeys, hno, hm⟩
  · rw [hg]; exact ⟨hkeys', hno', hm'⟩
  · rw [hg]; exact ⟨hkeys', hno', hm'⟩
  · rw [hg]
    obtain ⟨hk0, hval⟩ := loadEntry_whole _ key env.load hrd hl
    have hnone := Shard.makeRoom_find_none s f env.evict key hf
    have hassign := Table.assign_of_find_none (s.makeRoom f env.evict).m key
      (loadEntry (s.makeRoom f env.evict).file key env.load).2 env.slot hnone
    have hmem_iff : ∀ k e, (k, e) ∈ s.insertEntry (s.makeRoom f env.evict).m key
        (loadEntry (s.makeRoom f env.evict).file key env.load).2 env →
        (k, e) = (key, (loadEntry (s.makeRoom f env.evict).file key env.load).2) ∨
          (k, e) ∈ (s.makeRoom f env.evict).m :=
      fun k e hmem => (Shard.mem_insertEntry s _ key _ env hnone (k, e)).1 hmem
    refine ⟨?_, ?_, ?_⟩
    · intro k e hmem
      rcases hmem_iff k e hmem with heq | hin
      · simp only [Prod.mk.injEq] at heq
        rw [heq.1]; exact ⟨hk0, hal⟩
      · exact hkeys' k e hin
    · show Table.NoOverlap (s.insertEntry _ _ _ _)
      refine Table.NoOverlap.perm (Shard.insertEntry_perm_assign s _ key _ env) ?_
      rw [hassign]
      apply Table.NoOverlap.insert hno'
      intro k e' hmem
      apply Disjoint.of_aligned hal (hkeys' k e' hmem).2
      intro heq
      apply (Table.find_eq_none_iff _ _).1 hnone
      rw [heq]
      exact (Table.mem_keys _ _).2 ⟨e', hmem⟩
    · intro k e hmem _ hc hk
      rcases hmem_iff k e hmem with heq | hin
      · simp only [Prod.mk.injEq] at heq
        rw [heq.1, heq.2]; exact hval.symm
      · exact hm' k e hin trivial hc hk

/-- `Shard::Put` on an aligned key, with a read that is not cut short, keeps
the shard and the file in agreement. -/
theorem Shard.Put_coherent (s : Shard) (f : File) (key : Int) (buf : PageBuf) (env : GetEnv)
    (hal : key % (pageSize : Int) = 0) (hrd : env.load.Whole) (h : s.Coherent f) :
    (s.Put f key buf env).shard.Coherent (s.Put f key buf env).file := by
  have hg := Shard.Get_coherent s f key env hal hrd h
  cases hr : (s.Get f key env).ret with
  | none => rw [Shard.Put_of_none s f key buf env hr]; exact hg
  | some e =>
    rw [Shard.Put_of_some s f key buf env e hr]
    obtain ⟨hkeys, hno, hm⟩ := hg
    refine ⟨?_, ?_, ?_⟩
    · intro k e' hmem
      obtain ⟨e₀, hmem₀, -⟩ := (Table.mem_update (s.Get f key env).shard.m key
        (fun e => { e with val := buf, isDirty := true }) k e').1 hmem
      exact hkeys k e₀ hmem₀
    · show Table.NoOverlap (Table.update (s.Get f key env).shard.m key
        (fun e => { e with val := buf, isDirty := true }))
      exact Table.NoOverlap.update hno key _
    · intro k e' hmem _ hc hk
      obtain ⟨e₀, hmem₀, he⟩ := (Table.mem_update (s.Get f key env).shard.m key
        (fun e => { e with val := buf, isDirty := true }) k e').1 hmem
      by_cases hkk : k = key
      · simp only [hkk, if_true] at he
        rw [he] at hc; cases hc
      · simp only [hkk, if_false] at he
        subst he
        exact hm k e' hmem₀ trivial hc hk

/-- `Shard::Flush` keeps the shard and the file in agreement. -/
theorem Shard.Flush_coherent (s : Shard) (f : File) (ws : Nat → IOOutcome)
    (h : s.Coherent f) : (s.Flush f ws).shard.Coherent (s.Flush f ws).file := by
  obtain ⟨hkeys, hno, hm⟩ := h
  refine ⟨?_, Shard.Flush_noOverlap s f ws hno, Shard.Flush_mirrors _ s f ws hno hm⟩
  intro k e hmem
  have hk : k ∈ Table.keys (s.Flush f ws).shard.m := (Table.mem_keys _ _).2 ⟨e, hmem⟩
  rw [Shard.Flush_keys] at hk
  obtain ⟨e₀, hmem₀⟩ := (Table.mem_keys _ _).1 hk
  exact hkeys k e₀ hmem₀

theorem Shard.step_coherent (st : Shard × File) (op : Op) (hal : op.Aligned)
    (hrd : op.ReadsWhole) (h : st.1.Coherent st.2) :
    (Shard.step st op).1.Coherent (Shard.step st op).2 := by
  cases op with
  | put key buf env => exact Shard.Put_coherent st.1 st.2 key buf env hal hrd h
  | get key env => exact Shard.Get_coherent st.1 st.2 key env hal hrd h
  | flush ws => exact Shard.Flush_coherent st.1 st.2 ws h

theorem Shard.run_coherent (ops : List Op) (st : Shard × File)
    (hal : ∀ op ∈ ops, op.Aligned) (hrd : ∀ op ∈ ops, op.ReadsWhole)
    (h : st.1.Coherent st.2) :
    (Shard.run st ops).1.Coherent (Shard.run st ops).2 := by
  induction ops generalizing st with
  | nil => exact h
  | cons op ops ih =>
    exact ih (Shard.step st op) (fun o ho => hal o (List.mem_cons_of_mem _ ho))
      (fun o ho => hrd o (List.mem_cons_of_mem _ ho))
      (Shard.step_coherent st op (hal op (List.mem_cons_self _ _))
        (hrd op (List.mem_cons_self _ _)) h)

theorem Shard.new_coherent (cap : Int) (f : File) : (Shard.new cap).Coherent f :=
  ⟨fun _ _ h => absurd h (List.not_mem_nil _), List.Pairwise.nil,
    fun _ _ h => absurd h (List.not_mem_nil _)⟩

/-- An entry read off the table with `find`, together with a computed fact
about it. -/
theorem Table.exists_of_find_map {m : Table} {k : Int} {P : Entry → Bool}
    (h : (Table.find m k).map P = some true) : ∃ e, (k, e) ∈ m ∧ P e = true := by
  cases hf : Table.find m k with
  | none => rw [hf] at h; cases h
  | some e =>
    rw [hf] at h
    exact ⟨e, Table.mem_of_find hf, Option.some.inj h⟩

/-! ## The keys stay distinct -/

theorem Table.keys_sublist {m m' : Table} (h : List.Sublist m' m) :
    List.Sublist (Table.keys m') (Table.keys m) :=
  List.Sublist.map Prod.fst h

theorem Shard.Get_nodup (s : Shard) (f : File) (key : Int) (env : GetEnv)
    (hnd : (Table.keys s.m).Nodup) : (Table.keys (s.Get f key env).shard.m).Nodup := by
  have hsub := Table.keys_sublist (Shard.makeRoom_sublist s f env.evict)
  have hnd' : (Table.keys (s.makeRoom f env.evict).m).Nodup := List.Nodup.sublist hsub hnd
  rcases Shard.Get_cases s f key env with ⟨e₀, _, hg⟩ | ⟨_, _, hg⟩ | ⟨_, _, _, hg⟩ |
    ⟨hf, _, _, hg⟩
  · rw [hg]; exact hnd
  · rw [hg]; exact hnd'
  · rw [hg]; exact hnd'
  · rw [hg]
    have hnone := Shard.makeRoom_find_none s f env.evict key hf
    show (Table.keys (s.insertEntry _ _ _ _)).Nodup
    refine ((Shard.insertEntry_perm_assign s _ key _ env).map Prod.fst).nodup_iff.2 ?_
    rw [Table.assign_of_find_none _ _ _ _ hnone]
    simp only [Table.keys, List.map_append, List.map_cons]
    rw [List.nodup_middle, ← List.map_append, List.take_append_drop, List.nodup_cons]
    exact ⟨(Table.find_eq_none_iff _ _).1 hnone, hnd'⟩

theorem Shard.Put_keys (s : Shard) (f : File) (key : Int) (buf : PageBuf) (env : GetEnv) :
    Table.keys (s.Put f key buf env).shard.m = Table.keys (s.Get f key env).shard.m := by
  cases hg : (s.Get f key env).ret with
  | none => rw [Shard.Put_of_none s f key buf env hg]
  | some e => rw [Shard.Put_of_some s f key buf env e hg]; simp only [Table.keys_update]

/-- Every call keeps the keys of the table distinct. -/
theorem Shard.step_nodup (st : Shard × File) (op : Op) (hnd : (Table.keys st.1.m).Nodup) :
    (Table.keys (Shard.step st op).1.m).Nodup := by
  cases op with
  | put key buf env =>
    simp only [Shard.step, Shard.Put_keys]; exact Shard.Get_nodup st.1 st.2 key env hnd
  | get key env => exact Shard.Get_nodup st.1 st.2 key env hnd
  | flush ws => simp only [Shard.step, Shard.Flush_keys]; exact hnd

/-- The keys of the table are distinct in every state reached from an empty
shard. -/
theorem Shard.run_nodup (ops : List Op) (st : Shard × File)
    (hnd : (Table.keys st.1.m).Nodup) : (Table.keys (Shard.run st ops).1.m).Nodup := by
  induction ops generalizing st with
  | nil => exact hnd
  | cons op ops ih => exact ih (Shard.step st op) (Shard.step_nodup st op hnd)

/-! ## Lemmas on the capacity test -/

theorem Shard.atCapacity_of_length_eq (s : Shard) (hint : s.maxEntriesPerShard ≤ intMax)
    (hlen : (s.m.length : Int) = s.maxEntriesPerShard) : s.atCapacity = true := by
  unfold intMax at hint
  have hlt : s.m.length < 2147483648 := by omega
  simp only [Shard.atCapacity, sizeToInt_of_lt _ hlt, decide_eq_true_eq]
  omega

theorem Shard.atCapacity_of_length_lt (s : Shard) (hint : s.maxEntriesPerShard ≤ intMax)
    (hlen : (s.m.length : Int) < s.maxEntriesPerShard) : s.atCapacity = false := by
  unfold intMax at hint
  have hlt : s.m.length < 2147483648 := by omega
  simp only [Shard.atCapacity, sizeToInt_of_lt _ hlt, decide_eq_false_iff_not]
  omega

theorem Table.length_insert (m : Table) (p : Int × Entry) (slot : Nat) :
    (m.take slot ++ p :: m.drop slot).length = m.length + 1 := by
  have hl : (m.take slot).length + (m.drop slot).length = m.length := by
    rw [← List.length_append, List.take_append_drop]
  simp only [List.length_append, List.length_cons]
  omega

theorem Table.mem_insert (m : Table) (p q : Int × Entry) (slot : Nat) :
    q ∈ m.take slot ++ p :: m.drop slot ↔ q = p ∨ q ∈ m := by
  have h : q ∈ m ↔ q ∈ m.take slot ∨ q ∈ m.drop slot := by
    rw [← List.mem_append, List.take_append_drop]
  simp only [List.mem_append, List.mem_cons, h]
  tauto

theorem BufferPool.set_same (bp : BufferPool) (i : Nat) (s : Shard)
    (h : bp.shards[i]? = some s) : bp.shards.set i s = bp.shards := by
  apply List.ext_getElem?
  intro j
  by_cases hj : i = j
  · subst hj
    have hlt : i < bp.shards.length := by
      by_contra hge
      rw [List.getElem?_eq_none (by omega)] at h; cases h
    rw [List.getElem?_set_self hlt, h]
  · rw [List.getElem?_set_ne hj]

/-! ## `Shard::Flush`, entry by entry -/

theorem flushOne_find_other (ws : Nat → IOOutcome) (st : FlushState) (p : Int × Int) (k : Int)
    (hk : k ≠ p.2) : Table.find (flushOne ws st p).m k = Table.find st.m k := by
  rcases flushOne_cases ws st p with ⟨-, hs⟩ | ⟨e, -, -, hs⟩ | ⟨e, -, -, -, hs⟩ |
    ⟨e, -, -, -, hs⟩
  · rw [hs]
  · rw [hs]
  · rw [hs]
  · rw [hs]
    show Table.find (Table.update st.m p.2 (fun e => { e with isDirty := false })) k = _
    rw [Table.find_update, if_neg hk]

/-- The loop leaves alone the entries whose key is not in the snapshot. -/
theorem flushLoop_find_not_mem (ws : Nat → IOOutcome) (l : List (Int × Int)) (st : FlushState)
    (k : Int) (hk : k ∉ l.map Prod.snd) :
    Table.find (l.foldl (flushOne ws) st).m k = Table.find st.m k := by
  induction l generalizing st with
  | nil => rfl
  | cons p l ih =>
    simp only [List.map_cons, List.mem_cons, not_or] at hk
    rw [List.foldl_cons, ih _ hk.2, flushOne_find_other ws st p k hk.1]

/-- The loop issues one write per snapshot element, in order, when the
snapshot keys are distinct and designate dirty entries; the entry of an
element is cleaned exactly when its write returned `pageSize`. -/
theorem flushLoop_writes (ws : Nat → IOOutcome) (l : List (Int × Int)) (st : FlushState)
    (hl : ∀ p ∈ l, p.1 = p.2) (hnd : (l.map Prod.snd).Nodup)
    (hd : ∀ p ∈ l, ∃ e, Table.find st.m p.2 = some e ∧ e.isDirty = true) :
    (l.foldl (flushOne ws) st).trace.map IOEvent.off =
      st.trace.map IOEvent.off ++ l.map Prod.fst ∧
    (∀ ev ∈ (l.foldl (flushOne ws) st).trace, ev ∈ st.trace ∨ ev.isWrite = true) ∧
    (∀ p ∈ l, ∀ e, Table.find st.m p.2 = some e →
      ∃ r, IOEvent.pwrite p.1 e.val.1 r ∈ (l.foldl (flushOne ws) st).trace ∧
        (r ≠ (pageSize : Int) → Table.find (l.foldl (flushOne ws) st).m p.2 = some e) ∧
        (r = (pageSize : Int) →
          Table.find (l.foldl (flushOne ws) st).m p.2 = some { e with isDirty := false })) := by
  induction l generalizing st with
  | nil =>
    refine ⟨by simp, fun ev hev => Or.inl hev, fun p hp => absurd hp (List.not_mem_nil _)⟩
  | cons p l ih =>
    simp only [List.map_cons, List.nodup_cons] at hnd
    obtain ⟨hpn, hndl⟩ := hnd
    have hl' : ∀ q ∈ l, q.1 = q.2 := fun q hq => hl q (List.mem_cons_of_mem _ hq)
    obtain ⟨e, hf, hdirty⟩ := hd p (List.mem_cons_self _ _)
    have hd' : ∀ q ∈ l, ∃ e, Table.find (flushOne ws st p).m q.2 = some e ∧ e.isDirty = true := by
      intro q hq
      have hne : q.2 ≠ p.2 := by
        intro heq; apply hpn; rw [← heq]; exact List.mem_map_of_mem _ hq
      rw [flushOne_find_other ws st p q.2 hne]
      exact hd q (List.mem_cons_of_mem _ hq)
    obtain ⟨ih1, ih2, ih3⟩ := ih (flushOne ws st p) hl' hndl hd'
    rw [List.foldl_cons]
    -- the step for `p` issues a write
    have hstep : (flushOne ws st p).trace = st.trace ++
        [.pwrite p.1 e.val.1 (pwrite st.file e.val p.1 (ws st.trace.length)).1] ∧
        ((pwrite st.file e.val p.1 (ws st.trace.length)).1 ≠ (pageSize : Int) →
          Table.find (flushOne ws st p).m p.2 = some e) ∧
        ((pwrite st.file e.val p.1 (ws st.trace.length)).1 = (pageSize : Int) →
          Table.find (flushOne ws st p).m p.2 = some { e with isDirty := false }) := by
      by_cases hw : (pwrite st.file e.val p.1 (ws st.trace.length)).1 = (pageSize : Int)
      · rw [flushOne_ok ws st p e hf hdirty hw]
        refine ⟨rfl, fun h => absurd hw h, fun _ => ?_⟩
        show Table.find (Table.update st.m p.2 (fun e => { e with isDirty := false })) p.2 = _
        rw [Table.find_update, if_pos rfl, hf]; rfl
      · rw [flushOne_fail ws st p e hf hdirty hw]
        exact ⟨rfl, fun _ => hf, fun h => absurd h hw⟩
    obtain ⟨htr, hfail, hok⟩ := hstep
    refine ⟨?_, ?_, ?_⟩
    · rw [ih1, htr]; simp [IOEvent.off]
    · intro ev hev
      rcases ih2 ev hev with h | h
      · rw [htr] at h
        rcases List.mem_append.1 h with h' | h'
        · exact Or.inl h'
        · right
          simp only [List.mem_singleton] at h'
          rw [h']; rfl
      · exact Or.inr h
    · intro q hq e' hf'
      rcases List.mem_cons.1 hq with heq | hq'
      · subst heq
        rw [hf] at hf'
        simp only [Option.some.injEq] at hf'
        subst hf'
        refine ⟨(pwrite st.file e.val q.1 (ws st.trace.length)).1, ?_, ?_, ?_⟩
        · apply (flushLoop_trace_grows ws l _).subset
          rw [htr]; simp
        · intro hne
          rw [flushLoop_find_not_mem ws l _ q.2 hpn]
          exact hfail hne
        · intro heq
          rw [flushLoop_find_not_mem ws l _ q.2 hpn]
          exact hok heq
      · have hne : q.2 ≠ p.2 := by
          intro heq; apply hpn; rw [← heq]; exact List.mem_map_of_mem _ hq'
        exact ih3 q hq' e' (by rw [flushOne_find_other ws st p q.2 hne]; exact hf')

theorem dirtySnapshot_fst (m : Table) :
    (dirtySnapshot m).map Prod.fst = (m.filter (fun p => p.2.isDirty)).map Prod.fst := by
  simp [dirtySnapshot, List.map_map, Function.comp_def]

theorem dirtySnapshot_snd (m : Table) :
    (dirtySnapshot m).map Prod.snd = (m.filter (fun p => p.2.isDirty)).map Prod.fst := by
  simp [dirtySnapshot, List.map_map, Function.comp_def]

theorem dirtySnapshot_nodup (m : Table) (hnd : (Table.keys m).Nodup) :
    ((dirtySnapshot m).map Prod.snd).Nodup := by
  rw [dirtySnapshot_snd]
  exact List.Nodup.sublist (List.Sublist.map _ (List.filter_sublist _)) hnd

/-- `Shard::Flush` on a table with distinct keys: one write per dirty entry, in
iteration order; an entry is cleaned exactly when its write returned
`pageSize`, and is left as it was otherwise. -/
theorem Shard.Flush_writes (s : Shard) (f : File) (ws : Nat → IOOutcome)
    (hnd : (Table.keys s.m).Nodup) :
    (s.Flush f ws).trace.map IOEvent.off = (s.m.filter (fun p => p.2.isDirty)).map Prod.fst ∧
    (∀ ev ∈ (s.Flush f ws).trace, ev.isWrite = true) ∧
    (∀ k e, (k, e) ∈ s.m → e.isDirty = true →
      ∃ r, IOEvent.pwrite k e.val.1 r ∈ (s.Flush f ws).trace ∧
        (r ≠ (pageSize : Int) → (s.Flush f ws).shard.m.find k = some e) ∧
        (r = (pageSize : Int) →
          (s.Flush f ws).shard.m.find k = some { e with isDirty := false })) ∧
    (∀ k e, (k, e) ∈ s.m → e.isDirty = false → (s.Flush f ws).shard.m.find k = some e) := by
  have hsnap : ∀ p ∈ dirtySnapshot s.m, ∃ e, Table.find s.m p.2 = some e ∧ e.isDirty = true := by
    intro p hp
    obtain ⟨h1, e, hmem, hd⟩ := (mem_dirtySnapshot s.m p).1 hp
    exact ⟨e, by rw [← h1]; exact Table.find_of_mem hnd hmem, hd⟩
  obtain ⟨h1, h2, h3⟩ := flushLoop_writes ws (dirtySnapshot s.m)
    { m := s.m, file := f, trace := [] }
    (fun p hp => ((mem_dirtySnapshot _ _).1 hp).1) (dirtySnapshot_nodup s.m hnd) hsnap
  refine ⟨?_, ?_, ?_, ?_⟩
  · simpa [Shard.Flush, dirtySnapshot_fst] using h1
  · intro ev hev
    rcases h2 ev hev with h | h
    · cases h
    · exact h
  · intro k e hmem hd
    exact h3 (k, k) ((mem_dirtySnapshot s.m (k, k)).2 ⟨rfl, e, hmem, hd⟩) e
      (Table.find_of_mem hnd hmem)
  · intro k e hmem hc
    show Table.find ((dirtySnapshot s.m).foldl (flushOne ws) { m := s.m, file := f, trace := [] }).m
      k = some e
    rw [flushLoop_find_not_mem]
    · exact Table.find_of_mem hnd hmem
    · intro hk
      obtain ⟨p, hp, hpk⟩ := List.mem_map.1 hk
      obtain ⟨h1', e', hmem', hd'⟩ := (mem_dirtySnapshot s.m p).1 hp
      have := Table.find_of_mem hnd hmem'
      rw [h1', hpk, Table.find_of_mem hnd hmem] at this
      simp only [Option.some.injEq] at this
      rw [this, hd'] at hc; cases hc

theorem mem_fullWritesAt (tr : List IOEvent) (k : Int) (ev : IOEvent) :
    ev ∈ fullWritesAt tr k ↔
      ev ∈ tr ∧ ev.isWrite = true ∧ ev.off = k ∧ ev.ret = (pageSize : Int) := by
  simp [fullWritesAt, List.mem_filter, and_assoc]

theorem fullWritesAt_append (t₁ t₂ : List IOEvent) (k : Int) :
    fullWritesAt (t₁ ++ t₂) k = fullWritesAt t₁ k ++ fullWritesAt t₂ k := by
  simp [fullWritesAt, List.filter_append]

/-- Among calls at distinct offsets at most one is a full write at `k`. -/
theorem length_fullWritesAt_le_one (tr : List IOEvent) (k : Int)
    (hnd : (tr.map IOEvent.off).Nodup) : (fullWritesAt tr k).length ≤ 1 := by
  induction tr with
  | nil => simp [fullWritesAt]
  | cons ev rest ih =>
    simp only [List.map_cons, List.nodup_cons] at hnd
    have ih' := ih hnd.2
    by_cases hP : (ev.isWrite && decide (ev.off = k) &&
        decide (ev.ret = (pageSize : Int))) = true
    · have hnil : fullWritesAt rest k = [] := by
        apply List.eq_nil_iff_forall_not_mem.2
        intro x hx
        obtain ⟨hx1, -, hx2, -⟩ := (mem_fullWritesAt rest k x).1 hx
        simp only [Bool.and_eq_true, decide_eq_true_eq] at hP
        apply hnd.1
        rw [hP.1.2, ← hx2]
        exact List.mem_map_of_mem _ hx1
      have : fullWritesAt (ev :: rest) k = ev :: fullWritesAt rest k := by
        simp only [fullWritesAt, List.filter_cons, hP, if_true]
      rw [this, hnil]; simp
    · have : fullWritesAt (ev :: rest) k = fullWritesAt rest k := by
        simp only [fullWritesAt, List.filter_cons, hP, if_false]
        simp
      rw [this]; exact ih'

theorem dirtyKeys_nodup (m : Table) (hnd : (Table.keys m).Nodup) :
    ((m.filter (fun p => p.2.isDirty)).map Prod.fst).Nodup :=
  List.Nodup.sublist (List.Sublist.map _ (List.filter_sublist _)) hnd

/-- When every write of `Shard::Flush` returns `pageSize` no entry is dirty
after the call. -/
theorem Shard.Flush_all_clean (s : Shard) (f : File) (ws : Nat → IOOutcome)
    (hnd : (Table.keys s.m).Nodup)
    (hw : ∀ ev ∈ (s.Flush f ws).trace, ev.ret = (pageSize : Int)) :
    ∀ k e, (k, e) ∈ (s.Flush f ws).shard.m → e.isDirty = false := by
  apply flushLoop_all_clean ws (dirtySnapshot s.m) { m := s.m, file := f, trace := [] } hnd
  · intro k e hmem hd
    exact (mem_dirtySnapshot s.m (k, k)).2 ⟨rfl, e, hmem, hd⟩
  · exact hw

/-- `Shard::Flush` on a table without dirty entries does nothing. -/
theorem Shard.Flush_of_clean (s : Shard) (f : File) (ws : Nat → IOOutcome)
    (hc : ∀ k e, (k, e) ∈ s.m → e.isDirty = false) :
    s.Flush f ws = { ret := true, shard := s, file := f, trace := [] } := by
  have hsnap : dirtySnapshot s.m = [] := by
    apply List.eq_nil_iff_forall_not_mem.2
    intro p hp
    obtain ⟨-, e, hmem, hd⟩ := (mem_dirtySnapshot s.m p).1 hp
    rw [hc p.1 e hmem] at hd; cases hd
  simp [Shard.Flush, hsnap]

/-! ## The page held for an offset -/

theorem Shard.view_of_some {s : Shard} {f : File} {o : Int} {e : Entry}
    (h : s.m.find o = some e) : s.view f o = e.val.1 := by
  simp [Shard.view, h]

theorem Shard.view_of_none {s : Shard} {f : File} {o : Int}
    (h : s.m.find o = none) : s.view f o = f.pageAt o.toNat := by
  simp [Shard.view, h]

theorem IOOutcome.Full.whole {o : IOOutcome} (h : o.Full) : o.Whole := by
  cases o with
  | error => exact trivial
  | transfer limit => exact h

theorem pwrite_fst_of_full (f : File) (buf : PageBuf) (k : Int) (o : IOOutcome) (ho : o.Full)
    (hk : 0 ≤ k) : (pwrite f buf k o).1 = (pageSize : Int) := by
  cases o with
  | error => exact absurd ho (by simp [IOOutcome.Full])
  | transfer limit =>
    have hb := buf.2
    simp only [IOOutcome.Full] at ho
    simp only [pwrite, not_lt.2 hk, if_false, List.length_take, Nat.cast_inj]
    omega

/-- Eviction keeps the page held for every aligned offset. -/
theorem Shard.makeRoom_view (s : Shard) (f : File) (out : IOOutcome) (hco : s.Coherent f)
    (o : Int) (ho : 0 ≤ o) (hoa : o % (pageSize : Int) = 0) :
    Shard.view { s with m := (s.makeRoom f out).m } (s.makeRoom f out).file o = s.view f o := by
  obtain ⟨hkeys, hno, hm⟩ := hco
  have hnd := hno.nodup_keys
  cases hc : s.atCapacity with
  | false => rw [Shard.makeRoom_below s f out hc]
  | true =>
    rw [Shard.makeRoom_atCapacity s f out hc]
    cases hs : s.m with
    | nil =>
      rw [evictOneLocked_nil]
      simp only [Shard.view, hs]
    | cons p rest =>
      obtain ⟨k, v⟩ := p
      have hkv : (k, v) ∈ s.m := by rw [hs]; exact List.mem_cons_self _ _
      obtain ⟨hk0, hka⟩ := hkeys k v hkv
      have hfk : s.m.find k = some v := Table.find_of_mem hnd hkv
      have hrestk : Table.find rest k = none := by
        rw [Table.find_eq_none_iff]
        rw [hs] at hnd
        simp only [Table.keys, List.map_cons, List.nodup_cons] at hnd
        exact hnd.1
      have hrest : ∀ o', o' ≠ k → Table.find rest o' = s.m.find o' := by
        intro o' hne
        rw [hs, Table.find_cons]
        simp [Ne.symm hne]
      by_cases hok : o = k
      · subst hok
        cases hd : v.isDirty with
        | false =>
          rw [evictOneLocked_clean o v rest f out hd]
          rw [Shard.view_of_some hfk]
          show Shard.view { s with m := rest } f o = _
          rw [Shard.view_of_none (s := { s with m := rest }) hrestk]
          exact hm o v hkv trivial hd hk0
        | true =>
          by_cases hw : (pwrite f v.val o out).1 = (pageSize : Int)
          · rw [evictOneLocked_dirty_ok o v rest f out hd hw]
            rw [Shard.view_of_some hfk]
            show Shard.view { s with m := rest } (pwrite f v.val o out).2 o = _
            rw [Shard.view_of_none (s := { s with m := rest }) hrestk]
            exact (pwrite_full f v.val o out hw).2.2.1
          · rw [evictOneLocked_dirty_fail o v rest f out hd hw]
            rw [Shard.view_of_some hfk]
            show Shard.view { s with m := (o, v) :: rest } (pwrite f v.val o out).2 o = _
            rw [Shard.view_of_some (s := { s with m := (o, v) :: rest })
              (by rw [← hs]; exact hfk)]
      · have hdis : Disjoint k o := Disjoint.of_aligned hka hoa (Ne.symm hok)
        have hview : ∀ (m' : Table) (f' : File), Table.find m' o = s.m.find o →
            f'.pageAt o.toNat = f.pageAt o.toNat →
            Shard.view { s with m := m' } f' o = s.view f o := by
          intro m' f' h1 h2
          simp only [Shard.view, h1, h2]
        cases hd : v.isDirty with
        | false =>
          rw [evictOneLocked_clean k v rest f out hd]
          exact hview rest f (hrest o hok) rfl
        | true =>
          by_cases hw : (pwrite f v.val k out).1 = (pageSize : Int)
          · rw [evictOneLocked_dirty_ok k v rest f out hd hw]
            exact hview rest _ (hrest o hok) (pwrite_pageAt_of_disjoint _ _ _ _ _ ho hdis)
          · rw [evictOneLocked_dirty_fail k v rest f out hd hw]
            exact hview _ _ (by rw [hs]) (pwrite_pageAt_of_disjoint _ _ _ _ _ ho hdis)
/-- `Shard::Get` on an aligned key, with a read that is not cut short, keeps
the page held for every aligned offset. -/
theorem Shard.Get_view (s : Shard) (f : File) (key : Int) (env : GetEnv)
    (hrd : env.load.Whole) (hco : s.Coherent f)
    (o : Int) (ho : 0 ≤ o) (hoa : o % (pageSize : Int) = 0) :
    (s.Get f key env).shard.view (s.Get f key env).file o = s.view f o := by
  have hmr := Shard.makeRoom_view s f env.evict hco o ho hoa
  rcases Shard.Get_cases s f key env with ⟨e₀, _, hg⟩ | ⟨_, _, hg⟩ | ⟨_, _, _, hg⟩ |
    ⟨hf, _, hl, hg⟩
  · rw [hg]
  · rw [hg]; exact hmr
  · rw [hg]; exact hmr
  · rw [hg, ← hmr]
    have hnone := Shard.makeRoom_find_none s f env.evict key hf
    by_cases hok : o = key
    · subst hok
      have hfind : Table.find (s.insertEntry (s.makeRoom f env.evict).m o
          (loadEntry (s.makeRoom f env.evict).file o env.load).2 env) o =
          some (loadEntry (s.makeRoom f env.evict).file o env.load).2 := by
        rw [Shard.find_insertEntry, if_pos rfl]
      rw [Shard.view_of_some (s := { s with m := s.insertEntry _ _ _ _ }) hfind,
        Shard.view_of_none (s := { s with m := (s.makeRoom f env.evict).m }) hnone]
      exact (loadEntry_whole _ o env.load hrd hl).2
    · simp only [Shard.view, Shard.find_insertEntry, if_neg hok]

/-- The page held for an offset after `Shard::Put`: the page put, for the key
of a call that returned `true`; the page `Shard::Get` leaves otherwise. -/
theorem Shard.Put_view (s : Shard) (f : File) (key : Int) (buf : PageBuf) (env : GetEnv)
    (o : Int) :
    (s.Put f key buf env).shard.view (s.Put f key buf env).file o =
      if o = key ∧ (s.Put f key buf env).ret = true then buf.1
      else (s.Get f key env).shard.view (s.Get f key env).file o := by
  cases hg : (s.Get f key env).ret with
  | none =>
    rw [Shard.Put_of_none s f key buf env hg]
    simp
  | some e =>
    have hfind := Shard.Get_find_of_ret s f key env e hg
    rw [Shard.Put_of_some s f key buf env e hg]
    by_cases hok : o = key
    · subst hok
      simp only [Shard.view, Table.find_update, if_true, hfind, Option.map_some', and_self]
    · simp only [Shard.view, Table.find_update, if_neg hok, hok, false_and, if_false]

theorem Table.find_val_of_pages {m m' : Table} (h : Table.pages m' = Table.pages m) (o : Int) :
    (Table.find m' o).map (fun e => e.val) = (Table.find m o).map (fun e => e.val) := by
  induction m generalizing m' with
  | nil =>
    cases m' with
    | nil => rfl
    | cons p rest => simp [Table.pages] at h
  | cons q rest ih =>
    cases m' with
    | nil => simp [Table.pages] at h
    | cons p rest' =>
      simp only [Table.pages, List.map_cons, List.cons.injEq, Prod.mk.injEq] at h
      obtain ⟨⟨h1, -, h3⟩, h4⟩ := h
      rw [Table.find_cons, Table.find_cons, h1]
      by_cases hq : q.1 = o
      · simp [hq, h3]
      · simp only [hq, if_false]
        exact ih h4

/-- `Shard::Flush` keeps the page held for every aligned offset. -/
theorem Shard.Flush_view (s : Shard) (f : File) (ws : Nat → IOOutcome) (hco : s.Coherent f)
    (o : Int) (ho : 0 ≤ o) (hoa : o % (pageSize : Int) = 0) :
    (s.Flush f ws).shard.view (s.Flush f ws).file o = s.view f o := by
  obtain ⟨hkeys, hno, -⟩ := hco
  have hval := Table.find_val_of_pages (Shard.Flush_pages s f ws) o
  cases hb : s.m.find o with
  | some e =>
    rw [hb] at hval
    cases ha : (s.Flush f ws).shard.m.find o with
    | none => rw [ha] at hval; cases hval
    | some e' =>
      rw [ha] at hval
      simp only [Option.map_some', Option.some.injEq] at hval
      rw [Shard.view_of_some ha, Shard.view_of_some hb, hval]
  | none =>
    rw [hb] at hval
    cases ha : (s.Flush f ws).shard.m.find o with
    | some e' => rw [ha] at hval; cases hval
    | none =>
      rw [Shard.view_of_none ha, Shard.view_of_none hb]
      apply flushLoop_file_pageAt ws (dirtySnapshot s.m) { m := s.m, file := f, trace := [] } o ho
      intro p hp
      obtain ⟨-, e, hmem, -⟩ := (mem_dirtySnapshot _ _).1 hp
      apply Disjoint.of_aligned (hkeys p.1 e hmem).2 hoa
      intro heq
      apply (Table.find_eq_none_iff _ _).1 hb
      rw [← heq]
      exact (Table.mem_keys _ _).2 ⟨e, hmem⟩

/-- `Shard::Get` returns an entry when no system call fails or is cut short and
no key is negative. -/
theorem Shard.Get_ret_of_full (s : Shard) (f : File) (key : Int) (env : GetEnv)
    (hkeys : ∀ k e, (k, e) ∈ s.m → 0 ≤ k) (hev : env.evict.Full) (hld : env.load.Full)
    (hk : 0 ≤ key) : (s.Get f key env).ret ≠ none := by
  intro hnone
  obtain ⟨-, h | h⟩ := (Shard.Get_ret_none_iff s f key env).1 hnone
  · obtain ⟨-, k, v, rest, hm, -, hw⟩ := (Shard.makeRoom_ret_false_iff s f env.evict).1 h
    apply hw
    apply pwrite_fst_of_full f v.val k env.evict hev
    exact hkeys k v (by rw [hm]; exact List.mem_cons_self _ _)
  · rw [loadEntry_fst_neg_iff] at h
    rcases h with h | h
    · rw [h] at hld; exact hld
    · omega

/-! ## One call on a coherent pool -/

theorem BufferPool.view_of_shard (bp : BufferPool) (o : Int) (s : Shard)
    (h : bp.shards[BufferPool.hash o % bp.nShards.toNat]? = some s) :
    bp.view o = s.view bp.file o := by
  simp [BufferPool.view, h]

theorem Shard.find_none_of_route {s : Shard} {n i : Nat} {o : Int}
    (hr : ∀ k e, (k, e) ∈ s.m → BufferPool.hash k % n = i)
    (ho : BufferPool.hash o % n ≠ i) : s.m.find o = none := by
  cases h : s.m.find o with
  | none => rfl
  | some e => exact absurd (hr o e (Table.mem_of_find h)) ho

/-- The pool stays coherent when one shard and the file are replaced by a
shard that agrees with the new file and holds keys routed to it, provided
the file is unchanged at the aligned offsets routed to other shards. -/
theorem BufferPool.set_coherent (bp : BufferPool) (hco : bp.Coherent) (i : Nat)
    (s' : Shard) (f' : File) (hlt : i < bp.shards.length) (hs' : s'.Coherent f')
    (hkeys : ∀ k e, (k, e) ∈ s'.m → BufferPool.hash k % bp.nShards.toNat = i)
    (hframe : ∀ o, 0 ≤ o → o % (pageSize : Int) = 0 →
      BufferPool.hash o % bp.nShards.toNat ≠ i →
      f'.pageAt o.toNat = bp.file.pageAt o.toNat) :
    BufferPool.Coherent { bp with shards := bp.shards.set i s', file := f' } := by
  obtain ⟨⟨h1, h2, h3⟩, hsh⟩ := hco
  refine ⟨⟨h1, h2, by simp [h3]⟩, ?_⟩
  intro j sj hj
  simp only at hj
  by_cases hij : i = j
  · subst hij
    rw [List.getElem?_set_self hlt] at hj
    simp only [Option.some.injEq] at hj
    subst hj
    exact ⟨hs', hkeys⟩
  · rw [List.getElem?_set_ne hij] at hj
    obtain ⟨⟨hk, hno, hm⟩, hroute⟩ := hsh j sj hj
    refine ⟨⟨hk, hno, ?_⟩, hroute⟩
    intro k e hmem _ hc hk0
    show f'.pageAt k.toNat = e.val.1
    rw [hframe k hk0 (hk k e hmem).2 (by rw [hroute k e hmem]; exact Ne.symm hij)]
    exact hm k e hmem trivial hc hk0

/-- The page held for an offset routed to another shard is unchanged. -/
theorem BufferPool.set_view_other (bp : BufferPool) (i : Nat) (s' : Shard) (f' : File)
    (o : Int) (hne : BufferPool.hash o % bp.nShards.toNat ≠ i)
    (hframe : f'.pageAt o.toNat = bp.file.pageAt o.toNat) :
    BufferPool.view { bp with shards := bp.shards.set i s', file := f' } o = bp.view o := by
  simp only [BufferPool.view]
  rw [List.getElem?_set_ne (Ne.symm hne)]
  cases bp.shards[BufferPool.hash o % bp.nShards.toNat]? with
  | none => exact hframe
  | some sj => simp only [Shard.view, hframe]

/-- The page held for an offset routed to the replaced shard. -/
theorem BufferPool.set_view_self (bp : BufferPool) (i : Nat) (s' : Shard) (f' : File)
    (hlt : i < bp.shards.length) (o : Int)
    (heq : BufferPool.hash o % bp.nShards.toNat = i) :
    BufferPool.view { bp with shards := bp.shards.set i s', file := f' } o = s'.view f' o := by
  simp only [BufferPool.view, heq, List.getElem?_set_self hlt]

/-- The file is unchanged at an offset routed elsewhere when the page the
shard holds for it is. -/
theorem Shard.frame_of_view {s s' : Shard} {f f' : File} {n i : Nat} {o : Int}
    (hr : ∀ k e, (k, e) ∈ s.m → BufferPool.hash k % n = i)
    (hr' : ∀ k e, (k, e) ∈ s'.m → BufferPool.hash k % n = i)
    (ho : BufferPool.hash o % n ≠ i) (hv : s'.view f' o = s.view f o) :
    f'.pageAt o.toNat = f.pageAt o.toNat := by
  rw [Shard.view_of_none (Shard.find_none_of_route hr ho),
    Shard.view_of_none (Shard.find_none_of_route hr' ho)] at hv
  exact hv

/-- The keys after `Shard::Get` are old keys or the key of the call. -/
theorem Shard.Get_mem (s : Shard) (f : File) (key : Int) (env : GetEnv) (k : Int) (e : Entry)
    (h : (k, e) ∈ (s.Get f key env).shard.m) : k = key ∨ k ∈ Table.keys s.m := by
  have hsub := Shard.makeRoom_sublist s f env.evict
  rcases Shard.Get_cases s f key env with ⟨e₀, _, hg⟩ | ⟨_, _, hg⟩ | ⟨_, _, _, hg⟩ |
    ⟨hf, _, _, hg⟩
  · rw [hg] at h; exact Or.inr ((Table.mem_keys _ _).2 ⟨e, h⟩)
  · rw [hg] at h; exact Or.inr ((Table.mem_keys _ _).2 ⟨e, hsub.subset h⟩)
  · rw [hg] at h; exact Or.inr ((Table.mem_keys _ _).2 ⟨e, hsub.subset h⟩)
  · rw [hg] at h
    have hnone := Shard.makeRoom_find_none s f env.evict key hf
    change (k, e) ∈ s.insertEntry _ _ _ _ at h
    rw [Shard.mem_insertEntry s _ key _ env hnone] at h
    rcases h with h | h
    · simp only [Prod.mk.injEq] at h; exact Or.inl h.1
    · exact Or.inr ((Table.mem_keys _ _).2 ⟨e, hsub.subset h⟩)

theorem Shard.Put_mem (s : Shard) (f : File) (key : Int) (buf : PageBuf) (env : GetEnv)
    (k : Int) (e : Entry) (h : (k, e) ∈ (s.Put f key buf env).shard.m) :
    k = key ∨ k ∈ Table.keys s.m := by
  have hk : k ∈ Table.keys (s.Put f key buf env).shard.m := (Table.mem_keys _ _).2 ⟨e, h⟩
  rw [Shard.Put_keys] at hk
  obtain ⟨e', he'⟩ := (Table.mem_keys _ _).1 hk
  exact Shard.Get_mem s f key env k e' he'
/-- `BufferPool::Get` on a coherent pool, at an aligned offset and with a read
that is not cut short: the pool stays coherent, the page held for every
aligned offset is unchanged, a call that returns `true` returns the page held
for the offset, and the call returns `true` when no system call fails. -/
theorem BufferPool.Get_spec (bp : BufferPool) (hco : bp.Coherent) (buf : PageBuf) (o : Int)
    (env : GetEnv) (hal : o % (pageSize : Int) = 0) (hrd : env.load.Whole) :
    ∃ r, bp.Get buf o env = some r ∧ r.pool.Coherent ∧ r.pool.nShards = bp.nShards ∧
      (∀ o', 0 ≤ o' → o' % (pageSize : Int) = 0 → r.pool.view o' = bp.view o') ∧
      (r.ret = true → r.buf.1 = bp.view o) ∧
      (0 ≤ o → env.evict.Full → env.load.Full → r.ret = true) := by
  obtain ⟨sh, hsh, hG⟩ := BufferPool.Get_of_WF bp hco.1 buf o env
  obtain ⟨-, hlt⟩ := BufferPool.shardId_of_WF bp hco.1 o
  obtain ⟨hshco, hroute⟩ := hco.2 _ sh hsh
  have hs' := Shard.Get_coherent sh bp.file o env hal hrd hshco
  have hkeys : ∀ k e, (k, e) ∈ (sh.Get bp.file o env).shard.m →
      BufferPool.hash k % bp.nShards.toNat = BufferPool.hash o % bp.nShards.toNat := by
    intro k e hmem
    rcases Shard.Get_mem sh bp.file o env k e hmem with h | h
    · rw [h]
    · obtain ⟨e', he'⟩ := (Table.mem_keys _ _).1 h
      exact hroute k e' he'
  have hview : ∀ o', 0 ≤ o' → o' % (pageSize : Int) = 0 →
      (sh.Get bp.file o env).shard.view (sh.Get bp.file o env).file o' = sh.view bp.file o' :=
    fun o' h1 h2 => Shard.Get_view sh bp.file o env hrd hshco o' h1 h2
  refine ⟨_, hG, ?_, rfl, ?_, ?_, ?_⟩
  · apply BufferPool.set_coherent bp hco _ _ _ hlt hs' hkeys
    intro o' h1 h2 hne
    exact Shard.frame_of_view hroute hkeys hne (hview o' h1 h2)
  · intro o' h1 h2
    by_cases hr : BufferPool.hash o' % bp.nShards.toNat = BufferPool.hash o % bp.nShards.toNat
    · rw [BufferPool.set_view_self bp _ _ _ hlt o' hr, hview o' h1 h2,
        BufferPool.view_of_shard bp o' sh (by rw [hr]; exact hsh)]
    · exact BufferPool.set_view_other bp _ _ _ o' hr
        (Shard.frame_of_view hroute hkeys hr (hview o' h1 h2))
  · intro hret
    simp only at hret ⊢
    cases hg : (sh.Get bp.file o env).ret with
    | none => rw [hg] at hret; cases hret
    | some e =>
      simp only
      have hfind := Shard.Get_find_of_ret sh bp.file o env e hg
      have ho : 0 ≤ o := (hs'.1 o e (Table.mem_of_find hfind)).1
      rw [BufferPool.view_of_shard bp o sh hsh, ← hview o ho hal, Shard.view_of_some hfind]
  · intro ho hev hld
    simp only
    have := Shard.Get_ret_of_full sh bp.file o env (fun k e h => (hshco.1 k e h).1) hev hld ho
    cases hg : (sh.Get bp.file o env).ret with
    | none => exact absurd hg this
    | some e => rfl

/-- `BufferPool::Put` on a coherent pool, at an aligned offset and with a read
that is not cut short: the pool stays coherent, a call that returns `true`
makes its page the page held for the offset, the page held for every other
aligned offset is unchanged, and the call returns `true` when no system call
fails. -/
theorem BufferPool.Put_spec (bp : BufferPool) (hco : bp.Coherent) (buf : PageBuf) (o : Int)
    (env : GetEnv) (hal : o % (pageSize : Int) = 0) (hrd : env.load.Whole) :
    ∃ r, bp.Put buf o env = some r ∧ r.pool.Coherent ∧ r.pool.nShards = bp.nShards ∧
      (∀ o', 0 ≤ o' → o' % (pageSize : Int) = 0 →
        r.pool.view o' = if o' = o ∧ r.ret = true then buf.1 else bp.view o') ∧
      (0 ≤ o → env.evict.Full → env.load.Full → r.ret = true) := by
  obtain ⟨sh, hsh, hP⟩ := BufferPool.Put_of_WF bp hco.1 buf o env
  obtain ⟨-, hlt⟩ := BufferPool.shardId_of_WF bp hco.1 o
  obtain ⟨hshco, hroute⟩ := hco.2 _ sh hsh
  have hs' := Shard.Put_coherent sh bp.file o buf env hal hrd hshco
  have hkeys : ∀ k e, (k, e) ∈ (sh.Put bp.file o buf env).shard.m →
      BufferPool.hash k % bp.nShards.toNat = BufferPool.hash o % bp.nShards.toNat := by
    intro k e hmem
    rcases Shard.Put_mem sh bp.file o buf env k e hmem with h | h
    · rw [h]
    · obtain ⟨e', he'⟩ := (Table.mem_keys _ _).1 h
      exact hroute k e' he'
  have hview : ∀ o', 0 ≤ o' → o' % (pageSize : Int) = 0 →
      (sh.Put bp.file o buf env).shard.view (sh.Put bp.file o buf env).file o' =
        if o' = o ∧ (sh.Put bp.file o buf env).ret = true then buf.1
        else sh.view bp.file o' := by
    intro o' h1 h2
    rw [Shard.Put_view, Shard.Get_view sh bp.file o env hrd hshco o' h1 h2]
  refine ⟨_, hP, ?_, rfl, ?_, ?_⟩
  · apply BufferPool.set_coherent bp hco _ _ _ hlt hs' hkeys
    intro o' h1 h2 hne
    apply Shard.frame_of_view hroute hkeys hne
    rw [hview o' h1 h2, if_neg]
    rintro ⟨h, -⟩
    exact hne (by rw [h])
  · intro o' h1 h2
    by_cases hr : BufferPool.hash o' % bp.nShards.toNat = BufferPool.hash o % bp.nShards.toNat
    · rw [BufferPool.set_view_self bp _ _ _ hlt o' hr, hview o' h1 h2,
        BufferPool.view_of_shard bp o' sh (by rw [hr]; exact hsh)]
    · have hne : ¬ (o' = o ∧ (sh.Put bp.file o buf env).ret = true) := by
        rintro ⟨h, -⟩
        exact hr (by rw [h])
      simp only [if_neg hne]
      apply BufferPool.set_view_other bp _ _ _ o' hr
      apply Shard.frame_of_view hroute hkeys hr
      rw [hview o' h1 h2, if_neg hne]
  · intro ho hev hld
    simp only
    rw [Shard.Put_ret]
    have := Shard.Get_ret_of_full sh bp.file o env (fun k e h => (hshco.1 k e h).1) hev hld ho
    cases hg : (sh.Get bp.file o env).ret with
    | none => exact absurd hg this
    | some e => rfl

/-- The flush of one shard of a coherent pool: the pool stays coherent and the
page held for every aligned offset is unchanged. -/
theorem BufferPool.flushShard_spec (bp : BufferPool) (hco : bp.Coherent) (i : Nat)
    (ws : Nat → IOOutcome) (bp' : BufferPool) (h : bp.flushShard i ws = some bp') :
    bp'.Coherent ∧ bp'.nShards = bp.nShards ∧
      (∀ o', 0 ≤ o' → o' % (pageSize : Int) = 0 → bp'.view o' = bp.view o') := by
  unfold BufferPool.flushShard at h
  cases hsh : bp.shards[i]? with
  | none => rw [hsh] at h; cases h
  | some sh =>
    rw [hsh] at h
    simp only [Option.some.injEq] at h
    subst h
    have hlt : i < bp.shards.length := by
      by_contra hge
      rw [List.getElem?_eq_none (by omega)] at hsh; cases hsh
    obtain ⟨hshco, hroute⟩ := hco.2 _ sh hsh
    have hs' := Shard.Flush_coherent sh bp.file ws hshco
    have hkeys : ∀ k e, (k, e) ∈ (sh.Flush bp.file ws).shard.m →
        BufferPool.hash k % bp.nShards.toNat = i := by
      intro k e hmem
      have hk : k ∈ Table.keys (sh.Flush bp.file ws).shard.m := (Table.mem_keys _ _).2 ⟨e, hmem⟩
      rw [Shard.Flush_keys] at hk
      obtain ⟨e', he'⟩ := (Table.mem_keys _ _).1 hk
      exact hroute k e' he'
    have hview : ∀ o', 0 ≤ o' → o' % (pageSize : Int) = 0 →
        (sh.Flush bp.file ws).shard.view (sh.Flush bp.file ws).file o' = sh.view bp.file o' :=
      fun o' h1 h2 => Shard.Flush_view sh bp.file ws hshco o' h1 h2
    refine ⟨?_, rfl, ?_⟩
    · apply BufferPool.set_coherent bp hco _ _ _ hlt hs' hkeys
      intro o' h1 h2 hne
      exact Shard.frame_of_view hroute hkeys hne (hview o' h1 h2)
    · intro o' h1 h2
      by_cases hr : BufferPool.hash o' % bp.nShards.toNat = i
      · rw [BufferPool.set_view_self bp _ _ _ hlt o' hr, hview o' h1 h2,
          BufferPool.view_of_shard bp o' sh (by rw [hr]; exact hsh)]
      · exact BufferPool.set_view_other bp _ _ _ o' hr
          (Shard.frame_of_view hroute hkeys hr (hview o' h1 h2))

theorem BufferPool.flushShard_isSome (bp : BufferPool) (i : Nat) (ws : Nat → IOOutcome)
    (hlt : i < bp.shards.length) : ∃ bp', bp.flushShard i ws = some bp' := by
  unfold BufferPool.flushShard
  rw [List.getElem?_eq_getElem hlt]
  exact ⟨_, rfl⟩
/-! ## Runs of a coherent pool -/

theorem BufferPool.Empty.coherent {bp : BufferPool} (h : bp.Empty) : bp.Coherent := by
  refine ⟨h.1, ?_⟩
  intro i s hs
  have hnil : s.m = [] := h.2 s (List.getElem?_mem hs)
  refine ⟨⟨?_, ?_, ?_⟩, ?_⟩
  · intro k e hmem; rw [hnil] at hmem; cases hmem
  · unfold Table.NoOverlap; rw [hnil]; exact List.Pairwise.nil
  · intro k e hmem; rw [hnil] at hmem; cases hmem
  · intro k e hmem; rw [hnil] at hmem; cases hmem

theorem BufferPool.Empty.view {bp : BufferPool} (h : bp.Empty) (o : Int) :
    bp.view o = plainInit bp.file o := by
  unfold BufferPool.view plainInit
  cases hs : bp.shards[BufferPool.hash o % bp.nShards.toNat]? with
  | none => rfl
  | some s =>
    have hnil : s.m = [] := h.2 s (List.getElem?_mem hs)
    simp only [Shard.view, hnil, Table.find_nil]

/-- One call on a coherent pool, at an aligned offset and with a read that is
not cut short, leaves the pool coherent with the same shard count. -/
theorem BufferPool.step_keeps_coherent (bp : BufferPool) (hco : bp.Coherent) (op : PoolOp)
    (hal : op.Aligned) (hrd : op.ReadsWhole) (bp₁ : BufferPool) (out : List PoolOut)
    (h : bp.step op = some (bp₁, out)) : bp₁.Coherent ∧ bp₁.nShards = bp.nShards := by
  cases op with
  | put buf o env =>
    obtain ⟨r, hr, hc, hn, -⟩ := BufferPool.Put_spec bp hco buf o env hal hrd
    simp only [BufferPool.step, hr, Option.map_some', Option.some.injEq, Prod.mk.injEq] at h
    rw [← h.1]; exact ⟨hc, hn⟩
  | get buf o env =>
    obtain ⟨r, hr, hc, hn, -⟩ := BufferPool.Get_spec bp hco buf o env hal hrd
    simp only [BufferPool.step, hr, Option.map_some', Option.some.injEq, Prod.mk.injEq] at h
    rw [← h.1]; exact ⟨hc, hn⟩
  | flush i ws =>
    simp only [BufferPool.step] at h
    cases hf : bp.flushShard i ws with
    | none => rw [hf] at h; cases h
    | some bp' =>
      rw [hf] at h
      simp only [Option.map_some', Option.some.injEq, Prod.mk.injEq] at h
      obtain ⟨hc, hn, -⟩ := BufferPool.flushShard_spec bp hco i ws bp' hf
      rw [← h.1]; exact ⟨hc, hn⟩

theorem BufferPool.run_cons (bp : BufferPool) (op : PoolOp) (ops : List PoolOp) :
    bp.run (op :: ops) =
      (bp.step op).bind (fun p => (BufferPool.run p.1 ops).map (fun q => (q.1, p.2 ++ q.2))) := by
  simp only [BufferPool.run]
  cases bp.step op with
  | none => rfl
  | some p =>
    obtain ⟨bp₁, out⟩ := p
    simp only [Option.some_bind]
    cases BufferPool.run bp₁ ops with
    | none => rfl
    | some q => rfl

/-- Every state a coherent pool reaches, by calls at aligned offsets whose
reads are not cut short, is coherent. -/
theorem BufferPool.run_keeps_coherent (ops : List PoolOp) (bp : BufferPool) (hco : bp.Coherent)
    (hal : ∀ op ∈ ops, op.Aligned) (hrd : ∀ op ∈ ops, op.ReadsWhole)
    (bp' : BufferPool) (outs : List PoolOut) (h : bp.run ops = some (bp', outs)) :
    bp'.Coherent := by
  induction ops generalizing bp bp' outs with
  | nil =>
    simp only [BufferPool.run, Option.some.injEq, Prod.mk.injEq] at h
    rw [← h.1]; exact hco
  | cons op ops ih =>
    rw [BufferPool.run_cons] at h
    cases hs : bp.step op with
    | none => rw [hs] at h; cases h
    | some p =>
      obtain ⟨bp₁, out⟩ := p
      rw [hs] at h
      simp only [Option.some_bind] at h
      cases hr : BufferPool.run bp₁ ops with
      | none => rw [hr] at h; cases h
      | some q =>
        obtain ⟨bp₂, outs'⟩ := q
        rw [hr] at h
        simp only [Option.map_some', Option.some.injEq, Prod.mk.injEq] at h
        rw [← h.1]
        exact ih bp₁
          (BufferPool.step_keeps_coherent bp hco op (hal op (List.mem_cons_self _ _))
            (hrd op (List.mem_cons_self _ _)) bp₁ out hs).1
          (fun o ho => hal o (List.mem_cons_of_mem _ ho))
          (fun o ho => hrd o (List.mem_cons_of_mem _ ho)) bp₂ outs' hr

theorem PoolOp.Succeeds.readsWhole {n : Nat} {op : PoolOp} (h : op.Succeeds n) :
    op.ReadsWhole := by
  cases op with
  | put buf o env => exact h.2.2.whole
  | get buf o env => exact h.2.2.whole
  | flush i ws => exact trivial

theorem PoolOp.Succeeds.nonneg_aligned {n : Nat} {op : PoolOp} (h : op.Succeeds n)
    (hal : op.Aligned) :
    match op with
    | .put _ o _ => 0 ≤ o ∧ o % (pageSize : Int) = 0
    | .get _ o _ => 0 ≤ o ∧ o % (pageSize : Int) = 0
    | .flush _ _ => True := by
  cases op with
  | put buf o env => exact ⟨h.1, hal⟩
  | get buf o env => exact ⟨h.1, hal⟩
  | flush i ws => exact trivial

/-- A coherent pool refines a plain map: when no system call fails or is cut
short, the callers see what they would see of the plain map that agrees with
the pool on the aligned offsets. -/
theorem BufferPool.run_refines (ops : List PoolOp) (bp : BufferPool) (hco : bp.Coherent)
    (M : Int → List Byte)
    (hM : ∀ o, 0 ≤ o → o % (pageSize : Int) = 0 → M o = bp.view o)
    (hal : ∀ op ∈ ops, op.Aligned) (hs : ∀ op ∈ ops, op.Succeeds bp.nShards.toNat) :
    ∃ bp' outs, bp.run ops = some (bp', outs) ∧ bp'.Coherent ∧
      outs.map (fun r => (r.1, r.2.map Subtype.val)) = plainRun M ops := by
  induction ops generalizing bp M with
  | nil => exact ⟨bp, [], rfl, hco, rfl⟩
  | cons op ops ih =>
    have hal' : ∀ o ∈ ops, o.Aligned := fun o ho => hal o (List.mem_cons_of_mem _ ho)
    have halop := hal op (List.mem_cons_self _ _)
    have hsop := hs op (List.mem_cons_self _ _)
    rw [BufferPool.run_cons]
    cases op with
    | put buf o env =>
      obtain ⟨r, hr, hc, hn, hv, hret⟩ :=
        BufferPool.Put_spec bp hco buf o env halop hsop.2.2.whole
      have hrt := hret hsop.1 hsop.2.1 hsop.2.2
      obtain ⟨bp', outs, hrun, hc', hout⟩ := ih r.pool hc
        (fun o' => if o' = o then buf.1 else M o')
        (by
          intro o' h1 h2
          rw [hv o' h1 h2]
          by_cases ho : o' = o
          · simp [ho, hrt]
          · simp [ho, hM o' h1 h2])
        hal' (fun o' ho' => hn ▸ hs o' (List.mem_cons_of_mem _ ho'))
      refine ⟨bp', (r.ret, none) :: outs, ?_, hc', ?_⟩
      · simp [BufferPool.step, hr, hrun]
      · simp only [List.map_cons, plainRun, hout, hrt, Option.map_none']
    | get buf o env =>
      obtain ⟨r, hr, hc, hn, hv, hbuf, hret⟩ :=
        BufferPool.Get_spec bp hco buf o env halop hsop.2.2.whole
      have hrt := hret hsop.1 hsop.2.1 hsop.2.2
      obtain ⟨bp', outs, hrun, hc', hout⟩ := ih r.pool hc M
        (by intro o' h1 h2; rw [hv o' h1 h2]; exact hM o' h1 h2)
        hal' (fun o' ho' => hn ▸ hs o' (List.mem_cons_of_mem _ ho'))
      refine ⟨bp', (r.ret, some r.buf) :: outs, ?_, hc', ?_⟩
      · simp [BufferPool.step, hr, hrun]
      · simp only [List.map_cons, plainRun, hout, hrt, Option.map_some', hbuf hrt,
          hM o hsop.1 halop]
    | flush i ws =>
      have hlt : i < bp.shards.length := by rw [hco.1.2.2]; exact hsop.1
      obtain ⟨bp₁, hf⟩ := BufferPool.flushShard_isSome bp i ws hlt
      obtain ⟨hc, hn, hv⟩ := BufferPool.flushShard_spec bp hco i ws bp₁ hf
      obtain ⟨bp', outs, hrun, hc', hout⟩ := ih bp₁ hc M
        (by intro o' h1 h2; rw [hv o' h1 h2]; exact hM o' h1 h2)
        hal' (fun o' ho' => hn ▸ hs o' (List.mem_cons_of_mem _ ho'))
      refine ⟨bp', outs, ?_, hc', ?_⟩
      · simp [BufferPool.step, hf, hrun]
      · simp only [plainRun, hout]

theorem BufferPool.single_empty (f : File) : (BufferPool.single f).Empty := by
  refine ⟨⟨by simp [BufferPool.single], by simp [BufferPool.single, intMax],
    by simp [BufferPool.single]⟩, ?_⟩
  intro s hs
  simp only [BufferPool.single, List.mem_singleton] at hs
  rw [hs]; rfl

theorem PoolOp.sample_aligned : ∀ op ∈ PoolOp.sample, op.Aligned := by
  intro op hop
  simp only [PoolOp.sample, List.mem_cons, List.mem_singleton, List.not_mem_nil,
    or_false] at hop
  rcases hop with rfl | rfl | rfl | rfl <;> simp [PoolOp.Aligned, pageSize]

theorem PoolOp.sample_succeeds : ∀ op ∈ PoolOp.sample, op.Succeeds 1 := by
  intro op hop
  simp only [PoolOp.sample, List.mem_cons, List.mem_singleton, List.not_mem_nil,
    or_false] at hop
  rcases hop with rfl | rfl | rfl | rfl <;>
    simp [PoolOp.Succeeds, GetEnv.ok, IOOutcome.full, IOOutcome.Full, flushOk]

/-! # Claims -/

/-- Claim C1. Round trip: in a pool whose shard count is a positive `int`, with any
per-shard capacities and any shard contents, `BufferPool::Put(p, o)` returns,
and when it returns `true` an immediately following `BufferPool::Get(buf, o)`
returns `true` and leaves `p` in the caller's buffer, whatever the environment
decides during either call. -/
theorem C1_round_trip (bp : BufferPool) (hwf : bp.WF) (o : Int) (p buf : PageBuf)
    (env env' : GetEnv) :
    ∃ r, bp.Put p o env = some r ∧
      (r.ret = true →
        ∃ r', r.pool.Get buf o env' = some r' ∧ r'.ret = true ∧ r'.buf = p) := by
  obtain ⟨sh, hsh, hput⟩ := BufferPool.Put_of_WF bp hwf p o env
  refine ⟨_, hput, ?_⟩
  intro hret
  simp only at hret
  obtain ⟨e, hfind, hval, -⟩ := Shard.Put_find_of_ret sh bp.file o p env hret
  obtain ⟨hid, hlt⟩ := BufferPool.shardId_of_WF bp hwf o
  have hwf' : BufferPool.WF
      { bp with
        shards := bp.shards.set (BufferPool.hash o % bp.nShards.toNat)
          (sh.Put bp.file o p env).shard,
        file := (sh.Put bp.file o p env).file } := by
    obtain ⟨h1, h2, h3⟩ := hwf
    exact ⟨h1, h2, by simp [h3]⟩
  obtain ⟨sh', hsh', hget⟩ := BufferPool.Get_of_WF _ hwf' buf o env'
  simp only [List.getElem?_set_self hlt, Option.some.injEq] at hsh'
  subst hsh'
  refine ⟨_, hget, ?_, ?_⟩
  · simp [Shard.Get_hit _ _ o env' e hfind]
  · simp [Shard.Get_hit _ _ o env' e hfind, hval]

/-- Witness of claim C1: a one-shard pool of capacity 1 on an empty file. -/
theorem C1_round_trip_witness :
    BufferPool.WF { nShards := 1, shards := [Shard.new 1], file := [] } ∧
    ∃ r, BufferPool.Put { nShards := 1, shards := [Shard.new 1], file := [] }
        (PageBuf.fill 7) 0 GetEnv.ok = some r ∧ r.ret = true ∧
      ∃ r', r.pool.Get PageBuf.zero 0 GetEnv.ok = some r' ∧ r'.ret = true ∧
        r'.buf = PageBuf.fill 7 := by
  have hwf : BufferPool.WF { nShards := 1, shards := [Shard.new 1], file := [] } :=
    ⟨by decide, by decide, by decide⟩
  obtain ⟨r, hr, h⟩ := C1_round_trip _ hwf 0 (PageBuf.fill 7) PageBuf.zero GetEnv.ok GetEnv.ok
  have hret : r.ret = true := by
    have : (BufferPool.Put { nShards := 1, shards := [Shard.new 1], file := [] }
        (PageBuf.fill 7) 0 GetEnv.ok).map (fun r => r.ret) = some true := by decide
    rw [hr] at this
    simpa using this
  exact ⟨hwf, r, hr, hret, h hret⟩

/-- Claim C2, as stated, fails: a shard built with capacity 0 holds one entry after
a single successful `Shard::Get` on an empty file. -/
theorem C2_capacity_bound_counterexample :
    (Shard.new 0).maxEntriesPerShard = 0 ∧
    (Shard.run (Shard.new 0, []) [Op.get 0 GetEnv.ok]).1.m.length = 1 ∧
    ¬ (((Shard.run (Shard.new 0, []) [Op.get 0 GetEnv.ok]).1.m.length : Int) ≤
        (Shard.new 0).maxEntriesPerShard) := by
  refine ⟨rfl, by decide, by decide⟩

/-- Claim C2, amended. Capacity bound: starting from an empty shard built with a
capacity `cap` that is an `int`, after any sequence of `Shard::Put`,
`Shard::Get` and `Shard::Flush` calls, whatever the environment decides, the
capacity is still `cap` and the number of entries in the page table is at most
`max cap 1`; so it never exceeds `cap` when `cap ≥ 1`. -/
theorem C2_capacity_bound (cap : Int) (hcap : cap ≤ intMax) (f : File) (ops : List Op) :
    (Shard.run (Shard.new cap, f) ops).1.maxEntriesPerShard = cap ∧
    ((Shard.run (Shard.new cap, f) ops).1.m.length : Int) ≤ max cap 1 ∧
    (1 ≤ cap → ((Shard.run (Shard.new cap, f) ops).1.m.length : Int) ≤ cap) := by
  have h := Shard.run_size cap hcap ops (Shard.new cap, f) rfl
    (by simp only [Shard.new, List.length_nil]; exact le_max_of_le_right (by norm_num))
  refine ⟨h.1, h.2, fun h1 => ?_⟩
  have := h.2
  rwa [max_eq_left h1] at this

/-- Witness of claim C2: capacity 2, three pages put in a row. -/
theorem C2_capacity_bound_witness :
    (2 : Int) ≤ intMax ∧
    ((Shard.run (Shard.new 2, [])
      [Op.put 0 (PageBuf.fill 1) GetEnv.ok, Op.put 4096 (PageBuf.fill 2) GetEnv.ok,
       Op.put 8192 (PageBuf.fill 3) GetEnv.ok]).1.m.length : Int) ≤ 2 :=
  ⟨by decide, (C2_capacity_bound 2 (by decide) [] _).2.2 (by decide)⟩

/-- Claim C3. Shard routing: in a pool whose shard count `n` is a positive `int`,
`BufferPool::Put` and `BufferPool::Get` at `offset` both work on the shard of
index `((offset mod 2^32) * 2654435761 mod 2^32) mod n` and leave every other
shard as it is; the index is below `n` and below the number of shards, and it
is the same for every pool with the same shard count. -/
theorem C3_shard_routing (bp : BufferPool) (hwf : bp.WF) (offset : Int) (p buf : PageBuf)
    (env : GetEnv) :
    let idx : Nat := ((offset % 2 ^ 32).toNat * 2654435761 % 2 ^ 32) % bp.nShards.toNat
    (idx : Int) < bp.nShards ∧
    bp.shardId offset = some idx ∧
    (∀ bp' : BufferPool, bp'.nShards = bp.nShards → bp'.shardId offset = some idx) ∧
    (∃ sh, bp.shards[idx]? = some sh ∧
      (bp.Put p offset env).map (fun r => (r.ret, r.pool.shards)) =
        some ((sh.Put bp.file offset p env).ret,
          bp.shards.set idx (sh.Put bp.file offset p env).shard) ∧
      (bp.Get buf offset env).map (fun r => (r.ret, r.pool.shards)) =
        some ((sh.Get bp.file offset env).ret.isSome,
          bp.shards.set idx (sh.Get bp.file offset env).shard)) := by
  intro idx
  have hidx : idx = BufferPool.hash offset % bp.nShards.toNat := by
    simp only [idx, BufferPool.hash, toUnsigned]; norm_num
  obtain ⟨hid, hlt⟩ := BufferPool.shardId_of_WF bp hwf offset
  obtain ⟨h1, h2, h3⟩ := hwf
  have hpos : 0 < bp.nShards.toNat := by omega
  refine ⟨?_, ?_, ?_, ?_⟩
  · have : idx < bp.nShards.toNat := by rw [hidx]; exact Nat.mod_lt _ hpos
    omega
  · rw [hidx]; exact hid
  · intro bp' hn
    have hu := toUnsigned_of_int_pos bp.nShards h1 h2
    have hne : bp.nShards.toNat ≠ 0 := by omega
    simp only [BufferPool.shardId, hn, hu, hidx, if_neg hne]
  · obtain ⟨sh, hsh, hput⟩ := BufferPool.Put_of_WF bp ⟨h1, h2, h3⟩ p offset env
    obtain ⟨sh', hsh', hget⟩ := BufferPool.Get_of_WF bp ⟨h1, h2, h3⟩ buf offset env
    rw [hsh] at hsh'
    simp only [Option.some.injEq] at hsh'
    subst hsh'
    refine ⟨sh, hidx ▸ hsh, ?_, ?_⟩
    · rw [hput, hidx]; rfl
    · rw [hget, hidx]; rfl

/-- Witness of claim C3: the default pool on an empty file and a negative offset. -/
theorem C3_shard_routing_witness :
    BufferPool.WF { nShards := 16, shards := List.replicate 16 (Shard.new 128), file := [] } ∧
    (BufferPool.shardId { nShards := 16, shards := List.replicate 16 (Shard.new 128), file := [] }
      (-4096)) = some 0 := by
  have hwf : BufferPool.WF
      { nShards := 16, shards := List.replicate 16 (Shard.new 128), file := [] } := by
    refine ⟨by decide, by decide, by decide⟩
  exact ⟨hwf, (C3_shard_routing _ hwf (-4096) PageBuf.zero PageBuf.zero GetEnv.ok).2.1⟩

/-- Claim C4. Zero-padded load: when `Shard::Get` returns an entry for a key that
was not resident, the read it issued at that key returned some `n` with
`0 ≤ n ≤ pageSize`, the `n` bytes of the file from `key` on; the page of the
returned entry is those `n` bytes followed by `pageSize - n` zero bytes (all
zeros when `n = 0`), its key field is the key, it is not dirty, and it is the
entry now stored under the key.  The file is the one the read saw: an eviction
in the same call writes before the read. -/
theorem C4_zero_padded_load (s : Shard) (f : File) (key : Int) (env : GetEnv) (e : Entry)
    (hmiss : s.m.find key = none) (hret : (s.Get f key env).ret = some e) :
    ∃ n : Nat, n ≤ pageSize ∧
      (s.Get f key env).trace.getLast? = some (.pread key n) ∧
      (((s.Get f key env).file.drop key.toNat).take n).length = n ∧
      e.val.1 = ((s.Get f key env).file.drop key.toNat).take n ++
        List.replicate (pageSize - n) 0 ∧
      (n = 0 → e.val = PageBuf.zero) ∧
      e.key = key ∧ e.isDirty = false ∧
      (s.Get f key env).shard.m.find key = some e := by
  have hfind := Shard.Get_find_of_ret s f key env e hret
  rcases Shard.Get_cases s f key env with ⟨e₀, hf, -⟩ | ⟨_, _, hg⟩ | ⟨_, _, _, hg⟩ |
    ⟨_, _, hl, hg⟩
  · rw [hmiss] at hf; cases hf
  · rw [hg] at hret; cases hret
  · rw [hg] at hret; cases hret
  · obtain ⟨n, hn, hle, -, -, hlen, hval, hkey, hdirty⟩ := loadEntry_ok _ key env.load hl
    have he : e = (loadEntry (s.makeRoom f env.evict).file key env.load).2 := by
      rw [hg] at hret; simpa using hret.symm
    have hfile : (s.Get f key env).file = (s.makeRoom f env.evict).file := by rw [hg]
    refine ⟨n, hle, ?_, ?_, ?_, ?_, ?_, ?_, hfind⟩
    · rw [hg]; simp [hn]
    · rw [hfile]; exact hlen
    · rw [hfile, he]; exact hval
    · intro h0
      apply Subtype.ext
      rw [he, hval, h0]
      rfl
    · rw [he]; exact hkey
    · rw [he]; exact hdirty

/-- Witness of claim C4: a three-byte file read at offset 0 into an empty shard. -/
theorem C4_zero_padded_load_witness :
    ∃ n : Nat, n ≤ pageSize ∧
      ((Shard.new 1).Get [1, 2, 3] 0 GetEnv.ok).trace.getLast? = some (.pread 0 n) ∧
      (loadEntry [1, 2, 3] 0 .full).2.val.1 =
        (([1, 2, 3] : File).drop 0).take n ++ List.replicate (pageSize - n) 0 :=
  have h := C4_zero_padded_load (Shard.new 1) [1, 2, 3] 0 GetEnv.ok
    (loadEntry [1, 2, 3] 0 .full).2 rfl rfl
  h.imp fun _ hn => ⟨hn.1, hn.2.1, hn.2.2.2.1⟩

/-- Claim C5, as stated, fails in both directions.
(1) After a put of the zero page at key 0 on an empty file the entry is dirty
    although its page equals the bytes of the file at its key.
(2) In `Shard.afterOverlap`, reached through the overlapping keys 0 and 1 with
    calls that all succeed in full, the entry at key 0 is not dirty although
    its page differs from the bytes of the file at its key.
(3) After a load whose read is cut short the entry is not dirty although its
    page differs from the bytes of the file at its key. -/
theorem C5_entry_invariant_counterexample :
    (∃ e, (0, e) ∈ Shard.afterPutSame.1.m ∧ e.isDirty = true ∧
      Shard.afterPutSame.2.pageAt 0 = e.val.1) ∧
    (∃ e, (0, e) ∈ Shard.afterOverlap.1.m ∧ e.isDirty = false ∧
      Shard.afterOverlap.2.pageAt 0 ≠ e.val.1) ∧
    (∃ e, (0, e) ∈ Shard.afterShortRead.1.m ∧ e.isDirty = false ∧
      Shard.afterShortRead.2.pageAt 0 ≠ e.val.1) := by
  refine ⟨?_, ?_, ?_⟩
  · have h : (Table.find Shard.afterPutSame.1.m 0).map
        (fun e => e.isDirty && decide (Shard.afterPutSame.2.pageAt 0 = e.val.1)) =
        some true := by decide!
    obtain ⟨e, hmem, hP⟩ := Table.exists_of_find_map h
    simp only [Bool.and_eq_true, decide_eq_true_eq] at hP
    exact ⟨e, hmem, hP.1, hP.2⟩
  · have h : (Table.find Shard.afterOverlap.1.m 0).map
        (fun e => !e.isDirty && !decide (Shard.afterOverlap.2.pageAt 0 = e.val.1)) =
        some true := by decide!
    obtain ⟨e, hmem, hP⟩ := Table.exists_of_find_map h
    simp only [Bool.and_eq_true, Bool.not_eq_true', decide_eq_false_iff_not] at hP
    exact ⟨e, hmem, hP.1, hP.2⟩
  · have h : (Table.find Shard.afterShortRead.1.m 0).map
        (fun e => !e.isDirty && !decide (Shard.afterShortRead.2.pageAt 0 = e.val.1)) =
        some true := by decide!
    obtain ⟨e, hmem, hP⟩ := Table.exists_of_find_map h
    simp only [Bool.and_eq_true, Bool.not_eq_true', decide_eq_false_iff_not] at hP
    exact ⟨e, hmem, hP.1, hP.2⟩

/-- Claim C5, amended. Entry invariant: in every state reached from an empty shard
by `Put`, `Get` and `Flush` calls whose keys are multiples of the page size and
whose page reads are not cut short (whatever else the environment decides),
every resident entry whose page bytes differ from the bytes of the file at its
key, positions past the end of the file read as zero, is dirty; that is, an
entry that is not dirty holds exactly the bytes of the file.  Every resident
key is a non-negative multiple of the page size. -/
theorem C5_entry_invariant (cap : Int) (f₀ : File) (ops : List Op)
    (hal : ∀ op ∈ ops, op.Aligned) (hrd : ∀ op ∈ ops, op.ReadsWhole) :
    ∀ k e, (k, e) ∈ (Shard.run (Shard.new cap, f₀) ops).1.m →
      (0 ≤ k ∧ k % (pageSize : Int) = 0) ∧
      ((Shard.run (Shard.new cap, f₀) ops).2.pageAt k.toNat ≠ e.val.1 → e.isDirty = true) ∧
      (e.isDirty = false → (Shard.run (Shard.new cap, f₀) ops).2.pageAt k.toNat = e.val.1) := by
  intro k e hmem
  obtain ⟨hkeys, -, hm⟩ :=
    Shard.run_coherent ops (Shard.new cap, f₀) hal hrd (Shard.new_coherent cap f₀)
  have hk := hkeys k e hmem
  refine ⟨hk, ?_, fun hc => hm k e hmem trivial hc hk.1⟩
  intro hne
  cases hd : e.isDirty with
  | true => rfl
  | false => exact absurd (hm k e hmem trivial hd hk.1) hne

/-- Witness of claim C5: in `Shard.afterAligned` the entry at key 0 is not dirty
and holds the bytes of the file. -/
theorem C5_entry_invariant_witness :
    ∃ e, (0, e) ∈ Shard.afterAligned.1.m ∧ e.isDirty = false ∧
      Shard.afterAligned.2.pageAt 0 = e.val.1 := by
  have h : (Table.find Shard.afterAligned.1.m 0).map (fun e => !e.isDirty) = some true := by
    decide!
  obtain ⟨e, hmem, hP⟩ := Table.exists_of_find_map h
  simp only [Bool.not_eq_true'] at hP
  have hal : ∀ op ∈ [Op.get 0 GetEnv.ok, Op.put 4096 (PageBuf.fill 7) GetEnv.ok,
      Op.flush flushOk], op.Aligned := by
    intro op hop
    simp only [List.mem_cons, List.mem_singleton, List.not_mem_nil, or_false] at hop
    rcases hop with rfl | rfl | rfl <;> simp [Op.Aligned, pageSize]
  have hrd : ∀ op ∈ [Op.get 0 GetEnv.ok, Op.put 4096 (PageBuf.fill 7) GetEnv.ok,
      Op.flush flushOk], op.ReadsWhole := by
    intro op hop
    simp only [List.mem_cons, List.mem_singleton, List.not_mem_nil, or_false] at hop
    rcases hop with rfl | rfl | rfl <;>
      simp [Op.ReadsWhole, GetEnv.ok, IOOutcome.full, IOOutcome.Whole]
  exact ⟨e, hmem, hP, (C5_entry_invariant 2 [1, 2, 3] _ hal hrd 0 e hmem).2.2 hP⟩

/-- Claim C6. Dirty-flag life cycle, for one call from any shard state whose keys
are distinct, as they are in the empty shard:
(0) the keys are distinct after the call, so the statement applies to every
    call of every sequence;
(1) an entry that `Shard::Get` loads is not dirty;
(2) after a `Shard::Put` that returned `true` the entry of its key is dirty;
(3) `Shard::Get` changes no entry that is resident before and after it;
(4) an entry that is dirty before a call and resident and not dirty after it
    was cleaned by a `Shard::Flush` that wrote its page at its key with return
    value `pageSize`;
(5) an entry that is dirty before a call and not resident after it was the
    first in iteration order of a table at capacity, evicted by the
    `Shard::Get` of a `Get` or `Put` on a key that was not resident, and the
    write-back of its page at its key returned `pageSize`. -/
theorem C6_dirty_life_cycle (s : Shard) (f : File) (hnd : (Table.keys s.m).Nodup) :
    (∀ op, (Table.keys (Shard.step (s, f) op).1.m).Nodup) ∧
    (∀ key env e, s.m.find key = none → (s.Get f key env).ret = some e →
      e.isDirty = false ∧ (s.Get f key env).shard.m.find key = some e) ∧
    (∀ key buf env, (s.Put f key buf env).ret = true →
      ∃ e, (s.Put f key buf env).shard.m.find key = some e ∧ e.isDirty = true) ∧
    (∀ key env k e e', s.m.find k = some e →
      (s.Get f key env).shard.m.find k = some e' → e' = e) ∧
    (∀ op k e e', s.m.find k = some e → e.isDirty = true →
      (Shard.step (s, f) op).1.m.find k = some e' → e'.isDirty = false →
      ∃ ws, op = .flush ws ∧
        IOEvent.pwrite k e.val.1 (pageSize : Int) ∈ (s.Flush f ws).trace) ∧
    (∀ op k e, s.m.find k = some e → e.isDirty = true →
      (Shard.step (s, f) op).1.m.find k = none →
      ∃ key env, (op = .get key env ∨ ∃ buf, op = .put key buf env) ∧
        s.m.find key = none ∧ s.atCapacity = true ∧ (∃ rest, s.m = (k, e) :: rest) ∧
        (pwrite f e.val k env.evict).1 = (pageSize : Int) ∧
        IOEvent.pwrite k e.val.1 (pageSize : Int) ∈ (s.Get f key env).trace) := by
  have h3 : ∀ key env k e e', s.m.find k = some e →
      (s.Get f key env).shard.m.find k = some e' → e' = e := by
    intro key env k e e' hb ha
    rcases Shard.Get_find_some s f key env hnd ha with h | ⟨hk, hnone, -⟩
    · rw [hb] at h; exact (Option.some.inj h).symm
    · rw [hk, hnone] at hb; cases hb
  refine ⟨fun op => Shard.step_nodup (s, f) op hnd, ?_, ?_, h3, ?_, ?_⟩
  · intro key env e hmiss hret
    exact ⟨Shard.Get_loaded_clean s f key env e hmiss hret,
      Shard.Get_find_of_ret s f key env e hret⟩
  · intro key buf env hret
    obtain ⟨e, hf, -, hd⟩ := Shard.Put_find_of_ret s f key buf env hret
    exact ⟨e, hf, hd⟩
  · intro op k e e' hb hd ha hc
    cases op with
    | put key buf env =>
      exfalso
      simp only [Shard.step] at ha
      rw [Shard.Put_find] at ha
      split at ha
      · cases hg : (s.Get f key env).shard.m.find k with
        | none => rw [hg] at ha; cases ha
        | some e₁ =>
          rw [hg] at ha
          simp only [Option.map_some', Option.some.injEq] at ha
          rw [← ha] at hc; cases hc
      · have := h3 key env k e e' hb ha
        rw [this, hd] at hc; cases hc
    | get key env =>
      exfalso
      simp only [Shard.step] at ha
      have := h3 key env k e e' hb ha
      rw [this, hd] at hc; cases hc
    | flush ws =>
      refine ⟨ws, rfl, ?_⟩
      simp only [Shard.step] at ha
      exact (flushLoop_cleaned ws (dirtySnapshot s.m) { m := s.m, file := f, trace := [] } k e e'
        (fun p hp => ((mem_dirtySnapshot _ _).1 hp).1) hb hd ha hc).2
  · intro op k e hb hd ha
    cases op with
    | put key buf env =>
      simp only [Shard.step] at ha
      rw [Shard.Put_find] at ha
      have ha' : (s.Get f key env).shard.m.find k = none := by
        split at ha
        · cases hg : (s.Get f key env).shard.m.find k with
          | none => rfl
          | some e₁ => rw [hg] at ha; cases ha
        · exact ha
      obtain ⟨h1, h2, h3', h4⟩ := Shard.Get_find_none s f key env hb ha'
      exact ⟨key, env, Or.inr ⟨buf, rfl⟩, h1, h2, h3', (h4 hd).1, (h4 hd).2⟩
    | get key env =>
      simp only [Shard.step] at ha
      obtain ⟨h1, h2, h3', h4⟩ := Shard.Get_find_none s f key env hb ha
      exact ⟨key, env, Or.inl rfl, h1, h2, h3', (h4 hd).1, (h4 hd).2⟩
    | flush ws =>
      exfalso
      simp only [Shard.step] at ha
      have hk : k ∈ Table.keys s.m :=
        (Table.mem_keys s.m k).2 ⟨e, Table.mem_of_find hb⟩
      rw [← Shard.Flush_keys s f ws] at hk
      exact ((Table.find_eq_none_iff _ _).1 ha) hk

/-- Witness of claim C6: the page of `Shard.oneDirty` is dirty after a put on its
key. -/
theorem C6_dirty_life_cycle_witness :
    (Table.keys Shard.oneDirty.m).Nodup ∧
    ∃ e, (Shard.oneDirty.Put [] 0 PageBuf.zero GetEnv.ok).shard.m.find 0 = some e ∧
      e.isDirty = true :=
  ⟨by decide,
    (C6_dirty_life_cycle Shard.oneDirty [] (by decide)).2.2.1 0 PageBuf.zero GetEnv.ok
      (by decide)⟩

/-- Claim C7. Eviction write-back: when `Shard::Get` succeeds on a key that is not
resident, in a shard at capacity whose first entry in iteration order `(k, v)`
is dirty, the call issues exactly two system calls, in this order: a write of
the whole page of `v` at offset `k` that returns `pageSize`, then the read at
the key.  The file after the eviction, which is the file the read sees and
the file after the call, holds the page of `v` at `k`; the victim is gone
from the table, and the new entry, built from that file, is added to what is
left. -/
theorem C7_eviction_write_back (s : Shard) (f : File) (key : Int) (env : GetEnv)
    (k : Int) (v : Entry) (rest : Table) (e : Entry)
    (hmiss : s.m.find key = none) (hcap : s.atCapacity = true)
    (hm : s.m = (k, v) :: rest) (hd : v.isDirty = true)
    (hret : (s.Get f key env).ret = some e) :
    ∃ n : Int,
      (s.Get f key env).trace = [.pwrite k v.val.1 (pageSize : Int), .pread key n] ∧
      0 ≤ k ∧
      (s.makeRoom f env.evict).m = rest ∧
      (s.makeRoom f env.evict).file = f.writeAt k.toNat v.val.1 ∧
      (s.makeRoom f env.evict).file.pageAt k.toNat = v.val.1 ∧
      (((s.makeRoom f env.evict).file.drop k.toNat).take pageSize) = v.val.1 ∧
      (s.Get f key env).file = (s.makeRoom f env.evict).file ∧
      e = (loadEntry (s.makeRoom f env.evict).file key env.load).2 ∧
      (s.Get f key env).shard.m = Table.assign rest key e env.slot := by
  have hev : (s.makeRoom f env.evict).ret = true := by
    cases h : (s.makeRoom f env.evict).ret with
    | true => rfl
    | false =>
      have := Shard.Get_evict_fail s f key env hmiss h
      rw [this] at hret; cases hret
  have hw : (pwrite f v.val k env.evict).1 = (pageSize : Int) := by
    by_contra hne
    have := (Shard.makeRoom_ret_false_iff s f env.evict).2 ⟨hcap, k, v, rest, hm, hd, hne⟩
    rw [this] at hev; cases hev
  have hmr : s.makeRoom f env.evict =
      { ret := true, m := rest, file := (pwrite f v.val k env.evict).2,
        trace := [.pwrite k v.val.1 (pwrite f v.val k env.evict).1] } := by
    rw [Shard.makeRoom_atCapacity s f env.evict hcap, hm]
    exact evictOneLocked_dirty_ok k v rest f env.evict hd hw
  obtain ⟨hk, hfile, hpage, htd⟩ := pwrite_full f v.val k env.evict hw
  have hl : ¬ (loadEntry (s.makeRoom f env.evict).file key env.load).1 < 0 := by
    intro hl
    have := Shard.Get_load_fail s f key env hmiss hev hl
    rw [this] at hret; cases hret
  have hg := Shard.Get_load_ok s f key env hmiss hev hl
  have he : e = (loadEntry (s.makeRoom f env.evict).file key env.load).2 := by
    rw [hg] at hret; simpa using hret.symm
  refine ⟨(loadEntry (s.makeRoom f env.evict).file key env.load).1, ?_, hk, ?_, ?_, ?_, ?_,
    ?_, he, ?_⟩
  · rw [hg, hmr, hw]; rfl
  · rw [hmr]
  · rw [hmr]; exact hfile
  · rw [hmr]; exact hpage
  · rw [hmr]; exact htd
  · rw [hg]
  · rw [hg, ← he, hmr]
    exact Shard.insertEntry_after_erase s (k, v) rest key e env hm hmiss

/-- Witness of claim C7: a full shard of capacity 1 holding a dirty page at key 0;
the page is in the file once `Shard::Get` has returned the entry for key
4096. -/
theorem C7_eviction_write_back_witness :
    (Shard.oneDirty.makeRoom [] GetEnv.ok.evict).file.pageAt 0 = (PageBuf.fill 7).1 ∧
    (Shard.oneDirty.makeRoom [] GetEnv.ok.evict).m = [] :=
  have hev : (Shard.oneDirty.makeRoom [] GetEnv.ok.evict).ret = true :=
    Shard.makeRoom_full Shard.oneDirty [] (by
      intro k v rest hm
      simp only [Shard.oneDirty, List.cons.injEq, Prod.mk.injEq] at hm
      omega)
  have hl : ¬ (loadEntry (Shard.oneDirty.makeRoom [] GetEnv.ok.evict).file 4096
      GetEnv.ok.load).1 < 0 := by
    rw [loadEntry_fst_neg_iff]; decide
  have hret : (Shard.oneDirty.Get [] 4096 GetEnv.ok).ret =
      some (loadEntry (Shard.oneDirty.makeRoom [] GetEnv.ok.evict).file 4096
        GetEnv.ok.load).2 := by
    rw [Shard.Get_load_ok Shard.oneDirty [] 4096 GetEnv.ok (by decide) hev hl]
  have h := C7_eviction_write_back Shard.oneDirty [] 4096 GetEnv.ok 0
    { key := 0, val := PageBuf.fill 7, isDirty := true } [] _
    (by decide) (by decide) rfl rfl hret
  h.elim fun _ hn => ⟨hn.2.2.2.2.1, hn.2.2.1⟩

/-- Claim C8. Eviction failure is atomic: when `Shard::Get` misses on a shard at
capacity whose first entry in iteration order is dirty and the write-back of
that entry does not return `pageSize`, `Shard::Get` returns `nullptr` and
`Shard::Put` returns `false`, the only system call issued is that write (no
read), and the shard - capacity and page table - is exactly as before; in a
well-formed pool that routes the key to this shard, `BufferPool::Put` and
`BufferPool::Get` return `false`, leave every shard as it was, and `Get`
leaves the caller's buffer as it was. -/
theorem C8_eviction_failure_atomic (s : Shard) (f : File) (key : Int) (env : GetEnv)
    (k : Int) (v : Entry) (rest : Table) (p buf : PageBuf)
    (hmiss : s.m.find key = none) (hcap : s.atCapacity = true)
    (hm : s.m = (k, v) :: rest) (hd : v.isDirty = true)
    (hw : (pwrite f v.val k env.evict).1 ≠ (pageSize : Int)) :
    (s.Get f key env).ret = none ∧
    (s.Get f key env).shard = s ∧
    (s.Get f key env).trace = [.pwrite k v.val.1 (pwrite f v.val k env.evict).1] ∧
    (s.Put f key p env).ret = false ∧
    (s.Put f key p env).shard = s ∧
    (s.Put f key p env).trace = [.pwrite k v.val.1 (pwrite f v.val k env.evict).1] ∧
    (∀ bp : BufferPool, bp.WF → bp.file = f →
      bp.shards[BufferPool.hash key % bp.nShards.toNat]? = some s →
      (∃ r, bp.Put p key env = some r ∧ r.ret = false ∧ r.pool.shards = bp.shards) ∧
      (∃ r, bp.Get buf key env = some r ∧ r.ret = false ∧ r.pool.shards = bp.shards ∧
        r.buf = buf)) := by
  have hev : (s.makeRoom f env.evict).ret = false :=
    (Shard.makeRoom_ret_false_iff s f env.evict).2 ⟨hcap, k, v, rest, hm, hd, hw⟩
  have hmr : s.makeRoom f env.evict =
      { ret := false, m := (k, v) :: rest, file := (pwrite f v.val k env.evict).2,
        trace := [.pwrite k v.val.1 (pwrite f v.val k env.evict).1] } := by
    rw [Shard.makeRoom_atCapacity s f env.evict hcap, hm]
    exact evictOneLocked_dirty_fail k v rest f env.evict hd hw
  have hg := Shard.Get_evict_fail s f key env hmiss hev
  have hret : (s.Get f key env).ret = none := by rw [hg]
  have hsh : (s.Get f key env).shard = s := by
    rw [hg, hmr]; simp only; rw [← hm]
  have htr : (s.Get f key env).trace = [.pwrite k v.val.1 (pwrite f v.val k env.evict).1] := by
    rw [hg, hmr]
  have hput := Shard.Put_of_none s f key p env hret
  refine ⟨hret, hsh, htr, ?_, ?_, ?_, ?_⟩
  · rw [hput]
  · rw [hput]; exact hsh
  · rw [hput]; exact htr
  · intro bp hwf hfile hidx
    obtain ⟨hid, hlt⟩ := BufferPool.shardId_of_WF bp hwf key
    obtain ⟨sh, hsh', hP⟩ := BufferPool.Put_of_WF bp hwf p key env
    obtain ⟨sh₂, hsh₂, hG⟩ := BufferPool.Get_of_WF bp hwf buf key env
    rw [hidx] at hsh' hsh₂
    simp only [Option.some.injEq] at hsh' hsh₂
    subst hsh' hsh₂
    subst hfile
    have hset : bp.shards.set (BufferPool.hash key % bp.nShards.toNat) s = bp.shards := by
      apply List.ext_getElem?
      intro i
      by_cases hi : BufferPool.hash key % bp.nShards.toNat = i
      · subst hi; rw [List.getElem?_set_self hlt, hidx]
      · rw [List.getElem?_set_ne hi]
    constructor
    · refine ⟨_, hP, ?_, ?_⟩
      · simp only; rw [hput]
      · simp only; rw [hput]; simp only; rw [hsh, hset]
    · refine ⟨_, hG, ?_, ?_, ?_⟩
      · simp only [hret]; rfl
      · simp only [hsh, hset]
      · simp only [hret]

/-- Witness of claim C8: a full shard of capacity 1 whose dirty page cannot be
written back. -/
theorem C8_eviction_failure_atomic_witness :
    (Shard.oneDirty.Get [] 4096 GetEnv.evictFails).ret = none ∧
    (Shard.oneDirty.Get [] 4096 GetEnv.evictFails).shard = Shard.oneDirty ∧
    (Shard.oneDirty.Get [] 4096 GetEnv.evictFails).trace =
      [.pwrite 0 (PageBuf.fill 7).1 (-1)] :=
  have h := C8_eviction_failure_atomic Shard.oneDirty [] 4096 GetEnv.evictFails 0
    { key := 0, val := PageBuf.fill 7, isDirty := true } [] PageBuf.zero PageBuf.zero
    (by decide) (by decide) rfl rfl (by decide)
  ⟨h.1, h.2.1, h.2.2.1⟩

/-- Claim C9. Failure exactly on load or evict failure: `Shard::Put` returns `false`
exactly when `Shard::Get` returns `nullptr`, and that happens exactly when the
key is not resident and either (a) the shard is at capacity, the first entry
in iteration order is dirty and its write-back does not return `pageSize`, or
(b) the read of the page at the key returns a negative value; a call on a
resident key never fails; and in a well-formed pool that routes the key to
this shard `BufferPool::Put` and `BufferPool::Get` return `false` in exactly
the same cases. -/
theorem C9_failure_iff (s : Shard) (f : File) (key : Int) (p buf : PageBuf) (env : GetEnv) :
    ((s.Put f key p env).ret = false ↔ (s.Get f key env).ret = none) ∧
    ((s.Get f key env).ret = none ↔
      (s.m.find key = none ∧
        ((s.atCapacity = true ∧ ∃ k v rest, s.m = (k, v) :: rest ∧ v.isDirty = true ∧
            (pwrite f v.val k env.evict).1 ≠ (pageSize : Int)) ∨
          (pread (s.Get f key env).file Entry.init.val key env.load).1 < 0))) ∧
    (s.m.find key ≠ none → (s.Get f key env).ret ≠ none ∧ (s.Put f key p env).ret = true) ∧
    (∀ bp : BufferPool, bp.WF → bp.file = f →
      bp.shards[BufferPool.hash key % bp.nShards.toNat]? = some s →
      ((bp.Put p key env).map (fun r => r.ret) = some (s.Get f key env).ret.isSome) ∧
      ((bp.Get buf key env).map (fun r => r.ret) = some (s.Get f key env).ret.isSome)) := by
  have hput : (s.Put f key p env).ret = false ↔ (s.Get f key env).ret = none := by
    rw [Shard.Put_ret]
    cases (s.Get f key env).ret <;> simp
  have hget : (s.Get f key env).ret = none ↔
      (s.m.find key = none ∧
        ((s.atCapacity = true ∧ ∃ k v rest, s.m = (k, v) :: rest ∧ v.isDirty = true ∧
            (pwrite f v.val k env.evict).1 ≠ (pageSize : Int)) ∨
          (pread (s.Get f key env).file Entry.init.val key env.load).1 < 0)) := by
    rw [Shard.Get_ret_none_iff, Shard.makeRoom_ret_false_iff]
    constructor
    · rintro ⟨hf, h⟩
      rw [Shard.Get_file_of_miss s f key env hf]
      exact ⟨hf, h⟩
    · rintro ⟨hf, h⟩
      rw [Shard.Get_file_of_miss s f key env hf] at h
      exact ⟨hf, h⟩
  refine ⟨hput, hget, ?_, ?_⟩
  · intro hres
    have hne : (s.Get f key env).ret ≠ none := fun h => hres (hget.1 h).1
    refine ⟨hne, ?_⟩
    cases hr : (s.Put f key p env).ret with
    | true => rfl
    | false => exact absurd (hput.1 hr) hne
  · intro bp hwf hfile hidx
    obtain ⟨sh, hsh', hP⟩ := BufferPool.Put_of_WF bp hwf p key env
    obtain ⟨sh₂, hsh₂, hG⟩ := BufferPool.Get_of_WF bp hwf buf key env
    rw [hidx] at hsh' hsh₂
    simp only [Option.some.injEq] at hsh' hsh₂
    subst hsh' hsh₂
    subst hfile
    exact ⟨by rw [hP]; simp [Shard.Put_ret], by rw [hG]; simp⟩

/-- Witness of claim C9: on a full shard of capacity 1 holding a dirty page, a miss
fails when the write-back fails and when the read fails, and a hit does not
fail. -/
theorem C9_failure_iff_witness :
    (Shard.oneDirty.Get [] 4096 GetEnv.evictFails).ret = none ∧
    (Shard.oneDirty.Put [] 4096 PageBuf.zero GetEnv.loadFails).ret = false ∧
    (Shard.oneDirty.Get [] 0 GetEnv.loadFails).ret ≠ none :=
  ⟨(C9_failure_iff Shard.oneDirty [] 4096 PageBuf.zero PageBuf.zero GetEnv.evictFails).2.1.2
      ⟨by decide, Or.inl ⟨by decide, 0, _, [], rfl, rfl, by decide⟩⟩,
    (C9_failure_iff Shard.oneDirty [] 4096 PageBuf.zero PageBuf.zero GetEnv.loadFails).1.2
      ((C9_failure_iff Shard.oneDirty [] 4096 PageBuf.zero PageBuf.zero GetEnv.loadFails).2.1.2
        ⟨by decide, Or.inr (by decide)⟩),
    ((C9_failure_iff Shard.oneDirty [] 0 PageBuf.zero PageBuf.zero GetEnv.loadFails).2.2.1
      (by decide)).1⟩

/-- Claim C10, as stated, fails: in the state `Shard.afterOverlap`, reached with
calls that all succeed in full, the two resident keys 8192 and 0 do not
overlap and `Shard::Flush` issues no write at all, yet the entry resident at
key 0 is not dirty and its page differs from the bytes of the file at offset
0 after the flush. -/
theorem C10_flush_postcondition_counterexample :
    Shard.afterOverlap.1.m.NoOverlap ∧
    (∀ ev ∈ (Shard.afterOverlap.1.Flush Shard.afterOverlap.2 flushOk).trace,
      ev.ret = (pageSize : Int)) ∧
    ∃ e, (0, e) ∈ (Shard.afterOverlap.1.Flush Shard.afterOverlap.2 flushOk).shard.m ∧
      (Shard.afterOverlap.1.Flush Shard.afterOverlap.2 flushOk).file.pageAt 0 ≠ e.val.1 := by
  refine ⟨?_, ?_, ?_⟩
  · unfold Table.NoOverlap Disjoint; decide!
  · decide!
  · have h : ((Shard.afterOverlap.1.Flush Shard.afterOverlap.2 flushOk).shard.m.find 0).map
        (fun e => decide ((Shard.afterOverlap.1.Flush Shard.afterOverlap.2 flushOk).file.pageAt 0
          = e.val.1)) = some false := by decide!
    cases hf : (Shard.afterOverlap.1.Flush Shard.afterOverlap.2 flushOk).shard.m.find 0 with
    | none => rw [hf] at h; cases h
    | some e =>
      rw [hf] at h
      simp only [Option.map_some', Option.some.injEq, decide_eq_false_iff_not] at h
      exact ⟨e, Table.mem_of_find hf, h⟩

/-- Claim C10, amended. Flush postcondition: for every shard state whose resident
keys have pairwise non-overlapping byte ranges, if every write issued by
`Shard::Flush` returns `pageSize` then after the call no resident entry is
dirty; the keys, key fields and page bytes of the table are unchanged, in the
same order; for every entry that was dirty the key is not negative and the
bytes of the file at the key equal the entry's page; and the bytes of the
file at the key of an entry that was not dirty are what they were before the
call. -/
theorem C10_flush_postcondition (s : Shard) (f : File) (ws : Nat → IOOutcome)
    (hno : s.m.NoOverlap)
    (hw : ∀ ev ∈ (s.Flush f ws).trace, ev.ret = (pageSize : Int)) :
    (∀ k e, (k, e) ∈ (s.Flush f ws).shard.m → e.isDirty = false) ∧
    Table.pages (s.Flush f ws).shard.m = Table.pages s.m ∧
    (∀ k e, (k, e) ∈ s.m → e.isDirty = true →
      0 ≤ k ∧ (s.Flush f ws).file.pageAt k.toNat = e.val.1) ∧
    (∀ k e, (k, e) ∈ s.m → e.isDirty = false → 0 ≤ k →
      (s.Flush f ws).file.pageAt k.toNat = f.pageAt k.toNat) := by
  have hnd := hno.nodup_keys
  have hpages := Shard.Flush_pages s f ws
  have hnd' : (Table.keys (s.Flush f ws).shard.m).Nodup := by
    rw [Shard.Flush_keys]; exact hnd
  have hclean : ∀ k e, (k, e) ∈ (s.Flush f ws).shard.m → e.isDirty = false := by
    apply flushLoop_all_clean ws (dirtySnapshot s.m) { m := s.m, file := f, trace := [] } hnd
    · intro k e hmem hd
      exact (mem_dirtySnapshot s.m (k, k)).2 ⟨rfl, e, hmem, hd⟩
    · exact hw
  refine ⟨hclean, hpages, ?_, ?_⟩
  · intro k e hmem hd
    obtain ⟨e', hmem', -, hval⟩ := (Table.mem_pages _ k e.key e.val).1
      (hpages ▸ (Table.mem_pages s.m k e.key e.val).2 ⟨e, hmem, rfl, rfl⟩)
    have hc := hclean k e' hmem'
    have hk : 0 ≤ k :=
      (flushLoop_cleaned ws (dirtySnapshot s.m) { m := s.m, file := f, trace := [] } k e e'
        (fun p hp => ((mem_dirtySnapshot _ _).1 hp).1) (Table.find_of_mem hnd hmem) hd
        (Table.find_of_mem hnd' hmem') hc).1
    refine ⟨hk, ?_⟩
    have hmir := Shard.Flush_mirrors (fun k => ∃ e, (k, e) ∈ s.m ∧ e.isDirty = true) s f ws hno
      (by
        intro k₁ e₁ hmem₁ hG hc₁ _
        obtain ⟨e₂, hmem₂, hd₂⟩ := hG
        have h1 := Table.find_of_mem hnd hmem₁
        rw [Table.find_of_mem hnd hmem₂] at h1
        simp only [Option.some.injEq] at h1
        rw [h1, hc₁] at hd₂; cases hd₂)
    rw [hmir k e' hmem' ⟨e, hmem, hd⟩ hc hk, hval]
  · intro k e hmem hc hk
    apply flushLoop_file_pageAt ws (dirtySnapshot s.m) { m := s.m, file := f, trace := [] } k hk
    intro p hp
    obtain ⟨-, e₁, hmem₁, hd₁⟩ := (mem_dirtySnapshot _ _).1 hp
    apply hno.disjoint hmem₁ hmem
    intro heq
    have h1 := Table.find_of_mem hnd hmem₁
    rw [heq, Table.find_of_mem hnd hmem] at h1
    simp only [Option.some.injEq] at h1
    rw [h1, hd₁] at hc; cases hc

/-- Witness of claim C10: one dirty page at key 0, flushed to an empty file. -/
theorem C10_flush_postcondition_witness :
    (Shard.oneDirty.Flush [] flushOk).file.pageAt 0 = (PageBuf.fill 7).1 ∧
    (∀ k e, (k, e) ∈ (Shard.oneDirty.Flush [] flushOk).shard.m → e.isDirty = false) :=
  have h := C10_flush_postcondition Shard.oneDirty [] flushOk
    (by unfold Table.NoOverlap Shard.oneDirty; exact List.pairwise_singleton _ _)
    (by decide!)
  ⟨(h.2.2.1 0 { key := 0, val := PageBuf.fill 7, isDirty := true }
      (List.mem_singleton.2 rfl) rfl).2, h.1⟩

/-- Claim C11. Flush is best-effort: for every shard state and every outcome of
the writes `Shard::Flush` returns `true` and leaves the keys, key fields and
page bytes of the table as they were; when the keys are distinct it issues
exactly one write per dirty entry, in iteration order, whatever the results of
the other writes; an entry whose write did not return `pageSize` is resident
after the call and is as it was, dirty with the same page; an entry whose
write returned `pageSize` is the same but for its dirty flag; an entry that
was not dirty is as it was. -/
theorem C11_flush_best_effort (s : Shard) (f : File) (ws : Nat → IOOutcome) :
    (s.Flush f ws).ret = true ∧
    Table.pages (s.Flush f ws).shard.m = Table.pages s.m ∧
    ((Table.keys s.m).Nodup →
      (s.Flush f ws).trace.map IOEvent.off =
        (s.m.filter (fun p => p.2.isDirty)).map Prod.fst ∧
      (∀ ev ∈ (s.Flush f ws).trace, ev.isWrite = true) ∧
      (∀ k e, (k, e) ∈ s.m → e.isDirty = true →
        ∃ r, IOEvent.pwrite k e.val.1 r ∈ (s.Flush f ws).trace ∧
          (r ≠ (pageSize : Int) → (s.Flush f ws).shard.m.find k = some e) ∧
          (r = (pageSize : Int) →
            (s.Flush f ws).shard.m.find k = some { e with isDirty := false })) ∧
      (∀ k e, (k, e) ∈ s.m → e.isDirty = false →
        (s.Flush f ws).shard.m.find k = some e)) :=
  ⟨rfl, Shard.Flush_pages s f ws, fun hnd => Shard.Flush_writes s f ws hnd⟩

/-- Witness of claim C11: the only write of a flush of `Shard.oneDirty` fails and
the entry stays dirty. -/
theorem C11_flush_best_effort_witness :
    (Shard.oneDirty.Flush [] flushFails).ret = true ∧
    ∃ r, IOEvent.pwrite 0 (PageBuf.fill 7).1 r ∈ (Shard.oneDirty.Flush [] flushFails).trace ∧
      (r ≠ (pageSize : Int) → (Shard.oneDirty.Flush [] flushFails).shard.m.find 0 =
        some { key := 0, val := PageBuf.fill 7, isDirty := true }) :=
  have h := C11_flush_best_effort Shard.oneDirty [] flushFails
  ⟨h.1, (((h.2.2 (by decide)).2.2.1 0 { key := 0, val := PageBuf.fill 7, isDirty := true }
    (List.mem_singleton.2 rfl) rfl).imp fun _ hr => ⟨hr.1, hr.2.1⟩)⟩

/-- Claim C12. Flush idempotence: for every shard state with distinct keys, two
calls of `Shard::Flush` in a row, whatever the outcomes of their writes,
issue together at most one write with return value `pageSize` at each key;
and when every write of the first call returned `pageSize` the second call
issues no write and leaves the shard and the file exactly as the first call
left them. -/
theorem C12_flush_idempotence (s : Shard) (f : File) (ws ws' : Nat → IOOutcome)
    (hnd : (Table.keys s.m).Nodup) :
    (∀ k, (fullWritesAt ((s.Flush f ws).trace ++
        ((s.Flush f ws).shard.Flush (s.Flush f ws).file ws').trace) k).length ≤ 1) ∧
    ((∀ ev ∈ (s.Flush f ws).trace, ev.ret = (pageSize : Int)) →
      ((s.Flush f ws).shard.Flush (s.Flush f ws).file ws').trace = [] ∧
      ((s.Flush f ws).shard.Flush (s.Flush f ws).file ws').shard = (s.Flush f ws).shard ∧
      ((s.Flush f ws).shard.Flush (s.Flush f ws).file ws').file = (s.Flush f ws).file) := by
  have hnd₁ : (Table.keys (s.Flush f ws).shard.m).Nodup := by
    rw [Shard.Flush_keys]; exact hnd
  obtain ⟨hoff, -, hdirty, -⟩ := Shard.Flush_writes s f ws hnd
  obtain ⟨hoff', -, -, -⟩ :=
    Shard.Flush_writes (s.Flush f ws).shard (s.Flush f ws).file ws' hnd₁
  have hn₁ : ((s.Flush f ws).trace.map IOEvent.off).Nodup := by
    rw [hoff]; exact dirtyKeys_nodup s.m hnd
  have hn₂ : (((s.Flush f ws).shard.Flush (s.Flush f ws).file ws').trace.map
      IOEvent.off).Nodup := by
    rw [hoff']; exact dirtyKeys_nodup _ hnd₁
  constructor
  · intro k
    rw [fullWritesAt_append, List.length_append]
    have h₁ := length_fullWritesAt_le_one _ k hn₁
    have h₂ := length_fullWritesAt_le_one _ k hn₂
    by_cases hx : fullWritesAt (s.Flush f ws).trace k = []
    · rw [hx]; simpa using h₂
    · have hy : fullWritesAt ((s.Flush f ws).shard.Flush (s.Flush f ws).file ws').trace k
          = [] := by
        apply List.eq_nil_iff_forall_not_mem.2
        intro y hy
        obtain ⟨x, hxm⟩ := List.exists_mem_of_ne_nil _ hx
        obtain ⟨hx1, -, hx2, hx3⟩ := (mem_fullWritesAt _ k x).1 hxm
        obtain ⟨hy1, -, hy2, -⟩ := (mem_fullWritesAt _ k y).1 hy
        -- the entry at `k` was dirty before the first call
        have hk : k ∈ (s.m.filter (fun p => p.2.isDirty)).map Prod.fst := by
          rw [← hoff, ← hx2]; exact List.mem_map_of_mem _ hx1
        obtain ⟨⟨k₀, e⟩, hmem, hk₀⟩ := List.mem_map.1 hk
        simp only [List.mem_filter] at hmem
        simp only at hk₀
        subst hk₀
        obtain ⟨r, hev, -, hok⟩ := hdirty k₀ e hmem.1 hmem.2
        have hxe : x = IOEvent.pwrite k₀ e.val.1 r :=
          List.inj_on_of_nodup_map hn₁ hx1 hev (by rw [hx2]; rfl)
        have hr : r = (pageSize : Int) := by rw [hxe] at hx3; exact hx3
        have hclean := hok hr
        -- and it is dirty after it
        have hk' : k₀ ∈ (((s.Flush f ws).shard.m).filter (fun p => p.2.isDirty)).map
            Prod.fst := by
          rw [← hoff', ← hy2]; exact List.mem_map_of_mem _ hy1
        obtain ⟨⟨k₁, e₁⟩, hmem₁, hk₁⟩ := List.mem_map.1 hk'
        simp only [List.mem_filter] at hmem₁
        simp only at hk₁
        subst hk₁
        have := Table.find_of_mem hnd₁ hmem₁.1
        rw [hclean] at this
        simp only [Option.some.injEq] at this
        have hd := hmem₁.2
        rw [← this] at hd
        cases hd
      rw [hy]; simpa using h₁
  · intro hw
    have hc := Shard.Flush_all_clean s f ws hnd hw
    rw [Shard.Flush_of_clean _ _ ws' hc]
    exact ⟨rfl, rfl, rfl⟩

/-- Witness of claim C12: after a flush of `Shard.oneDirty` that succeeds a
second flush issues no write. -/
theorem C12_flush_idempotence_witness :
    ((Shard.oneDirty.Flush [] flushOk).shard.Flush (Shard.oneDirty.Flush [] flushOk).file
      flushFails).trace = [] :=
  ((C12_flush_idempotence Shard.oneDirty [] flushOk flushFails (by decide)).2
    (by decide!)).1

/-- Claim C13, evaluated on an interleaving the code allows.  A shard of capacity 1
holds one entry at key 0.  A first caller runs `Shard::Get(0)`: a hit, it
receives the pointer to that entry and `mu_` is released.  Before it locks
the entry a second caller runs `Shard::Get(4096)`: a miss at capacity, the
entry at key 0 is written back and erased from the table, which owns it.
When the first caller goes on, no entry is stored under key 0: its pointer
designates an entry that has been destroyed. -/
theorem C13_reference_outlives_entry :
    (Shard.oneDirty.Get [] 0 GetEnv.ok).ret =
      some { key := 0, val := PageBuf.fill 7, isDirty := true } ∧
    (((Shard.oneDirty.Get [] 0 GetEnv.ok).shard.Get (Shard.oneDirty.Get [] 0 GetEnv.ok).file
      4096 GetEnv.ok).ret.isSome = true) ∧
    ((Shard.oneDirty.Get [] 0 GetEnv.ok).shard.Get (Shard.oneDirty.Get [] 0 GetEnv.ok).file
      4096 GetEnv.ok).shard.m.find 0 = none := by
  refine ⟨rfl, ?_, ?_⟩
  · decide!
  · decide!

/-- Claim C14, evaluated.  `BufferPool::Get` reads the page under the shared lock of
the entry, and `Shard::Put` and both loops of `Shard::Flush` touch the page
and the dirty flag under its exclusive lock; but `Shard::evictOneLocked`, on
a table whose first entry is dirty, reads the dirty flag and the page of that
entry without taking its lock at all. -/
theorem C14_eviction_takes_no_entry_lock :
    underLock .shared (BufferPool.getSteps 0) [] = true ∧
    underLock .exclusive (Shard.putSteps 0) [] = true ∧
    underLock .exclusive (Shard.flushSnapshotSteps Shard.oneDirty.m) [] = true ∧
    underLock .exclusive (Shard.flushWriteSteps 0
      { key := 0, val := PageBuf.fill 7, isDirty := true } (pageSize : Int)) [] = true ∧
    evictSteps Shard.oneDirty.m = [.readDirty 0, .readVal 0] ∧
    underLock .shared (evictSteps Shard.oneDirty.m) [] = false ∧
    underLock .exclusive (evictSteps Shard.oneDirty.m) [] = false := by
  refine ⟨by decide, by decide, by decide, by decide, by decide, by decide, by decide⟩

/-- Claim C15, as stated, fails in its second sentence: a miss below capacity
whose read fails adds no entry.  On an empty shard of capacity 2,
`Shard::Get(-4096)`, whose read is refused as the offset is negative, and
`Shard::Get(0)` with a read that the system fails, are misses below capacity;
both return `nullptr` and leave the table without an entry, so its size has
not grown by one. -/
theorem C15_eviction_step_counterexample :
    ((Shard.new 2).m.length : Int) < (Shard.new 2).maxEntriesPerShard ∧
    (Shard.new 2).m.find (-4096) = none ∧
    ((Shard.new 2).Get [] (-4096) GetEnv.ok).ret = none ∧
    ((Shard.new 2).Get [] (-4096) GetEnv.ok).shard.m.length = 0 ∧
    ((Shard.new 2).Get [] (-4096) GetEnv.ok).shard.m.length ≠ (Shard.new 2).m.length + 1 ∧
    (Shard.new 2).m.find 0 = none ∧
    ((Shard.new 2).Get [] 0 GetEnv.loadFails).ret = none ∧
    ((Shard.new 2).Get [] 0 GetEnv.loadFails).shard.m.length = 0 ∧
    ((Shard.new 2).Get [] 0 GetEnv.loadFails).shard.m.length ≠ (Shard.new 2).m.length + 1 := by
  refine ⟨by decide, by decide, by decide, by decide, by decide, by decide, by decide,
    by decide, by decide⟩

/-- Claim C15, amended. Eviction step, for a miss of `Shard::Get` in a shard whose
capacity is an `int`.
If the capacity is at least 1 and the table holds exactly that many entries,
and the call returns an entry `e`: the old table is `(k, v) :: rest`, its
first element in iteration order is gone, and the new table is `rest` with
`(key, e)` added at the place the hash table chose - the same number of
entries, the key resident, and every other old element in it as it was.
If the table holds fewer entries than the capacity: the call returns `nullptr`
exactly when the read at the key returns a negative value, and then the table
is as it was; when the call returns an entry `e`, the new table holds
`(key, e)` and the old elements, in an order that the insertion may have
changed - nothing removed, one entry more, every other key with the entry it
had. -/
theorem C15_eviction_step (s : Shard) (f : File) (key : Int) (env : GetEnv)
    (hint : s.maxEntriesPerShard ≤ intMax) (hmiss : s.m.find key = none) :
    ((1 ≤ s.maxEntriesPerShard ∧ (s.m.length : Int) = s.maxEntriesPerShard) →
      ∀ e, (s.Get f key env).ret = some e →
        ∃ k v rest, s.m = (k, v) :: rest ∧
          (s.Get f key env).shard.m = rest.take env.slot ++ (key, e) :: rest.drop env.slot ∧
          (s.Get f key env).shard.m.length = s.m.length ∧
          (s.Get f key env).shard.m.find key = some e ∧
          (∀ p, p ∈ (s.Get f key env).shard.m ↔ p = (key, e) ∨ p ∈ rest)) ∧
    ((s.m.length : Int) < s.maxEntriesPerShard →
      ((s.Get f key env).ret = none ↔ (loadEntry f key env.load).1 < 0) ∧
      ((s.Get f key env).ret = none → (s.Get f key env).shard.m = s.m) ∧
      (∀ e, (s.Get f key env).ret = some e →
        (s.Get f key env).shard.m.Perm ((key, e) :: s.m) ∧
        (s.Get f key env).shard.m.length = s.m.length + 1 ∧
        (s.Get f key env).shard.m.find key = some e ∧
        (∀ k, k ≠ key → (s.Get f key env).shard.m.find k = s.m.find k) ∧
        (∀ p, p ∈ (s.Get f key env).shard.m ↔ p = (key, e) ∨ p ∈ s.m))) := by
  have hnone := Shard.makeRoom_find_none s f env.evict key hmiss
  have hsome : ∀ e, (s.Get f key env).ret = some e →
      (s.Get f key env).shard.m = s.insertEntry (s.makeRoom f env.evict).m key e env := by
    intro e hret
    have hev : (s.makeRoom f env.evict).ret = true := by
      cases h : (s.makeRoom f env.evict).ret with
      | true => rfl
      | false => rw [Shard.Get_evict_fail s f key env hmiss h] at hret; cases hret
    have hl : ¬ (loadEntry (s.makeRoom f env.evict).file key env.load).1 < 0 := by
      intro hl
      rw [Shard.Get_load_fail s f key env hmiss hev hl] at hret; cases hret
    have hg := Shard.Get_load_ok s f key env hmiss hev hl
    have he : (loadEntry (s.makeRoom f env.evict).file key env.load).2 = e := by
      rw [hg] at hret; simpa using hret
    rw [hg, he]
  constructor
  · rintro ⟨h1, hlen⟩ e hret
    have hfind := Shard.Get_find_of_ret s f key env e hret
    have hcap := Shard.atCapacity_of_length_eq s hint hlen
    have htab : (s.makeRoom f env.evict).m = s.m.tail := by
      rcases Shard.makeRoom_table s f env.evict with ⟨-, h2⟩ | ⟨h1, -⟩
      · rw [h2, hcap]; rfl
      · rw [Shard.Get_evict_fail s f key env hmiss h1] at hret; cases hret
    cases hs : s.m with
    | nil => rw [hs] at hlen; simp only [List.length_nil] at hlen; omega
    | cons p rest =>
      have hm : (s.Get f key env).shard.m =
          rest.take env.slot ++ (key, e) :: rest.drop env.slot := by
        rw [hsome e hret, htab, hs, List.tail_cons,
          Shard.insertEntry_after_erase s p rest key e env hs hmiss]
        rw [hs] at hmiss
        exact Table.assign_of_find_none rest key e env.slot
          (Table.find_tail_none (p :: rest) key hmiss)
      refine ⟨p.1, p.2, rest, rfl, hm, ?_, hfind, ?_⟩
      · rw [hm, Table.length_insert]; rfl
      · intro q; rw [hm]; exact Table.mem_insert rest (key, e) q env.slot
  · intro hlen
    have hcap := Shard.atCapacity_of_length_lt s hint hlen
    have hmr := Shard.makeRoom_below s f env.evict hcap
    have hiff : (s.Get f key env).ret = none ↔ (loadEntry f key env.load).1 < 0 := by
      rw [Shard.Get_ret_none_iff, hmr]
      simp [hmiss]
    refine ⟨hiff, ?_, ?_⟩
    · intro hret
      have hl := hiff.1 hret
      have hev : (s.makeRoom f env.evict).ret = true := by rw [hmr]
      have hl' : (loadEntry (s.makeRoom f env.evict).file key env.load).1 < 0 := by
        rw [hmr]; exact hl
      rw [Shard.Get_load_fail s f key env hmiss hev hl', hmr]
    · intro e hret
      have hfind := Shard.Get_find_of_ret s f key env e hret
      have hm := hsome e hret
      rw [hmr] at hm
      change (s.Get f key env).shard.m = s.insertEntry s.m key e env at hm
      refine ⟨?_, ?_, hfind, ?_, ?_⟩
      · rw [hm]; exact Shard.insertEntry_perm s s.m key e env hmiss
      · rw [hm]; exact Shard.length_insertEntry s s.m key e env hmiss
      · intro k hk; rw [hm, Shard.find_insertEntry, if_neg hk]
      · intro q; rw [hm]; exact Shard.mem_insertEntry s s.m key e env hmiss q

/-- Witness of claim C15, in two parts.  A miss on `Shard.oneDirty`, a shard of
capacity 1 holding one entry: the entry at key 0 is gone and the size is the
same.  A miss on `Shard.twoClean`, a shard of capacity 3 holding two entries,
with an insertion that rehashes: one entry more, and the keys 0 and 4096 are
still there, now in the order 4096, 8192, 0. -/
theorem C15_eviction_step_witness :
    ((Shard.oneDirty.Get [] 4096 GetEnv.ok).shard.m.length = Shard.oneDirty.m.length ∧
      (Shard.oneDirty.Get [] 4096 GetEnv.ok).shard.m.find 0 = none) ∧
    ((Shard.twoClean.Get [] 8192 GetEnv.rehashes).shard.m.length =
        Shard.twoClean.m.length + 1 ∧
      (Shard.twoClean.Get [] 8192 GetEnv.rehashes).shard.m.Perm
        ((8192, { key := 8192, val := PageBuf.zero, isDirty := false }) :: Shard.twoClean.m) ∧
      Table.keys (Shard.twoClean.Get [] 8192 GetEnv.rehashes).shard.m = [4096, 8192, 0]) := by
  constructor
  · have hev : (Shard.oneDirty.makeRoom [] GetEnv.ok.evict).ret = true :=
      Shard.makeRoom_full Shard.oneDirty [] (by
        intro k v rest hm
        simp only [Shard.oneDirty, List.cons.injEq, Prod.mk.injEq] at hm
        omega)
    have hl : ¬ (loadEntry (Shard.oneDirty.makeRoom [] GetEnv.ok.evict).file 4096
        GetEnv.ok.load).1 < 0 := by
      rw [loadEntry_fst_neg_iff]; decide
    have hret : (Shard.oneDirty.Get [] 4096 GetEnv.ok).ret =
        some (loadEntry (Shard.oneDirty.makeRoom [] GetEnv.ok.evict).file 4096
          GetEnv.ok.load).2 := by
      rw [Shard.Get_load_ok Shard.oneDirty [] 4096 GetEnv.ok (by decide) hev hl]
    obtain ⟨k, v, rest, hm, htab, hlen, -, -⟩ :=
      (C15_eviction_step Shard.oneDirty [] 4096 GetEnv.ok (by decide) (by decide)).1
        ⟨by decide, by decide⟩ _ hret
    refine ⟨hlen, ?_⟩
    have hrest : rest = [] := by
      simp only [Shard.oneDirty, List.cons.injEq] at hm
      exact hm.2.symm
    rw [htab, hrest]
    decide
  · have hret : (Shard.twoClean.Get [] 8192 GetEnv.rehashes).ret =
        some { key := 8192, val := PageBuf.zero, isDirty := false } := by
      decide!
    obtain ⟨hperm, hlen, -, -, -⟩ :=
      (C15_eviction_step Shard.twoClean [] 8192 GetEnv.rehashes (by decide) (by decide)).2
        (by decide) |>.2.2 _ hret
    refine ⟨hlen, hperm, ?_⟩
    decide!

/-- Claim C16. A hit has no side effects: for every shard state and every resident
key, `Shard::Get` returns the entry stored under the key, issues no system
call, and leaves the shard (capacity and page table, whatever its size) and
the file as they are; in a well-formed pool that routes the key to this shard
`BufferPool::Get` returns `true`, leaves the page of the entry in the caller's
buffer, issues no system call and leaves the pool as it is. -/
theorem C16_hit_no_side_effects (s : Shard) (f : File) (key : Int) (env : GetEnv) (e : Entry)
    (hres : s.m.find key = some e) :
    (s.Get f key env).ret = some e ∧
    (s.Get f key env).shard = s ∧
    (s.Get f key env).file = f ∧
    (s.Get f key env).trace = [] ∧
    (∀ (bp : BufferPool) (buf : PageBuf), bp.WF → bp.file = f →
      bp.shards[BufferPool.hash key % bp.nShards.toNat]? = some s →
      ∃ r, bp.Get buf key env = some r ∧ r.ret = true ∧ r.buf = e.val ∧ r.pool = bp ∧
        r.trace = []) := by
  have hg := Shard.Get_hit s f key env e hres
  refine ⟨by rw [hg], by rw [hg], by rw [hg], by rw [hg], ?_⟩
  intro bp buf hwf hfile hidx
  obtain ⟨sh, hsh, hG⟩ := BufferPool.Get_of_WF bp hwf buf key env
  rw [hidx] at hsh
  simp only [Option.some.injEq] at hsh
  subst hsh
  subst hfile
  refine ⟨_, hG, ?_, ?_, ?_, ?_⟩
  · simp only [hg]; rfl
  · simp only [hg]
  · simp only [hg, BufferPool.set_same bp _ s hidx]
  · simp only [hg]

/-- Witness of claim C16: a hit on the page of `Shard.oneDirty`, a shard at
capacity. -/
theorem C16_hit_no_side_effects_witness :
    Shard.oneDirty.atCapacity = true ∧
    (Shard.oneDirty.Get [] 0 GetEnv.evictFails).shard = Shard.oneDirty ∧
    (Shard.oneDirty.Get [] 0 GetEnv.evictFails).trace = [] :=
  have h := C16_hit_no_side_effects Shard.oneDirty [] 0 GetEnv.evictFails
    { key := 0, val := PageBuf.fill 7, isDirty := true } rfl
  ⟨by decide, h.2.1, h.2.2.2.1⟩

/-- Claim C17. Cache transparency: for every pool whose shard count is a positive
`int`, started with empty tables on any file and with any per-shard
capacities, and every sequence of `Put`, `Get` and shard `Flush` calls at
offsets that are non-negative multiples of the page size, in which the
environment lets every read and write through in full, the run is defined
and the callers see exactly what they would see of a plain map from offset to
page that starts as the file, zero-padded: every call returns `true` and
every `Get` returns the page of the most recent `Put` at its offset, or the
page of the initial file there. -/
theorem C17_cache_transparency (bp₀ : BufferPool) (hempty : bp₀.Empty) (ops : List PoolOp)
    (hal : ∀ op ∈ ops, op.Aligned) (hs : ∀ op ∈ ops, op.Succeeds bp₀.nShards.toNat) :
    ∃ bp outs, bp₀.run ops = some (bp, outs) ∧
      outs.map (fun r => (r.1, r.2.map Subtype.val)) = plainRun (plainInit bp₀.file) ops := by
  obtain ⟨bp, outs, hrun, -, hout⟩ := BufferPool.run_refines ops bp₀ hempty.coherent
    (plainInit bp₀.file) (fun o _ _ => (hempty.view o).symm) hal hs
  exact ⟨bp, outs, hrun, hout⟩

/-- Witness of claim C17: the calls of `PoolOp.sample` on a one-shard pool over a
three-byte file. -/
theorem C17_cache_transparency_witness :
    ∃ bp outs, (BufferPool.single [1, 2, 3]).run PoolOp.sample = some (bp, outs) ∧
      outs.map (fun r => (r.1, r.2.map Subtype.val)) =
        plainRun (plainInit [1, 2, 3]) PoolOp.sample :=
  C17_cache_transparency (BufferPool.single [1, 2, 3]) (BufferPool.single_empty _)
    PoolOp.sample PoolOp.sample_aligned PoolOp.sample_succeeds

/-- Claim C18, as stated, fails: in a one-shard pool started empty on a file of one
page of bytes 7, after a `Get` at offset 0 whose read is cut short after one
byte, the entry at key 0 is not dirty and its page differs from the bytes of
the file at offset 0. -/
theorem C18_clean_pages_mirror_file_counterexample :
    (BufferPool.single (PageBuf.fill 7).1).Empty ∧
    PoolOp.Aligned (.get PageBuf.zero 0 GetEnv.shortRead) ∧
    ∃ bp outs s e,
      (BufferPool.single (PageBuf.fill 7).1).run [.get PageBuf.zero 0 GetEnv.shortRead] =
        some (bp, outs) ∧
      bp.shards[0]? = some s ∧ (0, e) ∈ s.m ∧ e.isDirty = false ∧
      bp.file.pageAt 0 ≠ e.val.1 := by
  refine ⟨BufferPool.single_empty _, by simp [PoolOp.Aligned], ?_⟩
  have h : (((BufferPool.single (PageBuf.fill 7).1).run
        [.get PageBuf.zero 0 GetEnv.shortRead]).bind
      (fun r => r.1.shards[0]?.bind (fun s => (Table.find s.m 0).map
        (fun e => !e.isDirty && !decide (r.1.file.pageAt 0 = e.val.1))))) = some true := by
    decide!
  cases hr : (BufferPool.single (PageBuf.fill 7).1).run
      [.get PageBuf.zero 0 GetEnv.shortRead] with
  | none => rw [hr] at h; cases h
  | some r =>
    rw [hr] at h
    simp only [Option.some_bind] at h
    cases hs : r.1.shards[0]? with
    | none => rw [hs] at h; cases h
    | some s =>
      rw [hs] at h
      simp only [Option.some_bind] at h
      obtain ⟨e, hmem, hP⟩ := Table.exists_of_find_map h
      simp only [Bool.and_eq_true, Bool.not_eq_true', decide_eq_false_iff_not] at hP
      exact ⟨r.1, r.2, s, e, rfl, hs, hmem, hP.1, hP.2⟩

/-- Claim C18, amended. Clean pages mirror the file: in every state reached from an
empty pool by `Put`, `Get` and shard `Flush` calls at offsets that are
multiples of the page size and whose page reads are not cut short - reads may
fail, and writes may fail or be cut short - every resident entry that is not
dirty has a non-negative key and holds the bytes of the file at its key,
positions past the end of the file read as zero. -/
theorem C18_clean_pages_mirror_file (bp₀ : BufferPool) (hempty : bp₀.Empty)
    (ops : List PoolOp) (hal : ∀ op ∈ ops, op.Aligned) (hrd : ∀ op ∈ ops, op.ReadsWhole)
    (bp : BufferPool) (outs : List PoolOut) (hrun : bp₀.run ops = some (bp, outs)) :
    ∀ (i : Nat) (s : Shard), bp.shards[i]? = some s →
      ∀ (k : Int) (e : Entry), (k, e) ∈ s.m → e.isDirty = false →
      0 ≤ k ∧ bp.file.pageAt k.toNat = e.val.1 := by
  intro i s hs k e hmem hc
  obtain ⟨-, hsh⟩ := BufferPool.run_keeps_coherent ops bp₀ hempty.coherent hal hrd bp outs hrun
  obtain ⟨⟨hkeys, -, hm⟩, -⟩ := hsh i s hs
  exact ⟨(hkeys k e hmem).1, hm k e hmem trivial hc (hkeys k e hmem).1⟩

/-- Witness of claim C18: the state reached by the calls of `PoolOp.sample` on a
one-shard pool over a three-byte file. -/
theorem C18_clean_pages_mirror_file_witness :
    ∃ bp outs, (BufferPool.single [1, 2, 3]).run PoolOp.sample = some (bp, outs) ∧
      ∀ (i : Nat) (s : Shard), bp.shards[i]? = some s →
      ∀ (k : Int) (e : Entry), (k, e) ∈ s.m → e.isDirty = false →
        0 ≤ k ∧ bp.file.pageAt k.toNat = e.val.1 := by
  obtain ⟨bp, outs, hrun, -, -⟩ := BufferPool.run_refines PoolOp.sample
    (BufferPool.single [1, 2, 3]) (BufferPool.single_empty _).coherent
    (plainInit [1, 2, 3]) (fun o _ _ => ((BufferPool.single_empty _).view o).symm)
    PoolOp.sample_aligned PoolOp.sample_succeeds
  exact ⟨bp, outs, hrun,
    C18_clean_pages_mirror_file (BufferPool.single [1, 2, 3]) (BufferPool.single_empty _)
      PoolOp.sample PoolOp.sample_aligned
      (fun op hop => (PoolOp.sample_succeeds op hop).readsWhole) bp outs hrun⟩

/-- Claim C19. A failed load is not atomic: in a shard whose capacity is an `int`,
at least 1, and whose table holds exactly that many entries, when
`Shard::Get` misses, the eviction succeeds and the read at the key returns a
negative value, the call returns `nullptr`, the key is not resident after it,
and the first element `(k, v)` of the old table stays evicted: the new table
is the rest of the old one, one entry fewer, the capacity is unchanged; when
`v` was dirty its whole page was written at `k` before the read, with return
value `pageSize`, and the file holds it; when `v` was not dirty the file is
as it was. -/
theorem C19_failed_load_not_atomic (s : Shard) (f : File) (key : Int) (env : GetEnv)
    (h1 : 1 ≤ s.maxEntriesPerShard) (hint : s.maxEntriesPerShard ≤ intMax)
    (hlen : (s.m.length : Int) = s.maxEntriesPerShard)
    (hmiss : s.m.find key = none)
    (hev : (s.makeRoom f env.evict).ret = true)
    (hrd : (loadEntry (s.makeRoom f env.evict).file key env.load).1 < 0) :
    ∃ k v rest, s.m = (k, v) :: rest ∧
      (s.Get f key env).ret = none ∧
      (s.Get f key env).shard.m = rest ∧
      (s.Get f key env).shard.maxEntriesPerShard = s.maxEntriesPerShard ∧
      (s.Get f key env).shard.m.length + 1 = s.m.length ∧
      (s.Get f key env).shard.m.find key = none ∧
      (v.isDirty = true →
        0 ≤ k ∧
        (s.Get f key env).file.pageAt k.toNat = v.val.1 ∧
        (s.Get f key env).trace = [.pwrite k v.val.1 (pageSize : Int),
          .pread key (loadEntry (s.makeRoom f env.evict).file key env.load).1]) ∧
      (v.isDirty = false →
        (s.Get f key env).file = f ∧
        (s.Get f key env).trace =
          [.pread key (loadEntry (s.makeRoom f env.evict).file key env.load).1]) := by
  have hcap := Shard.atCapacity_of_length_eq s hint hlen
  have hg := Shard.Get_load_fail s f key env hmiss hev hrd
  cases hs : s.m with
  | nil => rw [hs] at hlen; simp only [List.length_nil] at hlen; omega
  | cons p rest =>
    obtain ⟨k, v⟩ := p
    have hmr := Shard.makeRoom_atCapacity s f env.evict hcap
    rw [hs] at hmr
    have hnone : Table.find rest key = none := by
      have := Table.find_tail_none s.m key hmiss
      rw [hs] at this; exact this
    cases hd : v.isDirty with
    | false =>
      rw [evictOneLocked_clean k v rest f env.evict hd] at hmr
      refine ⟨k, v, rest, rfl, by rw [hg], by rw [hg, hmr], by rw [hg], by rw [hg, hmr]; rfl,
        by rw [hg, hmr]; exact hnone, (fun h => by rw [hd] at h; cases h), fun _ => ?_⟩
      exact ⟨by rw [hg, hmr], by rw [hg]; simp only [hmr, List.nil_append]⟩
    | true =>
      have hw : (pwrite f v.val k env.evict).1 = (pageSize : Int) := by
        by_contra hne
        have := (Shard.makeRoom_ret_false_iff s f env.evict).2
          ⟨hcap, k, v, rest, hs, hd, hne⟩
        rw [this] at hev; cases hev
      rw [evictOneLocked_dirty_ok k v rest f env.evict hd hw] at hmr
      obtain ⟨hk, -, hpage, -⟩ := pwrite_full f v.val k env.evict hw
      refine ⟨k, v, rest, rfl, by rw [hg], by rw [hg, hmr], by rw [hg], by rw [hg, hmr]; rfl,
        by rw [hg, hmr]; exact hnone, fun _ => ?_, (fun h => by rw [hd] at h; cases h)⟩
      refine ⟨hk, by rw [hg, hmr]; exact hpage, ?_⟩
      rw [hg]; simp only [hmr, hw, List.singleton_append]

/-- Witness of claim C19: a miss on `Shard.oneDirty` whose write-back succeeds and
whose read fails leaves the table empty and the page in the file. -/
theorem C19_failed_load_not_atomic_witness :
    (Shard.oneDirty.Get [] 4096 GetEnv.loadFails).ret = none ∧
    (Shard.oneDirty.Get [] 4096 GetEnv.loadFails).shard.m = [] ∧
    (Shard.oneDirty.Get [] 4096 GetEnv.loadFails).file.pageAt 0 = (PageBuf.fill 7).1 := by
  have hev : (Shard.oneDirty.makeRoom [] GetEnv.loadFails.evict).ret = true :=
    Shard.makeRoom_full Shard.oneDirty [] (by
      intro k v rest hm
      simp only [Shard.oneDirty, List.cons.injEq, Prod.mk.injEq] at hm
      omega)
  obtain ⟨k, v, rest, hm, hret, htab, -, -, -, hdirty, -⟩ :=
    C19_failed_load_not_atomic Shard.oneDirty [] 4096 GetEnv.loadFails (by decide) (by decide)
      (by decide) (by decide) hev (by rw [loadEntry_fst_neg_iff]; decide)
  simp only [Shard.oneDirty, List.cons.injEq, Prod.mk.injEq] at hm
  obtain ⟨⟨hk, hv⟩, hrest⟩ := hm
  subst hk hv hrest
  exact ⟨hret, htab, (hdirty rfl).2.1⟩

/-- Claim C20. Per-key, not per-byte coherence: there are two distinct offsets whose
byte ranges overlap, a file and a page `p` such that, in a one-shard pool of
capacity 2 started on that file, `BufferPool::Put(p, o₁)` returns `true`, the
`BufferPool::Get(buf, o₂)` that follows returns `true`, and the bytes it
returns for the overlapping range are the bytes of the file, all different
from the bytes of `p` there.  Here `o₁ = 0`, `o₂ = 1`, the file is one page of
bytes 1 and `p` is a page of bytes 7: bytes 0 to 4094 of the result, which are
offsets 1 to 4095 of the file, are 1. -/
theorem C20_per_key_coherence :
    ∃ (o₁ o₂ : Int) (f : File) (p : PageBuf) (r₁ : PoolPutResult) (r₂ : PoolGetResult),
      o₁ ≠ o₂ ∧ ¬ Disjoint o₁ o₂ ∧ 0 ≤ o₁ ∧ o₁ < o₂ ∧
      (BufferPool.single f).Put p o₁ GetEnv.ok = some r₁ ∧ r₁.ret = true ∧
      r₁.pool.Get PageBuf.zero o₂ GetEnv.ok = some r₂ ∧ r₂.ret = true ∧
      r₂.buf.1.take (pageSize - (o₂ - o₁).toNat) =
        (f.drop o₂.toNat).take (pageSize - (o₂ - o₁).toNat) ∧
      (∀ b ∈ r₂.buf.1.take (pageSize - (o₂ - o₁).toNat), b = 1) ∧
      (∀ b ∈ p.1.drop (o₂ - o₁).toNat, b = 7) := by
  have h : (((BufferPool.single (PageBuf.fill 1).1).Put (PageBuf.fill 7) 0 GetEnv.ok).bind
      (fun r₁ => (r₁.pool.Get PageBuf.zero 1 GetEnv.ok).map
        (fun r₂ => r₁.ret && r₂.ret &&
          decide (r₂.buf.1.take 4095 = ((PageBuf.fill 1).1.drop 1).take 4095) &&
          decide (r₂.buf.1.take 4095 = List.replicate 4095 1)))) = some true := by
    decide!
  cases h₁ : (BufferPool.single (PageBuf.fill 1).1).Put (PageBuf.fill 7) 0 GetEnv.ok with
  | none => rw [h₁] at h; cases h
  | some r₁ =>
    rw [h₁] at h
    simp only [Option.some_bind] at h
    cases h₂ : r₁.pool.Get PageBuf.zero 1 GetEnv.ok with
    | none => rw [h₂] at h; cases h
    | some r₂ =>
      rw [h₂] at h
      simp only [Option.map_some', Option.some.injEq, Bool.and_eq_true,
        decide_eq_true_eq] at h
      obtain ⟨⟨⟨hr₁, hr₂⟩, hold⟩, hones⟩ := h
      refine ⟨0, 1, (PageBuf.fill 1).1, PageBuf.fill 7, r₁, r₂, by decide,
        by unfold Disjoint pageSize; omega, by decide, by decide, h₁, hr₁, h₂, hr₂, ?_, ?_, ?_⟩
      · exact hold
      · intro b hb
        have h4095 : pageSize - ((1 : Int) - 0).toNat = 4095 := by decide
        rw [h4095, hones] at hb
        exact List.eq_of_mem_replicate hb
      · intro b hb
        exact List.eq_of_mem_replicate (List.mem_of_mem_drop hb)

end cache
